import Mathlib

/-!
Verification development for the tree synchronizer and storage/cache engine
of the anonymous_github repository.

The TypeScript sources embedded here are:
- `src/source/GitHubRepository.ts` (class `GitHubStream`): `getFileContent`,
  `getFiles`, `getTree`, `getTruncatedTree`, `tree2Tree`;
- `src/storage/FileSystem.ts` (class `FileSystem`): `exists`, `write`, `mk`,
  `listFiles`, `archive`.

Conventions of the embedding:
- JS objects of type `Tree` (`{ [segment]: Tree | FileEntry }`) are modelled by
  the inductive `Ano.Tree`: an object is an association list of children plus an
  optional pair of `size`/`sha` fields.  A `FileEntry` literal `{size, sha}` is a
  node with the fields set and no children; `{}` is a node with neither.  This
  representation is faithful to JS objects: the code can and does grow children
  inside an object that was created as a `FileEntry`.
- JS string operations are re-implemented over `List Char` so that every
  definition evaluates inside the kernel (`String.splitOn` and the `String`
  order of the library do not reduce).
- `path.join` of Node is modelled by plain concatenation with a `/`; this is
  exactly Node's behaviour whenever both arguments are relative paths made of
  nonempty segments free of `.`, `..` and duplicate slashes, which is the case
  everywhere the theorems below evaluate it.
- asynchronous functions are modelled as pure state-passing functions; the
  mutable `Tree` accumulator threaded through `getTree`/`getTruncatedTree` is
  passed and returned explicitly.  Remote calls are a parameter (`RemoteApi`),
  and the functions also return the list of tree ids fetched with the
  `recursive` flag, so that re-fetches are observable.
- the mutual recursion `getTree` ↔ `getTruncatedTree` (which in the source
  terminates because every recursive call descends into a strictly deeper
  subtree) is made structural with a fuel parameter; every theorem either
  supplies ample fuel for its concrete fixture or holds for all fuel values.
-/

namespace Ano

/-- JS `a <= b` on strings: lexicographic comparison by code points.  Used only
to normalise trees before comparing them up to object-key order. -/
def strLeb (a b : String) : Bool := go a.data b.data
where go : List Char → List Char → Bool
  | [], _ => true
  | _ :: _, [] => false
  | c :: cs, d :: ds =>
    if c.val.toNat < d.val.toNat then true
    else if d.val.toNat < c.val.toNat then false
    else go cs ds

/-- JS `s.split("/")`: splits at every `/`, keeping empty pieces. -/
def strSplitSlash (s : String) : List String := go s.data []
where go : List Char → List Char → List String
  | [], acc => [String.mk acc.reverse]
  | c :: rest, acc =>
    if c = '/' then String.mk acc.reverse :: go rest [] else go rest (c :: acc)

/-- JS `p[0] == "$"`: the first character of `p` is the reserved marker.  On the
empty string JS yields `undefined == "$"`, i.e. `false`. -/
def firstIsDollar (p : String) : Bool :=
  match p.data with
  | [] => false
  | c :: _ => c = '$'

/-- The escaping applied by `tree2Tree` and `listFiles` to a path segment:
`if (p[0] == "$") p = "\\" + p`. -/
def escSeg (p : String) : String :=
  if firstIsDollar p then "\\" ++ p else p

/-- Node `path.join(a, b)` restricted to clean relative paths (see the header
comment): `""` is Node's way of saying "no parent", and otherwise the two
pieces are glued with a single `/`. -/
def pathJoin (a b : String) : String :=
  if a = "" then b else a ++ "/" ++ b

/-- The two fields of a `FileEntry` leaf: `{size: …, sha: …}`. -/
structure FileInfo where
  size : Nat
  sha : String
deriving DecidableEq, Repr

/-- A JS object of the recursive `Tree` type of `src/types.ts` (modelled from
the spec's data-model section, the file being outside the provided sources):
each key is a path segment and each value is a sub-object; `FileEntry` leaves
are objects carrying the `size`/`sha` fields.  `fi` records those fields when
present and `children` the remaining (segment → subtree) properties, in
insertion order, as JS objects enumerate them. -/
inductive Tree where
  | node (fi : Option FileInfo) (children : List (String × Tree))
deriving Repr

/-- The empty object `{}`. -/
def Tree.empty : Tree := .node none []

/-- Decidable equality of trees (literal equality, key order included). -/
def Tree.decEqT : (a b : Tree) → Decidable (a = b)
  | .node fi cs, .node fi' cs' => by
    cases h : decide (fi = fi') with
    | false => exact .isFalse (by simp at h; intro hc; cases hc; exact h rfl)
    | true =>
      have hfi : fi = fi' := by simpa using h
      exact match decList cs cs' with
        | .isTrue hcs => .isTrue (by rw [hfi, hcs])
        | .isFalse hcs => .isFalse (by intro hc; cases hc; exact hcs rfl)
where
  decList : (xs ys : List (String × Tree)) → Decidable (xs = ys)
    | [], [] => .isTrue rfl
    | [], _ :: _ => .isFalse (by simp)
    | _ :: _, [] => .isFalse (by simp)
    | (k, t) :: xs, (k', t') :: ys =>
      match decEq k k', Tree.decEqT t t', decList xs ys with
      | .isTrue h1, .isTrue h2, .isTrue h3 => .isTrue (by rw [h1, h2, h3])
      | .isFalse h1, _, _ =>
        .isFalse (by intro hc; injection hc with h _; exact h1 (congrArg Prod.fst h))
      | _, .isFalse h2, _ =>
        .isFalse (by intro hc; injection hc with h _; exact h2 (congrArg Prod.snd h))
      | _, _, .isFalse h3 =>
        .isFalse (by intro hc; injection hc with _ h; exact h3 h)

instance : DecidableEq Tree := Tree.decEqT

/-- Property lookup `o[k]` on the children of a node. -/
def lookupKey : List (String × Tree) → String → Option Tree
  | [], _ => none
  | (k', v) :: rest, k => if k' = k then some v else lookupKey rest k

/-- Property write `o[k] = v`: overwrite in place, else append (JS objects keep
insertion order of their string keys). -/
def setKey : List (String × Tree) → String → Tree → List (String × Tree)
  | [], k, v => [(k, v)]
  | (k', v') :: rest, k, v =>
    if k' = k then (k, v) :: rest else (k', v') :: setKey rest k v

/-- Child lookup on a tree. -/
def Tree.find? : Tree → String → Option Tree
  | .node _ cs, k => lookupKey cs k

/-- Insertion sort of children by key, used by `Tree.norm` only. -/
def insKey : (String × Tree) → List (String × Tree) → List (String × Tree)
  | x, [] => [x]
  | x, y :: ys => if strLeb x.1 y.1 then x :: y :: ys else y :: insKey x ys

/-- See `insKey`. -/
def sortKeys : List (String × Tree) → List (String × Tree)
  | [] => []
  | x :: xs => insKey x (sortKeys xs)

mutual
/-- Normal form of a tree: children sorted by key at every level.  Two trees
are equal as JS objects up to key order (`deepEqual`) iff their normal forms
are equal. -/
def Tree.norm : Tree → Tree
  | .node fi cs => .node fi (sortKeys (normChildren cs))

/-- See `Tree.norm`. -/
def normChildren : List (String × Tree) → List (String × Tree)
  | [] => []
  | (k, t) :: rest => (k, Tree.norm t) :: normChildren rest
end

/-- Equality of trees as JS objects, disregarding key insertion order. -/
def Tree.eqv (a b : Tree) : Bool := a.norm = b.norm

/-- One element of the flat list returned by GitHub's `get-tree` API, as used
by `tree2Tree` (all fields optional, as in the octokit response type). -/
structure GhEntry where
  path : Option String
  type : Option String
  sha : Option String
  size : Option Nat
deriving DecidableEq, Repr

namespace GitHubStream

/-- The walk of `tree2Tree` for an entry of type `"tree"`: every segment is
escaped, created when missing (`current[p] = {}`) and descended into. -/
def insTreePath : Tree → List String → Tree
  | t, [] => t
  | .node fi cs, p :: rest =>
    let p' := escSeg p
    let child := (lookupKey cs p').getD Tree.empty
    .node fi (setKey cs p' (insTreePath child rest))

/-- The walk of `tree2Tree` for an entry of type `"blob"`: all segments but the
last are created/descended as for a tree entry, and the last is overwritten
with the `FileEntry` `{size: elem.size || 0, sha: elem.sha || ""}`. -/
def insBlobPath : Tree → List String → FileInfo → Tree
  | t, [], _ => t
  | .node fi cs, [p], info => .node fi (setKey cs (escSeg p) (.node (some info) []))
  | .node fi cs, p :: rest, info =>
    let p' := escSeg p
    let child := (lookupKey cs p').getD Tree.empty
    .node fi (setKey cs p' (insBlobPath child rest info))

/-- The walk of `tree2Tree` for an entry whose type is neither `"tree"` nor
`"blob"` (e.g. a submodule `"commit"`): the loop still runs up to the
penultimate segment, creating intermediate nodes, but nothing is inserted. -/
def insTouchPath : Tree → List String → Tree
  | t, [] => t
  | t, [_] => t
  | .node fi cs, p :: rest =>
    let p' := escSeg p
    let child := (lookupKey cs p').getD Tree.empty
    .node fi (setKey cs p' (insTouchPath child rest))

/-- The body of the `for (let elem of tree)` loop of `tree2Tree`: entries with
a missing or empty `path` are skipped (`if (!elem.path) continue`), the path is
joined with `parentPath` and split on `/`, and the walk depends on the entry
type. -/
def insertElem (parentPath : String) (t : Tree) (elem : GhEntry) : Tree :=
  match elem.path with
  | none => t
  | some p =>
    if p = "" then t
    else
      let segs := strSplitSlash (pathJoin parentPath p)
      if elem.type = some "tree" then insTreePath t segs
      else if elem.type = some "blob" then
        insBlobPath t segs ⟨elem.size.getD 0, elem.sha.getD ""⟩
      else insTouchPath t segs

/-- `GitHubStream.tree2Tree(tree, partialTree, parentPath)`: folds a flat
listing into the accumulated tree (called `partTree` here because of naming
constraints of this file). -/
def tree2Tree (treeEls : List GhEntry) (partTree : Tree) (parentPath : String) : Tree :=
  treeEls.foldl (insertElem parentPath) partTree

/-- Response of GitHub's `get-tree`: the flat entry list and the truncation
flag. -/
structure GhTreeResp where
  tree : List GhEntry
  truncated : Bool

/-- The two remote listing calls issued by the synchronizer: `recTree sha` is
`octokit.git.getTree({tree_sha: sha, recursive: "1"})` and `oneTree sha` is the
same call without `recursive`. -/
structure RemoteApi where
  recTree : String → GhTreeResp
  oneTree : String → GhTreeResp

/-- The lookup loop of `getTruncatedTree` over the accumulated tree: walks the
raw (unescaped) segments; the walk succeeds when every segment is found. -/
def walkFound : Tree → List String → Bool
  | _, [] => true
  | t, p :: rest =>
    match t.find? p with
    | none => false
    | some c => walkFound c rest

/-- Combined embedding of `GitHubStream.getTree` (mode `false`) and
`GitHubStream.getTruncatedTree` (mode `true`).  Returns the resulting tree and
the list of ids fetched through the recursive listing call, in order.  A fuel
unit is consumed at each hop of the mutual recursion, so fuel
`2 * depth + 2` is always ample for a fixture of directory depth `depth`. -/
def ghFetch (api : RemoteApi) : Nat → Bool → String → Tree → String → Tree × List String
  | 0, _, _, t, _ => (t, [])
  | n + 1, false, sha, truncTree, parentPath =>
    let ghRes := api.recTree sha
    let tree := tree2Tree ghRes.tree truncTree parentPath
    if ghRes.truncated then
      let r := ghFetch api n true sha tree parentPath
      (r.1, sha :: r.2)
    else (tree, [sha])
  | n + 1, true, sha, truncTree, parentPath =>
    let ghRes := api.oneTree sha
    let step := ghRes.tree.foldl
      (fun (acc : Tree × List String) elem =>
        match elem.path with
        | none => acc
        | some p =>
          if p = "" then acc
          else if elem.type = some "tree" then
            let elementPath := pathJoin parentPath p
            if walkFound acc.1 (strSplitSlash elementPath) then acc
            else
              match elem.sha with
              | some csha =>
                let r := ghFetch api n false csha acc.1 elementPath
                (r.1, acc.2 ++ r.2)
              | none => acc
          else acc)
      (truncTree, [])
    (tree2Tree ghRes.tree step.1 parentPath, step.2)

/-- `GitHubStream.getTree(sha, truncatedTree = {}, parentPath = "")`. -/
def getTree (api : RemoteApi) (fuel : Nat) (sha : String) (truncTree : Tree)
    (parentPath : String) : Tree × List String :=
  ghFetch api fuel false sha truncTree parentPath

/-- `GitHubStream.getFiles()` = `this.getTree(this.branch.commit)`. -/
def getFiles (api : RemoteApi) (fuel : Nat) (commit : String) : Tree × List String :=
  getTree api fuel commit Tree.empty ""

end GitHubStream

/-! ### Fixture remote trees

A fixture is a ground-truth directory hierarchy together with the responses a
remote listing API derives from it.  `GEntry` is one named child of a
directory: a blob with its sha and size, or a directory with its own tree id
and children.  A whole (sub)tree is a `List GEntry`. -/

/-- One named child of a fixture directory. -/
inductive GEntry where
  | gfile (name sha : String) (size : Nat)
  | gdir (name sha : String) (sub : List GEntry)
deriving Repr

mutual
/-- The recursive-listing entries contributed by one fixture child, its own
entry first (pre-order, the shape of a non-truncated `get-tree … recursive`
response). -/
def gListingE : GEntry → String → List GhEntry
  | .gfile nm sha sz, pfx => [⟨some (pathJoin pfx nm), some "blob", some sha, some sz⟩]
  | .gdir nm sha sub, pfx =>
    ⟨some (pathJoin pfx nm), some "tree", some sha, none⟩ :: gListing sub (pathJoin pfx nm)

/-- The full recursive listing of a fixture subtree, with paths joined onto
`pfx`. -/
def gListing : List GEntry → String → List GhEntry
  | [], _ => []
  | e :: rest, pfx => gListingE e pfx ++ gListing rest pfx
end

/-- The single-level listing of a fixture subtree: its immediate children only
(the shape of a `get-tree` response without `recursive`, never truncated). -/
def gOneListing (cs : List GEntry) : List GhEntry :=
  cs.map fun e =>
    match e with
    | .gfile nm sha sz => ⟨some nm, some "blob", some sha, some sz⟩
    | .gdir nm sha _ => ⟨some nm, some "tree", some sha, none⟩

/-- The reference tree of a fixture: a single non-truncated recursive listing
folded by `tree2Tree` into an empty tree. -/
def gFold (cs : List GEntry) : Tree :=
  GitHubStream.tree2Tree (gListing cs "") Tree.empty ""

/-! ### The filesystem storage backend (`src/storage/FileSystem.ts`)

The cache directory of one repository (`join(config.FOLDER, repoPath(repoId))`)
is modelled as an `FsNode`; every path handled below is the list of segments
relative to that root, because every operation of the class only ever touches
paths under it.  Stat information carried by a file is its size and its inode
number (`stats.size` and `stats.ino`). -/

/-- One filesystem object: a directory with named children (in directory
order, which is what `readdir` returns), a regular file, or an object that is
neither (socket, fifo, device, …). -/
inductive FsNode where
  | dir (children : List (String × FsNode))
  | file (size : Nat) (ino : Nat)
  | other
deriving Repr

/-- Name lookup among directory children. -/
def lookupFs : List (String × FsNode) → String → Option FsNode
  | [], _ => none
  | (k', v) :: rest, k => if k' = k then some v else lookupFs rest k

/-- Replace-or-append among directory children. -/
def setFs : List (String × FsNode) → String → FsNode → List (String × FsNode)
  | [], k, v => [(k, v)]
  | (k', v') :: rest, k, v =>
    if k' = k then (k, v) :: rest else (k', v') :: setFs rest k v

/-- Pure path resolution: the node a path leads to, if any. -/
def FsNode.find? : FsNode → List String → Option FsNode
  | n, [] => some n
  | .dir cs, s :: rest =>
    match lookupFs cs s with
    | none => none
    | some c => c.find? rest
  | _, _ :: _ => none

/-- The error codes of the filesystem calls the class distinguishes. -/
inductive FsErr where
  | enoent
  | enotdir
  | eexist
  | eisdir
deriving DecidableEq, Repr

instance {α β : Type} [DecidableEq α] [DecidableEq β] : DecidableEq (Except α β) := fun x y =>
  match x, y with
  | .ok a, .ok b =>
    match decEq a b with
    | .isTrue h => .isTrue (by rw [h])
    | .isFalse h => .isFalse (by intro hc; injection hc with h'; exact h h')
  | .error a, .error b =>
    match decEq a b with
    | .isTrue h => .isTrue (by rw [h])
    | .isFalse h => .isFalse (by intro hc; injection hc with h'; exact h h')
  | .ok _, .error _ => .isFalse (by intro hc; injection hc)
  | .error _, .ok _ => .isFalse (by intro hc; injection hc)

/-- `fs.promises.stat`: resolves the path or fails (`ENOENT` for a missing
component, `ENOTDIR` for a non-directory met along the way). -/
def statNode : FsNode → List String → Except FsErr FsNode
  | n, [] => .ok n
  | .dir cs, s :: rest =>
    match lookupFs cs s with
    | none => .error .enoent
    | some c => statNode c rest
  | _, _ :: _ => .error .enotdir

namespace FileSystem

/-- Modelled from the spec: the `FILE_TYPE` result enum of the storage
contract (`src/storage/Storage.ts`, a file outside the provided sources): the
spec's `exists(repoId, path) -> {FOLDER|FILE|NOT_FOUND}`. -/
inductive FILE_TYPE where
  | FOLDER
  | FILE
  | NOT_FOUND
deriving DecidableEq, Repr

/-- `FileSystem.exists(repoId, p)`: stat the cache path; a directory gives
FOLDER, a regular file gives FILE, and everything else — any stat failure
(swallowed by the empty `catch`) or an object that is neither — falls through
to NOT_FOUND. -/
def «exists» (repoFs : FsNode) (p : List String) : FILE_TYPE :=
  match statNode repoFs p with
  | .ok (.dir _) => .FOLDER
  | .ok (.file _ _) => .FILE
  | _ => .NOT_FOUND

/-- `fs.promises.mkdir(fullPath, {recursive: true})`: creates every missing
directory along the path; fails with `EEXIST` when the full path already
exists as a non-directory and `ENOTDIR` when a non-directory sits in the
middle. -/
def mkdirp : FsNode → List String → Except FsErr FsNode
  | .dir cs, [] => .ok (.dir cs)
  | _, [] => .error .eexist
  | .dir cs, s :: rest =>
    match lookupFs cs s with
    | none => .ok (.dir (setFs cs s (freshDirs rest)))
    | some c =>
      match mkdirp c rest with
      | .ok c' => .ok (.dir (setFs cs s c'))
      | .error e => .error e
  | _, _ :: _ => .error .enotdir
where
  /-- The chain of fresh directories `mkdir -p` creates below a missing one. -/
  freshDirs : List String → FsNode
    | [] => .dir []
    | s :: rest => .dir [(s, freshDirs rest)]

/-- `FileSystem.mk(repoId, dir)`: recursive mkdir with `EEXIST` swallowed
(`if (err.code !== "EEXIST") throw err`). -/
def mk (repoFs : FsNode) (dir : List String) : Except FsErr FsNode :=
  match mkdirp repoFs dir with
  | .error .eexist => .ok repoFs
  | r => r

/-- `fs.promises.writeFile(fullPath, data)`: parents must already exist;
overwrites a regular file, fails with `EISDIR` on a directory.  The written
file's metadata is the byte size of `data` and the inode the OS assigns. -/
def writeFile : FsNode → List String → Nat → Nat → Except FsErr FsNode
  | _, [], _, _ => .error .eisdir
  | .dir cs, [s], sz, ino =>
    match lookupFs cs s with
    | some (.dir _) => .error .eisdir
    | _ => .ok (.dir (setFs cs s (.file sz ino)))
  | .dir cs, s :: rest, sz, ino =>
    match lookupFs cs s with
    | none => .error .enoent
    | some c =>
      match writeFile c rest sz ino with
      | .ok c' => .ok (.dir (setFs cs s c'))
      | .error e => .error e
  | _, _ :: _, _, _ => .error .enotdir

/-- `FileSystem.write(repoId, p, data)`: `mk(repoId, dirname(p))` followed by
`writeFile` (`dirname` drops the last path segment; for a one-segment path it
is `"."`, i.e. the repository root itself). -/
def write (repoFs : FsNode) (p : List String) (sz ino : Nat) : Except FsErr FsNode :=
  match mk repoFs p.dropLast with
  | .ok r => writeFile r p sz ino
  | .error e => .error e

/-- The observable events of a `listFiles` walk, in order: the `onEntry`
callback invocations, with the raw (unescaped) `filePath` and `stats.size`
they receive, and the walk errors recorded by `span.recordException` (which do
not abort the walk). -/
inductive LEvent where
  | onEntry (path : List String) (size : Nat)
  | errRecorded (path : List String)
deriving DecidableEq, Repr

/-- The body of the `for (let file of files)` loop of `listFiles`, threading
the `output` object (association list of its children) and the event log;
`recur` is the recursive call on a sub-directory.  For each name the loop
stats `join(fullPath, filePath)` — where `fullPath` already ends in `dir` and
`filePath = join(dir, name)`, so relative to the repository root the stat
target is `dir ++ dir ++ [name]`, with `dir` duplicated.  Stat failures (and
errors thrown by the recursive call) land in the `catch`, are recorded and
skipped.  A directory recurses (its subtree stored under the escaped name), a
regular file fires `onEntry` and stores `{size, sha: stats.ino.toString()}`;
anything else is ignored. -/
def listStep (root : FsNode) (recur : List String → Except FsErr Tree × List LEvent)
    (dir : List String) (acc : List (String × Tree) × List LEvent) (c : String × FsNode) :
    List (String × Tree) × List LEvent :=
  let filePath := dir ++ [c.1]
  let statPath := dir ++ filePath
  match root.find? statPath with
  | none => (acc.1, acc.2 ++ [.errRecorded statPath])
  | some (.dir _) =>
    let sub := recur filePath
    match sub.1 with
    | .ok subtree => (setKey acc.1 (escSeg c.1) subtree, acc.2 ++ sub.2)
    | .error _ => (acc.1, acc.2 ++ sub.2 ++ [.errRecorded filePath])
  | some (.file sz ino) =>
    (setKey acc.1 (escSeg c.1) (.node (some ⟨sz, toString ino⟩) []),
     acc.2 ++ [.onEntry filePath sz])
  | some .other => acc

/-- `FileSystem.listFiles(repoId, dir, opt)`: reads the directory at `dir` and
folds `listStep` over its children in directory order.  A thrown `readdir`
error propagates to the caller (modelled as `.error`); fuel `0` is also
modelled as a failed `readdir` — the theorems always supply ample fuel. -/
def listFiles (root : FsNode) : Nat → List String → Except FsErr Tree × List LEvent
  | 0, _ => (.error .enoent, [])
  | n + 1, dir =>
    match root.find? dir with
    | some (.dir cs) =>
      let r := cs.foldl (fun acc c => listStep root (fun q => listFiles root n q) dir acc c) ([], [])
      (.ok (.node none r.1), r.2)
    | some _ => (.error .enotdir, [])
    | none => (.error .enoent, [])

end FileSystem

/-- Node `path.basename` of a relative path given as segments. -/
def basenameOf (segs : List String) : String := segs.getLast?.getD ""

/-- Concatenation of segments with `/` between them. -/
def joinSegs : List String → String
  | [] => ""
  | [s] => s
  | s :: rest => s ++ "/" ++ joinSegs rest

/-- Node `path.dirname` of a relative path given as segments: everything but
the last segment, or `"."` when there is none. -/
def dirnameOf (segs : List String) : String :=
  match segs.dropLast with
  | [] => "."
  | ds => joinSegs ds

/-- The observable events of `FileSystem.archive`: `archive.append(rs, {name,
prefix})` calls and the `archive.finalize()` call. -/
inductive ArchEvent where
  | append (name : String) (pfx : String)
  | finalizeEv
deriving DecidableEq, Repr

/-- A microtask job: when dequeued it emits its events and enqueues its
spawned jobs at the back of the queue (the FIFO discipline of the JS microtask
queue). -/
inductive Job where
  | mk (emits : List ArchEvent) (spawns : List Job)

/-- FIFO execution of a microtask queue, with fuel (each step consumes one
unit; the caller supplies the exact number of jobs that will ever run). -/
def runQueueF : Nat → List Job → List ArchEvent
  | 0, _ => []
  | _ + 1, [] => []
  | n + 1, .mk es sp :: q => es ++ runQueueF n (q ++ sp)

namespace FileSystem

/-- The job structure of `FileSystem.archive`'s walk, from the source:

```
await this.listFiles(repoId, dir, { onEntry: async (file) => {
  let rs = await this.read(repoId, file.path);
  …
  archive.append(rs, { name: basename(f), prefix: dirname(f) }); } })
  .then(() => { archive.finalize(); });
```

`listFiles` invokes the `async` callback `onEntry` without awaiting it: the
callback runs synchronously up to `await this.read(…)` — whose promise is
already resolved, `read` being an async function with a synchronous body — so
its continuation (which issues the `append`) is enqueued on the microtask
queue at `onEntry`-call time, and the walk carries on.  The walk job for the
remaining files, i.e. the continuation of the walk's own next `await`, is
enqueued after it; when the walk is over, the resolution of `listFiles`'s
promise chain finally enqueues the `.then` callback that calls `finalize()`.
A `fileTransformer` is applied synchronously (`rs.pipe(…)`) before `append`
and so does not alter this structure, however slow the transform streams.
The entry name is computed from `f = file.path.replace(fullPath, "")`, a
no-op since `fullPath` is an absolute path under the storage root and
`file.path` is relative to the repository root; hence `name`/`prefix` are the
basename/dirname of the repository-root-relative path, not of a path relative
to the requested `dir`. -/
def walkJob : List (List String) → Job
  | [] => .mk [] [Job.mk [.finalizeEv] []]
  | p :: rest => .mk [] [Job.mk [.append (basenameOf p) (dirnameOf p)] [], walkJob rest]

/-- The raw paths passed to `onEntry` during a `listFiles` walk, in order. -/
def walkPaths (root : FsNode) (fuel : Nat) (dir : List String) : List (List String) :=
  (listFiles root fuel dir).2.filterMap fun e =>
    match e with
    | .onEntry p _ => some p
    | .errRecorded _ => none

/-- `FileSystem.archive(repoId, dir, opt)`: the outcome of the archive
construction.  The body is
`await this.listFiles(…).then(() => archive.finalize())`: when the root
`readdir` inside `listFiles` throws, the promise rejects before any `onEntry`
fires, the `.then` handler is skipped — `finalize()` never runs — and the
`await` re-throws, so `archive` itself rejects having emitted no event
(modelled as `.error`).  When `listFiles` resolves, the event trace is
obtained by running the microtask jobs of the walk (see `walkJob`); two jobs
run per appended file and two more wrap up, which is exactly the fuel
supplied to `runQueueF`. -/
def archive (root : FsNode) (fuel : Nat) (dir : List String) :
    Except FsErr (List ArchEvent) :=
  match (listFiles root fuel dir).1 with
  | .error e => .error e
  | .ok _ =>
    .ok (runQueueF (2 * (walkPaths root fuel dir).length + 2)
      [walkJob (walkPaths root fuel dir)])

end FileSystem

namespace GitHubStream

/-- A value thrown inside `getFileContent`: either an `Error` constructed by
the method itself (identified by its message), or an error raised by the
octokit blob call, identified by its `status` field (`none` when the failure
carries no HTTP status, e.g. a network-level error). -/
inductive Thrown where
  | errMsg (msg : String)
  | httpErr (status : Option Nat)
deriving DecidableEq, Repr

/-- JS `error.status`: `undefined` (i.e. `none`) on an `Error` built by the
method itself or on a status-less network failure. -/
def Thrown.status : Thrown → Option Nat
  | .errMsg _ => none
  | .httpErr st => st

/-- The data of a successful `octokit.rest.git.getBlob` response: `content`
is `none` when the field is falsy (absent or the empty string) and otherwise
carries the decoded bytes of the base64 payload; `size` is the blob size. -/
structure GhBlob where
  content : Option (List Nat)
  size : Nat
deriving DecidableEq, Repr

/-- The fields of `AnonymizedFile` consumed by `getFileContent`. -/
structure AnonymizedFile where
  sha : Option String
  originalCachePath : String
deriving DecidableEq, Repr

/-- The observable outcome of one `getFileContent` call: its result (the
returned bytes or the value thrown), the cache writes it performed, and how
many blob requests it issued. -/
structure GfcOut where
  result : Except Thrown (List Nat)
  cacheWrites : List (String × List Nat)
  blobCalls : Nat
deriving DecidableEq, Repr

/-- `GitHubStream.getFileContent(file)`.  `getBlob` is the remote blob call
(`sha ↦ response`) and `writeRes` the outcome of `storage.write(file.
originalCachePath, content)` (a storage failure carries no HTTP status, hence
the `String` error).  Faithful control flow: a missing `file.sha` throws
`file_sha_not_provided` before anything else; the `try` block covers the blob
call, the emptiness check (`if (!content && size != 0) throw
file_not_accessible`) and the cache write; the `catch` turns an error whose
`status` equals 403 into `file_too_big` and only logs anything else, after
which the method ends with `throw new Error("file_not_accessible")`. -/
def getFileContent (file : AnonymizedFile) (getBlob : String → Except Thrown GhBlob)
    (writeRes : Except String Unit) : GfcOut :=
  match file.sha with
  | none => ⟨.error (.errMsg "file_sha_not_provided"), [], 0⟩
  | some sha =>
    match getBlob sha with
    | .error e =>
      if e.status = some 403 then ⟨.error (.errMsg "file_too_big"), [], 1⟩
      else ⟨.error (.errMsg "file_not_accessible"), [], 1⟩
    | .ok blob =>
      match blob.content with
      | none =>
        if blob.size ≠ 0 then ⟨.error (.errMsg "file_not_accessible"), [], 1⟩
        else
          match writeRes with
          | .ok _ => ⟨.ok [], [(file.originalCachePath, [])], 1⟩
          | .error _ => ⟨.error (.errMsg "file_not_accessible"), [], 1⟩
      | some bs =>
        match writeRes with
        | .ok _ => ⟨.ok bs, [(file.originalCachePath, bs)], 1⟩
        | .error _ => ⟨.error (.errMsg "file_not_accessible"), [], 1⟩

/-- Modelled from the spec: the error kinds of the source contract
(`FileShaMissing`, `FileTooLarge`, `FileNotAccessible`). -/
inductive SpecErr where
  | FileShaMissing
  | FileTooLarge
  | FileNotAccessible
deriving DecidableEq, Repr

/-- The error message the implementation uses for each spec error kind. -/
def SpecErr.msg : SpecErr → String
  | .FileShaMissing => "file_sha_not_provided"
  | .FileTooLarge => "file_too_big"
  | .FileNotAccessible => "file_not_accessible"

/-- Modelled from the spec: `getFileContent(fileRef) -> byte stream` —
"retrieves one file's bytes, writes a local cache copy as a side effect.
Fails with `FileShaMissing` if no identifier is supplied, `FileTooLarge` if
upstream rejects due to size policy (the 403 of the blob endpoint), and
`FileNotAccessible` otherwise."  Success requires the blob's bytes to be
available (present content, or an empty file) and the cache write to go
through. -/
def getFileContentSpec (file : AnonymizedFile) (getBlob : String → Except Thrown GhBlob)
    (writeRes : Except String Unit) : Except SpecErr (List Nat) × List (String × List Nat) :=
  match file.sha with
  | none => (.error .FileShaMissing, [])
  | some sha =>
    match getBlob sha with
    | .error e =>
      if e.status = some 403 then (.error .FileTooLarge, [])
      else (.error .FileNotAccessible, [])
    | .ok blob =>
      match blob.content, blob.size, writeRes with
      | some bs, _, .ok _ => (.ok bs, [(file.originalCachePath, bs)])
      | none, 0, .ok _ => (.ok [], [(file.originalCachePath, [])])
      | _, _, _ => (.error .FileNotAccessible, [])

end GitHubStream

/-- A file reference with a sha, for the C6 counterexample. -/
def cFile : GitHubStream.AnonymizedFile := ⟨some "sha1", "cache/path"⟩

/-- A blob endpoint failing with a transient upstream error (HTTP 502), for
the C6 counterexample. -/
def cBlob502 : String → Except GitHubStream.Thrown GitHubStream.GhBlob :=
  fun _ => .error (.httpErr (some 502))

/-- The repository cache after `write('a/b.txt', 10 bytes)` into an empty
cache (the OS assigning inode 7). -/
def cacheA : FsNode :=
  match FileSystem.write (.dir []) ["a", "b.txt"] 10 7 with
  | .ok r => r
  | .error _ => .other

/-- The cache of `cacheA` after `write('c.txt', 5 bytes)` (inode 9). -/
def cacheAB : FsNode :=
  match FileSystem.write cacheA ["c.txt"] 5 9 with
  | .ok r => r
  | .error _ => .other

/-! ### The structural invariant of folded trees (C9) -/

/-- Membership test among keys. -/
def membS (k : String) : List String → Bool
  | [] => false
  | x :: xs => if x = k then true else membS k xs

/-- No duplicate keys. -/
def distinctKeysB : List String → Bool
  | [] => true
  | k :: rest => !membS k rest && distinctKeysB rest

/-- No empty key. -/
def nonemptyKeysB : List String → Bool
  | [] => true
  | k :: rest => if k = "" then false else nonemptyKeysB rest

mutual
/-- The structural invariant of a Tree, at every level: sibling keys are
distinct, a node is never simultaneously a leaf (a `FileEntry`, i.e. it has
the `size`/`sha` fields) and a subtree (it has children), and no key is the
empty (spurious) segment. -/
def Tree.invB : Tree → Bool
  | .node fi cs =>
    distinctKeysB (cs.map Prod.fst) && (fi.isNone || cs.isEmpty) &&
    nonemptyKeysB (cs.map Prod.fst) && invChildrenB cs

/-- See `Tree.invB`. -/
def invChildrenB : List (String × Tree) → Bool
  | [] => true
  | (_, t) :: rest => Tree.invB t && invChildrenB rest
end

/-- The node reached by the (escaped) path `q` carries the `FileEntry`
fields. -/
def Tree.fileAt : Tree → List String → Prop
  | .node fi _, [] => fi.isSome = true
  | t, s :: rest => ∃ c, t.find? s = some c ∧ Tree.fileAt c rest

/-- `q` is a strict initial run of `s` (a proper prefix as segment lists). -/
def ExtendsBy (q s : List String) : Prop := ∃ r, s = q ++ r ∧ r ≠ []

/-- Boolean form of `ExtendsBy`. -/
def strictRunB : List String → List String → Bool
  | [], [] => false
  | [], _ :: _ => true
  | _ :: _, [] => false
  | x :: xs, y :: ys => if x = y then strictRunB xs ys else false

/-- The split path segments an entry contributes, when it is not skipped. -/
def segsOfEntry (pp : String) (e : GhEntry) : Option (List String) :=
  match e.path with
  | none => none
  | some p => if p = "" then none else some (strSplitSlash (pathJoin pp p))

/-- The same segments after the `$`-escaping applied on insertion. -/
def escSegsOfEntry (pp : String) (e : GhEntry) : Option (List String) :=
  (segsOfEntry pp e).map (List.map escSeg)

/-- The collision hazard of the invariant: a blob entry whose escaped path is
a proper prefix of another entry's escaped path. -/
def blobHazardB (pp : String) (e e' : GhEntry) : Bool :=
  if e.type = some "blob" then
    match escSegsOfEntry pp e, escSegsOfEntry pp e' with
    | some s, some s' => strictRunB s s'
    | _, _ => false
  else false

/-- An entry containing an empty path segment. -/
def entryEmptySegB (pp : String) (e : GhEntry) : Bool :=
  match segsOfEntry pp e with
  | some s => membS "" s
  | none => false

/-- A flat listing with a file entry (`a`) and, at a path below it, another
entry (`a/b`), for the C9 counterexample. -/
def badListing : List GhEntry :=
  [⟨some "a", some "blob", some "shaU", some 1⟩,
   ⟨some "a/b", some "blob", some "shaV", some 2⟩]

/-! ### Synchronizer fixtures (C1, C2) -/

/-- Two-level-truncation fixture data: `a/b/x.txt`, `a/y.txt`, `z.txt`, with
`a` and `a/b` being the directories whose listings need resolution. -/
def gTwoLevel : List GEntry :=
  [.gdir "a" "shaA" [.gdir "b" "shaB" [.gfile "x.txt" "shaX" 1], .gfile "y.txt" "shaY" 2],
   .gfile "z.txt" "shaZ" 3]

/-- The remote API over `gTwoLevel` (root id `shaR`): the recursive listing of
the root is truncated — it only delivers the sibling blob `z.txt`, the whole
subtree `a` being cut out — and the recursive listing of `a` (id `shaA`) is
truncated as well, delivering only `y.txt` and cutting out the whole subtree
`b`; the recursive listing of `b` (id `shaB`) is complete.  Each truncated
listing is subtree-closed: it never delivers a proper part of a directory it
mentions. -/
def apiTwoLevel : GitHubStream.RemoteApi where
  recTree sha :=
    if sha = "shaR" then ⟨[⟨some "z.txt", some "blob", some "shaZ", some 3⟩], true⟩
    else if sha = "shaA" then ⟨[⟨some "y.txt", some "blob", some "shaY", some 2⟩], true⟩
    else if sha = "shaB" then ⟨gListing [.gfile "x.txt" "shaX" 1] "", false⟩
    else ⟨[], false⟩
  oneTree sha :=
    if sha = "shaR" then ⟨gOneListing gTwoLevel, false⟩
    else if sha = "shaA" then
      ⟨gOneListing [.gdir "b" "shaB" [.gfile "x.txt" "shaX" 1], .gfile "y.txt" "shaY" 2], false⟩
    else if sha = "shaB" then ⟨gOneListing [.gfile "x.txt" "shaX" 1], false⟩
    else ⟨[], false⟩

/-- Fixture data for the C1 counterexample: a single directory `a` holding
`x.txt` and `y.txt`. -/
def gCut : List GEntry :=
  [.gdir "a" "shaQA" [.gfile "x.txt" "shaX" 1, .gfile "y.txt" "shaY" 2]]

/-- The remote API over `gCut` (root id `shaQR`): the truncated recursive root
listing is cut *inside* the subtree `a` — it delivers the directory entry `a`
and `a/x.txt` but not `a/y.txt` (the shape of a response-size cut falling
mid-subtree).  The recursive listing of `a` itself (id `shaQA`) is complete
and would repair the tree, were it ever requested. -/
def apiCut : GitHubStream.RemoteApi where
  recTree sha :=
    if sha = "shaQR" then
      ⟨[⟨some "a", some "tree", some "shaQA", none⟩,
        ⟨some "a/x.txt", some "blob", some "shaX", some 1⟩], true⟩
    else if sha = "shaQA" then
      ⟨gListing [.gfile "x.txt" "shaX" 1, .gfile "y.txt" "shaY" 2] "", false⟩
    else ⟨[], false⟩
  oneTree sha :=
    if sha = "shaQR" then ⟨gOneListing gCut, false⟩
    else if sha = "shaQA" then
      ⟨gOneListing [.gfile "x.txt" "shaX" 1, .gfile "y.txt" "shaY" 2], false⟩
    else ⟨[], false⟩

/-- Fixture data for C2: a directory whose name starts with the reserved
marker, plus a sibling file. -/
def gDollar : List GEntry :=
  [.gdir "$a" "shaDA" [.gfile "x.txt" "shaX" 1], .gfile "z.txt" "shaZ" 3]

/-- The remote API over `gDollar` (root id `shaDR`): the truncated root
listing contains the `$a` directory entry and its complete subtree
(`$a/x.txt`), only the sibling `z.txt` being cut off. -/
def apiDollar : GitHubStream.RemoteApi where
  recTree sha :=
    if sha = "shaDR" then
      ⟨[⟨some "$a", some "tree", some "shaDA", none⟩,
        ⟨some "$a/x.txt", some "blob", some "shaX", some 1⟩], true⟩
    else if sha = "shaDA" then ⟨gListing [.gfile "x.txt" "shaX" 1] "", false⟩
    else ⟨[], false⟩
  oneTree sha :=
    if sha = "shaDR" then ⟨gOneListing gDollar, false⟩
    else if sha = "shaDA" then ⟨gOneListing [.gfile "x.txt" "shaX" 1], false⟩
    else ⟨[], false⟩

/-- The same fixture with the unescaped directory name `a` (root id
`shaPR`, directory id `shaPA`). -/
def gPlain : List GEntry :=
  [.gdir "a" "shaPA" [.gfile "x.txt" "shaX" 1], .gfile "z.txt" "shaZ" 3]

/-- See `gPlain`. -/
def apiPlain : GitHubStream.RemoteApi where
  recTree sha :=
    if sha = "shaPR" then
      ⟨[⟨some "a", some "tree", some "shaPA", none⟩,
        ⟨some "a/x.txt", some "blob", some "shaX", some 1⟩], true⟩
    else if sha = "shaPA" then ⟨gListing [.gfile "x.txt" "shaX" 1] "", false⟩
    else ⟨[], false⟩
  oneTree sha :=
    if sha = "shaPR" then ⟨gOneListing gPlain, false⟩
    else if sha = "shaPA" then ⟨gOneListing [.gfile "x.txt" "shaX" 1], false⟩
    else ⟨[], false⟩

/-! ### Path semantics of trees (for the general synchronizer theorem)

Two JS `Tree` objects are `deepEqual` exactly when they have the same node
paths and the same `FileEntry` fields at every path (provided sibling keys are
distinct, which `tree2Tree` guarantees — see the C9 development).  `keyAt`
and `entryAt` capture those two observations. -/

/-- A node exists at the (escaped) path `q`. -/
def Tree.keyAt : Tree → List String → Prop
  | _, [] => True
  | t, s :: rest => ∃ c, t.find? s = some c ∧ Tree.keyAt c rest

/-- The `FileEntry` fields carried by the node at the (escaped) path `q`. -/
def Tree.entryAt : Tree → List String → Option FileInfo
  | .node fi _, [] => fi
  | t, s :: rest =>
    match t.find? s with
    | none => none
    | some c => c.entryAt rest

/-- `q` is an initial run of `s`, possibly all of it. -/
def InitOf (q s : List String) : Prop := ∃ r, s = q ++ r

/-- The full escaped path segments an entry contributes relative to the
parent-path segments `pps`. -/
def entrySegs (pps : List String) (e : GhEntry) : Option (List String) :=
  match e.path with
  | none => none
  | some p => if p = "" then none else some ((pps ++ strSplitSlash p).map escSeg)

/-- Some entry of the listing creates a node at `q` (`q ≠ []`). -/
def inKeysL (pps : List String) (es : List GhEntry) (q : List String) : Prop :=
  ∃ e, e ∈ es ∧ ∃ S, entrySegs pps e = some S ∧ InitOf q S

/-- The `FileEntry` the first matching blob entry of the listing writes at
`q`. -/
def blobAtL (pps : List String) : List GhEntry → List String → Option FileInfo
  | [], _ => none
  | e :: rest, q =>
    if e.type = some "blob" ∧ entrySegs pps e = some q then
      some ⟨e.size.getD 0, e.sha.getD ""⟩
    else blobAtL pps rest q

/-- `q` lies strictly below a blob path of the listing. -/
def underBlobL (pps : List String) (es : List GhEntry) (q : List String) : Prop :=
  ∃ e, e ∈ es ∧ e.type = some "blob" ∧ ∃ S, entrySegs pps e = some S ∧ ExtendsBy S q

/-! ### A general truncation-resolution round

The remaining definitions set up the universal form of the §8 property: an
arbitrary well-formed fixture, an arbitrary subtree-closed truncated root
listing, and the remote API the synchronizer sees during one round of
truncation resolution. -/

/-- `s` contains no `/`. -/
def noSlashB (s : String) : Bool := s.data.all (fun c => decide (c ≠ '/'))

/-- The raw segments a parent-path string contributes when joined in front of
a relative path: Node's `""` parent contributes none. -/
def splitsTo (a : String) : List String := if a = "" then [] else strSplitSlash a

/-- The name of a fixture child. -/
def GEntry.nameOf : GEntry → String
  | .gfile nm _ _ => nm
  | .gdir nm _ _ => nm

mutual
/-- `q` (escaped segments) is the path of a node of the fixture: each step
descends into a directory child, and the chain may stop at any node. -/
def chainF : List GEntry → List String → Bool
  | [], _ => false
  | e :: cs, q => chainFE e q || chainF cs q

/-- See `chainF`: chains through one child. -/
def chainFE : GEntry → List String → Bool
  | .gfile nm _ _, q => decide (q = [escSeg nm])
  | .gdir nm _ sub, q =>
    match q with
    | [] => false
    | s :: rest => decide (s = escSeg nm) && (decide (rest = []) || chainF sub rest)
end

mutual
/-- The file fields of the fixture node at escaped path `q`, when that node is
a file. -/
def blobF : List GEntry → List String → Option FileInfo
  | [], _ => none
  | e :: cs, q =>
    match blobFE e q with
    | some i => some i
    | none => blobF cs q

/-- See `blobF`: file lookup through one child. -/
def blobFE : GEntry → List String → Option FileInfo
  | .gfile nm sha sz, q => if q = [escSeg nm] then some ⟨sz, sha⟩ else none
  | .gdir nm _ sub, q =>
    match q with
    | [] => none
    | s :: rest => if s = escSeg nm ∧ rest ≠ [] then blobF sub rest else none
end

mutual
/-- See `gwfB`: the per-child conjunction. -/
def gwfL : List GEntry → Bool
  | [] => true
  | e :: cs => gwfE e && gwfL cs

/-- See `gwfB`: one child is well-formed. -/
def gwfE : GEntry → Bool
  | .gfile nm _ _ => decide (nm ≠ "") && noSlashB nm
  | .gdir nm _ sub =>
    decide (nm ≠ "") && noSlashB nm &&
    distinctKeysB ((sub.map GEntry.nameOf).map escSeg) && gwfL sub
end

/-- Well-formedness of a fixture directory level: every name is nonempty and
slash-free, the escaped names of each directory are distinct, recursively. -/
def gwfB (cs : List GEntry) : Bool :=
  distinctKeysB ((cs.map GEntry.nameOf).map escSeg) && gwfL cs

mutual
/-- Sibling keys are distinct at every level of the tree (the part of the C9
invariant that pins a JS object down to its key set). -/
def Tree.dkB : Tree → Bool
  | .node _ cs => distinctKeysB (cs.map Prod.fst) && dkChildren cs

/-- See `Tree.dkB`. -/
def dkChildren : List (String × Tree) → Bool
  | [] => true
  | (_, t) :: rest => Tree.dkB t && dkChildren rest
end

mutual
/-- Size of a tree, for strong induction. -/
def Tree.sz : Tree → Nat
  | .node _ cs => 1 + szChildren cs

/-- See `Tree.sz`. -/
def szChildren : List (String × Tree) → Nat
  | [] => 0
  | (_, t) :: rest => Tree.sz t + szChildren rest
end

/-- The key ordering `Tree.norm` sorts by. -/
def keyLe (a b : String × Tree) : Prop := strLeb a.1 b.1 = true

/-- The body of the step-2 fold of `getTruncatedTree` (the loop over the
non-recursive listing's entries), named so the fold can be reasoned about
entry by entry; `ghFetch api (n+1) true …` runs exactly this fold. -/
def GitHubStream.step2F (api : GitHubStream.RemoteApi) (n : Nat) (parentPath : String) :
    Tree × List String → GhEntry → Tree × List String :=
  fun acc elem =>
    match elem.path with
    | none => acc
    | some p =>
      if p = "" then acc
      else if elem.type = some "tree" then
        let elementPath := pathJoin parentPath p
        if GitHubStream.walkFound acc.1 (strSplitSlash elementPath) then acc
        else
          match elem.sha with
          | some csha =>
            let r := GitHubStream.ghFetch api n false csha acc.1 elementPath
            (r.1, acc.2 ++ r.2)
          | none => acc
      else acc

/-- The tree ids of the top-level directories of a fixture. -/
def topDirShas : List GEntry → List String
  | [] => []
  | .gfile _ _ _ :: cs => topDirShas cs
  | .gdir _ sha _ :: cs => sha :: topDirShas cs

/-- The first top-level directory of the fixture carrying the given tree id,
with its children: how the one-round remote API dispatches a recursive
listing request for a subtree. -/
def topDirSub : List GEntry → String → Option (String × List GEntry)
  | [], _ => none
  | .gfile _ _ _ :: cs, sha => topDirSub cs sha
  | .gdir nm dsha sub :: cs, sha =>
    if dsha = sha then some (nm, sub) else topDirSub cs sha

/-- The remote API of one truncation-resolution round over the fixture `cs`:
the recursive listing of the root comes back truncated to `esT`, the
non-recursive root listing and the recursive listings of the top-level
subtrees are complete. -/
def oneRoundApi (cs : List GEntry) (esT : List GhEntry) (rootSha : String) :
    GitHubStream.RemoteApi where
  recTree sha :=
    if sha = rootSha then ⟨esT, true⟩
    else
      match topDirSub cs sha with
      | some (_, sub) => ⟨gListing sub "", false⟩
      | none => ⟨[], false⟩
  oneTree _ := ⟨gOneListing cs, false⟩

/-- First raw segment of a listing entry's path. -/
def entryHead (e : GhEntry) : Option String :=
  match e.path with
  | none => none
  | some p => (strSplitSlash p).head?

/-- The truncated root listing is a selection of entries of the full recursive
listing. -/
def subListB (esT full : List GhEntry) : Bool :=
  esT.all fun t => decide (t ∈ full)

/-- Subtree-closedness of the truncated root listing: whenever it mentions
anything under a top-level directory, it contains that directory's complete
entry set (its own entry and its whole recursive listing). -/
def closedForB (cs : List GEntry) (esT : List GhEntry) : Bool :=
  cs.all fun e =>
    match e with
    | .gfile _ _ _ => true
    | .gdir nm _ _ =>
      !(esT.any fun t => decide (entryHead t = some nm)) ||
      ((gListing cs "").all fun g =>
        decide (entryHead g ≠ some nm) || decide (g ∈ esT))

/-- Soundness of the accumulated tree against the fixture: every node path is
a chain. -/
def KaP (cs : List GEntry) (T : Tree) : Prop :=
  ∀ q, q ≠ [] → T.keyAt q → chainF cs q = true

/-- Soundness of the accumulated file fields against the fixture. -/
def EbP (cs : List GEntry) (T : Tree) : Prop :=
  ∀ q i, T.entryAt q = some i → blobF cs q = some i

/-- Completeness of the accumulated tree below one top-level directory. -/
def UnderP (nm : String) (sub : List GEntry) (T : Tree) : Prop :=
  (∀ rest, chainF sub rest = true → T.keyAt (escSeg nm :: rest)) ∧
  (∀ rest i, blobF sub rest = some i → T.entryAt (escSeg nm :: rest) = some i)

/-- Any top-level directory key already present is fully expanded. -/
def CskP (cs : List GEntry) (T : Tree) : Prop :=
  ∀ nm dsha sub, (.gdir nm dsha sub) ∈ cs → T.keyAt [escSeg nm] → UnderP nm sub T

/-- The step-2 accumulator invariant. -/
def InvP (cs : List GEntry) (T : Tree) : Prop :=
  KaP cs T ∧ EbP cs T ∧ CskP cs T

/-- A concrete fixture for one truncation-resolution round: two top-level
directories (one `$`-named and nested) and a top-level file. -/
def gOneRound : List GEntry :=
  [.gdir "a" "shA" [.gfile "x.txt" "shX" 1, .gdir "b" "shB" [.gfile "y.txt" "shY" 2]],
   .gdir "$c" "shC" [.gfile "z.txt" "shZ" 3],
   .gfile "top.txt" "shT" 4]

/-- A subtree-closed truncated root listing for `gOneRound`: everything except
the whole `$c` directory. -/
def esTOneRound : List GhEntry :=
  (gListing gOneRound "").filter (fun e => decide (entryHead e ≠ some "$c"))

/-! ### Theorems -/

/-- Successful stats are exactly the nodes pure path resolution finds. -/
theorem statNode_toOption : ∀ (p : List String) (n : FsNode), (statNode n p).toOption = n.find? p
  | [], n => by cases n <;> rfl
  | s :: rest, n => by
    cases n with
    | dir cs =>
      simp only [statNode, FsNode.find?]
      cases lookupFs cs s with
      | none => rfl
      | some c => exact statNode_toOption rest c
    | file sz ino => rfl
    | other => rfl

/-- C8: `exists` never raises — it is a total function whose every stat
failure is swallowed by the `catch` — and classifies the cached path exactly:
FOLDER when path resolution reaches a directory, FILE when it reaches a
regular file, and NOT_FOUND in every other case (no node, or a node that is
neither). -/
theorem exists_total_classification (repoFs : FsNode) (p : List String) :
    FileSystem.«exists» repoFs p =
      match repoFs.find? p with
      | some (.dir _) => .FOLDER
      | some (.file _ _) => .FILE
      | _ => .NOT_FOUND := by
  unfold FileSystem.«exists»
  have h := statNode_toOption p repoFs
  cases hs : statNode repoFs p with
  | ok m =>
    rw [hs] at h
    simp only [Except.toOption] at h
    rw [← h]
    cases m <;> rfl
  | error e =>
    rw [hs] at h
    simp only [Except.toOption] at h
    rw [← h]

/-- C7: `getFileContent` refines its spec: it fails with the
`file_sha_not_provided` error (`FileShaMissing`) exactly when the file carries
no sha, with `file_too_big` (`FileTooLarge`) exactly when the blob endpoint
rejects with status 403, and with `file_not_accessible`
(`FileNotAccessible`) in every other failure case (status-less or non-403
upstream errors, a missing payload with nonzero size, a failed cache write);
on success it returns the blob's bytes — empty for an empty file — and has
written them to the file's cache path. -/
theorem getFileContent_refines_spec (file : GitHubStream.AnonymizedFile)
    (getBlob : String → Except GitHubStream.Thrown GitHubStream.GhBlob)
    (writeRes : Except String Unit) :
    (GitHubStream.getFileContent file getBlob writeRes).result =
      ((GitHubStream.getFileContentSpec file getBlob writeRes).1.mapError
        fun e => .errMsg e.msg) ∧
    (GitHubStream.getFileContent file getBlob writeRes).cacheWrites =
      (GitHubStream.getFileContentSpec file getBlob writeRes).2 := by
  unfold GitHubStream.getFileContent GitHubStream.getFileContentSpec
  cases file.sha with
  | none => exact ⟨rfl, rfl⟩
  | some sha =>
    cases hb : getBlob sha with
    | error e =>
      simp only [hb]
      by_cases h403 : e.status = some 403 <;> simp [h403, Except.mapError, GitHubStream.SpecErr.msg]
    | ok blob =>
      simp only [hb]
      cases hc : blob.content with
      | none =>
        cases hsz : blob.size with
        | zero => cases writeRes <;> simp [hc, hsz, Except.mapError, GitHubStream.SpecErr.msg]
        | succ n => cases writeRes <;> simp [hc, hsz, Except.mapError, GitHubStream.SpecErr.msg]
      | some bs =>
        cases writeRes <;> simp [hc, Except.mapError, GitHubStream.SpecErr.msg]

/-- C6 counterexample: a transient upstream error (HTTP 502) raised by the
blob call does not surface to the caller untouched — `getFileContent` replaces
it with its own `file_not_accessible` error. -/
theorem getFileContent_502_replaced :
    (GitHubStream.getFileContent cFile cBlob502 (.ok ())).result =
        .error (.errMsg "file_not_accessible") ∧
      (GitHubStream.getFileContent cFile cBlob502 (.ok ())).result ≠
        .error (.httpErr (some 502)) := by
  constructor
  · rfl
  · decide

/-- C6 as amended: no retry occurs — a single blob request is issued — but a
transient upstream error (any failure whose status is not 403) is not
propagated as-is: it is replaced by the `file_not_accessible` error. -/
theorem getFileContent_transient_no_retry (file : GitHubStream.AnonymizedFile)
    (sha : String) (getBlob : String → Except GitHubStream.Thrown GitHubStream.GhBlob)
    (writeRes : Except String Unit) (e : GitHubStream.Thrown)
    (hsha : file.sha = some sha) (hblob : getBlob sha = .error e)
    (h403 : e.status ≠ some 403) :
    (GitHubStream.getFileContent file getBlob writeRes).result =
        .error (.errMsg "file_not_accessible") ∧
      (GitHubStream.getFileContent file getBlob writeRes).blobCalls = 1 := by
  unfold GitHubStream.getFileContent
  rw [hsha]
  simp only [hblob]
  simp [h403]

/-- Witness for the C6 theorem at the concrete 502 fixture. -/
theorem getFileContent_transient_no_retry_witness :
    (GitHubStream.getFileContent ⟨some "sha1", "p"⟩ cBlob502 (.ok ())).result =
        .error (.errMsg "file_not_accessible") ∧
      (GitHubStream.getFileContent ⟨some "sha1", "p"⟩ cBlob502 (.ok ())).blobCalls = 1 :=
  getFileContent_transient_no_retry ⟨some "sha1", "p"⟩ "sha1" cBlob502 (.ok ())
    (.httpErr (some 502)) rfl rfl (by decide)

/-- C3, evaluated at the claim's input: both writes succeed, so the cache
holds `a/b.txt` (10 bytes) and `c.txt` (5 bytes); yet `listFiles` on the root
returns a Tree in which `a` is an empty subtree — `a/b.txt` is missing — and
the only file entry is `c.txt`.  The nested walk stats
`join(fullPath, filePath)` with the directory name duplicated
(`…/a/a/b.txt`), the stat fails, and the entry is recorded as an error and
skipped instead of listed. -/
theorem listFiles_drops_nested_file :
    FileSystem.write (.dir []) ["a", "b.txt"] 10 7 = .ok cacheA ∧
    FileSystem.write cacheA ["c.txt"] 5 9 = .ok cacheAB ∧
    FileSystem.listFiles cacheAB 6 [] =
      (.ok (.node none [("a", .node none []), ("c.txt", .node (some ⟨5, "9"⟩) [])]),
        [.errRecorded ["a", "a", "b.txt"], .onEntry ["c.txt"] 5]) := by
  refine ⟨rfl, rfl, ?_⟩
  decide

/-- C4, evaluated at a cache whose subtree holds `N = 2` files (`a/b.txt` and
`c.txt`): `archive` on the root emits exactly one `append` — the nested file
never reaches the archive because the `listFiles` walk it relies on drops it —
followed by `finalize`. -/
theorem archive_misses_nested_file :
    cacheAB.find? ["a", "b.txt"] = some (.file 10 7) ∧
    cacheAB.find? ["c.txt"] = some (.file 5 9) ∧
    FileSystem.archive cacheAB 6 [] = .ok [.append "c.txt" ".", .finalizeEv] := by
  refine ⟨rfl, rfl, ?_⟩
  decide

/-- Running the walk's job chain: every `append`, in walk order, then the
single `finalize`. -/
theorem runQueueF_walkJob (fs : List (List String)) :
    runQueueF (2 * fs.length + 2) [FileSystem.walkJob fs] =
      (fs.map fun p => ArchEvent.append (basenameOf p) (dirnameOf p)) ++ [.finalizeEv] := by
  induction fs with
  | nil => rfl
  | cons p rest ih =>
    have harith : 2 * (p :: rest).length + 2 = (2 * rest.length + 2) + 2 := by
      simp [List.length_cons]
      ring
    rw [harith]
    have hstep :
        runQueueF ((2 * rest.length + 2) + 2) [FileSystem.walkJob (p :: rest)] =
          ArchEvent.append (basenameOf p) (dirnameOf p) ::
            runQueueF (2 * rest.length + 2) [FileSystem.walkJob rest] := rfl
    rw [hstep, ih]
    rfl

/-- The original C5 refuted: an execution of `archive` that emits no
`finalize` at all.  Requesting a directory that does not exist in the cache
makes the root `readdir` of `listFiles` throw; the rejected promise skips the
`.then(() => archive.finalize())` handler and the `await` re-throws, so the
whole execution ends with no event — zero `finalize` signals, not exactly
one. -/
theorem archive_missing_dir_skips_finalize :
    FileSystem.archive (.dir []) 6 ["missing"] = .error .enoent := by
  decide

/-- C5 as amended: in every execution of `archive` whose `listFiles` walk
resolves — the root `readdir` succeeded; the cache contents, the requested
directory, the walk fuel and the (synchronously applied) `fileTransformer`
are otherwise arbitrary — the trace is exactly the `append` of every walked
file, in walk order, followed by `finalize`: `finalize` fires exactly once,
strictly after the walk is over and every per-file `append` has been issued,
and no `append` is ever issued after it.  When the walk instead rejects, no
event is emitted at all — `finalize` never fires before the appends, but it
also never fires, so "exactly once in every execution" fails (see the
counterexample). -/
theorem archive_appends_then_finalize (root : FsNode) (fuel : Nat) (dir : List String)
    (t : Tree) (hok : (FileSystem.listFiles root fuel dir).1 = .ok t) :
    FileSystem.archive root fuel dir =
      .ok (((FileSystem.walkPaths root fuel dir).map
        fun p => ArchEvent.append (basenameOf p) (dirnameOf p)) ++ [ArchEvent.finalizeEv]) ∧
    (((FileSystem.walkPaths root fuel dir).map
        fun p => ArchEvent.append (basenameOf p) (dirnameOf p)) ++ [ArchEvent.finalizeEv]).count
      ArchEvent.finalizeEv = 1 := by
  have h := runQueueF_walkJob (FileSystem.walkPaths root fuel dir)
  have hz :
      ((FileSystem.walkPaths root fuel dir).map
        fun p => ArchEvent.append (basenameOf p) (dirnameOf p)).count ArchEvent.finalizeEv = 0 := by
    rw [List.count_eq_zero]
    intro hmem
    rcases List.mem_map.mp hmem with ⟨q, _, hq⟩
    exact ArchEvent.noConfusion hq
  constructor
  · unfold FileSystem.archive
    rw [hok, h]
  · rw [List.count_append, hz]
    rfl

/-- Witness for the amended C5 theorem at the two-file cache: the walk
resolves there, and `archive` emits the lone surviving `append` and then one
`finalize`. -/
theorem archive_appends_then_finalize_witness :
    FileSystem.archive cacheAB 6 [] =
      .ok (((FileSystem.walkPaths cacheAB 6 []).map
        fun p => ArchEvent.append (basenameOf p) (dirnameOf p)) ++ [ArchEvent.finalizeEv]) ∧
    (((FileSystem.walkPaths cacheAB 6 []).map
        fun p => ArchEvent.append (basenameOf p) (dirnameOf p)) ++ [ArchEvent.finalizeEv]).count
      ArchEvent.finalizeEv = 1 :=
  archive_appends_then_finalize cacheAB 6 []
    (.node none [("a", .node none []), ("c.txt", .node (some ⟨5, "9"⟩) [])]) (by decide)

/-- Lookup after an overwrite at the same key. -/
theorem lookupKey_setKey_self (l : List (String × Tree)) (k : String) (v : Tree) :
    lookupKey (setKey l k v) k = some v := by
  induction l with
  | nil => simp [setKey, lookupKey]
  | cons c rest ih =>
    by_cases h : c.1 = k
    · simp [setKey, h, lookupKey]
    · simp [setKey, h, lookupKey, ih]

/-- Lookup after an overwrite at a different key. -/
theorem lookupKey_setKey_other (l : List (String × Tree)) (k k' : String) (v : Tree)
    (h : k' ≠ k) : lookupKey (setKey l k v) k' = lookupKey l k' := by
  induction l with
  | nil =>
    simp only [setKey, lookupKey]
    rw [if_neg (fun hc => h hc.symm)]
  | cons c rest ih =>
    by_cases hc : c.1 = k
    · subst hc
      simp only [setKey, if_pos rfl, lookupKey]
      rw [if_neg (fun hc' => h hc'.symm), if_neg (fun hc' => h hc'.symm)]
    · simp [setKey, hc, lookupKey, ih]

/-- Association lookup of the distinguished element of a split list. -/
theorem lookupKey_split (pre post : List (String × Tree)) (k : String) (v : Tree)
    (h : k ∉ pre.map Prod.fst) : lookupKey (pre ++ (k, v) :: post) k = some v := by
  induction pre with
  | nil => simp [lookupKey]
  | cons c rest ih =>
    simp only [List.map_cons, List.mem_cons] at h
    push_neg at h
    simp only [List.cons_append, lookupKey]
    rw [if_neg (fun hc => h.1 hc.symm)]
    exact ih h.2

/-- Same fact for directory children. -/
theorem lookupFs_split (pre post : List (String × FsNode)) (k : String) (v : FsNode)
    (h : k ∉ pre.map Prod.fst) : lookupFs (pre ++ (k, v) :: post) k = some v := by
  induction pre with
  | nil => simp [lookupFs]
  | cons c rest ih =>
    simp only [List.map_cons, List.mem_cons] at h
    push_neg at h
    simp only [List.cons_append, lookupFs]
    rw [if_neg (fun hc => h.1 hc.symm)]
    exact ih h.2

/-- Events already logged survive the rest of the `listFiles` loop. -/
theorem listStep_fold_events_mono (root : FsNode) (n : Nat) (dir : List String) :
    ∀ (cs : List (String × FsNode)) (acc : List (String × Tree) × List FileSystem.LEvent)
      (e : FileSystem.LEvent), e ∈ acc.2 →
      e ∈ (cs.foldl (fun acc c =>
        FileSystem.listStep root (fun q => FileSystem.listFiles root n q) dir acc c) acc).2
  | [], _, _, he => he
  | c :: rest, acc, e, he => by
    apply listStep_fold_events_mono root n dir rest
    rcases hf : root.find? (dir ++ (dir ++ [c.1])) with _ | st
    · simp [FileSystem.listStep, hf, he]
    · cases st with
      | dir cs' =>
        rcases hsub : (FileSystem.listFiles root n (dir ++ [c.1])).1 with esub | subtree
        · simp [FileSystem.listStep, hf, hsub, he]
        · simp [FileSystem.listStep, hf, hsub, he]
      | file sz ino => simp [FileSystem.listStep, hf, he]
      | other => simp [FileSystem.listStep, hf, he]

/-- A key→value binding of the accumulated output survives the rest of the
`listFiles` loop, provided no later escaped name collides with it. -/
theorem listStep_fold_key_preserved (root : FsNode) (n : Nat) (dir : List String) (k : String)
    (v : Tree) :
    ∀ (cs : List (String × FsNode)) (acc : List (String × Tree) × List FileSystem.LEvent),
      lookupKey acc.1 k = some v → (∀ c ∈ cs, escSeg c.1 ≠ k) →
      lookupKey (cs.foldl (fun acc c =>
        FileSystem.listStep root (fun q => FileSystem.listFiles root n q) dir acc c) acc).1 k =
        some v
  | [], _, hk, _ => hk
  | c :: rest, acc, hk, hne => by
    apply listStep_fold_key_preserved root n dir k v rest
    · have hc := Ne.symm (hne c (by simp))
      rcases hf : root.find? (dir ++ (dir ++ [c.1])) with _ | st
      · simpa [FileSystem.listStep, hf] using hk
      · cases st with
        | dir cs' =>
          rcases hsub : (FileSystem.listFiles root n (dir ++ [c.1])).1 with esub | subtree
          · simpa [FileSystem.listStep, hf, hsub] using hk
          · simp only [FileSystem.listStep, hf, hsub]
            rw [lookupKey_setKey_other _ _ _ _ hc]
            exact hk
        | file sz ino =>
          simp only [FileSystem.listStep, hf]
          rw [lookupKey_setKey_other _ _ _ _ hc]
          exact hk
        | other => simpa [FileSystem.listStep, hf] using hk
    · exact fun c' hc' => hne c' (by simp [hc'])

/-- C10: in the Tree returned by `listFiles` on the repository root, a file
whose name starts with `$` appears under the backslash-escaped key `"\" ++
name`, while the `onEntry` callback receives the raw, unescaped path (hence
archive entries are named with the unescaped path), and the `sha` recorded for
the file is `stats.ino.toString()` — the decimal inode number, not a content
hash.  Hypotheses: the directory's names are distinct (as `readdir`
guarantees) and their escaped forms do not collide. -/
theorem listFiles_escapes_key_raw_callback_ino_sha (cs pre post : List (String × FsNode))
    (n sz ino : Nat) (s : String)
    (hcs : cs = pre ++ (s, FsNode.file sz ino) :: post)
    (hdollar : firstIsDollar s = true)
    (hraw : (cs.map Prod.fst).Nodup)
    (hesc : (cs.map fun c => escSeg c.1).Nodup) :
    ∃ out, (FileSystem.listFiles (.dir cs) (n + 1) []).1 = .ok out ∧
      out.find? ("\\" ++ s) = some (.node (some ⟨sz, toString ino⟩) []) ∧
      .onEntry [s] sz ∈ (FileSystem.listFiles (.dir cs) (n + 1) []).2 := by
  subst hcs
  have hfind : FsNode.find? (.dir (pre ++ (s, FsNode.file sz ino) :: post)) [s] =
      some (.file sz ino) := by
    have hpre : s ∉ pre.map Prod.fst := by
      simp only [List.map_append, List.map_cons, List.nodup_append] at hraw
      intro hmem
      exact hraw.2.2 hmem (by simp)
    simp only [FsNode.find?]
    rw [lookupFs_split _ _ _ _ hpre]
  have hescS : escSeg s = "\\" ++ s := by simp [escSeg, hdollar]
  simp only [FileSystem.listFiles, FsNode.find?]
  refine ⟨_, rfl, ?_, ?_⟩
  · show lookupKey (List.foldl _ ([], []) (pre ++ (s, FsNode.file sz ino) :: post)).1
      ("\\" ++ s) = _
    rw [List.foldl_append, List.foldl_cons]
    apply listStep_fold_key_preserved
    · simp only [FileSystem.listStep, List.nil_append, hfind]
      rw [hescS, lookupKey_setKey_self]
    · intro c hc
      have hne : escSeg c.1 ≠ escSeg s := by
        simp only [List.map_append, List.map_cons, List.nodup_append] at hesc
        have h1 := hesc.2.1
        rw [List.nodup_cons] at h1
        intro heq
        exact h1.1 (heq ▸ List.mem_map.mpr ⟨c, hc, rfl⟩)
      rw [hescS] at hne
      exact hne
  · show _ ∈ (List.foldl _ ([], []) (pre ++ (s, FsNode.file sz ino) :: post)).2
    rw [List.foldl_append, List.foldl_cons]
    apply listStep_fold_events_mono
    simp [FileSystem.listStep, hfind]

/-- C9 counterexample: folding a flat listing that contains a file entry and,
below the same path, another entry yields a node that is simultaneously a leaf
and a subtree — the key `a` carries the `FileEntry` fields `{size: 1, sha:
"shaU"}` *and* the child `b` (the walk of the second entry descends into the
file object and grows children inside it), so the claimed structural
invariant is violated. -/
theorem tree2Tree_leaf_and_subtree :
    GitHubStream.tree2Tree badListing Tree.empty "" =
      .node none [("a", .node (some ⟨1, "shaU"⟩) [("b", .node (some ⟨2, "shaV"⟩) [])])] ∧
    Tree.invB (GitHubStream.tree2Tree badListing Tree.empty "") = false := by
  decide

/-! #### Lemmas for the C9 invariant -/

/-- Bool membership matches membership. -/
theorem membS_iff (k : String) : ∀ (ks : List String), membS k ks = true ↔ k ∈ ks
  | [] => by simp [membS]
  | x :: xs => by
    by_cases h : x = k
    · simp [membS, h]
    · rw [membS, if_neg h, membS_iff k xs]
      constructor
      · exact fun hm => List.mem_cons_of_mem _ hm
      · intro hm
        rcases List.mem_cons.mp hm with h1 | h1
        · exact absurd h1.symm h
        · exact h1

/-- All keys differ from the empty string when `nonemptyKeysB` holds. -/
theorem nonemptyKeysB_iff : ∀ (ks : List String), nonemptyKeysB ks = true ↔ ∀ k ∈ ks, k ≠ ""
  | [] => by simp [nonemptyKeysB]
  | k :: ks => by
    by_cases h : k = ""
    · simp [nonemptyKeysB, h]
    · simp [nonemptyKeysB, h, nonemptyKeysB_iff ks]

/-- Unfolding of `distinctKeysB`. -/
theorem distinctKeysB_cons (k : String) (ks : List String) :
    distinctKeysB (k :: ks) = true ↔ membS k ks = false ∧ distinctKeysB ks = true := by
  simp [distinctKeysB, Bool.and_eq_true]

/-- `invChildrenB` says all children satisfy the invariant. -/
theorem invChildrenB_iff : ∀ (cs : List (String × Tree)),
    invChildrenB cs = true ↔ ∀ c ∈ cs, Tree.invB c.2 = true
  | [] => by simp [invChildrenB]
  | (k, t) :: cs => by
    simp [invChildrenB, Bool.and_eq_true, invChildrenB_iff cs]

/-- Unfolding of the node invariant. -/
theorem invB_node (fi : Option FileInfo) (cs : List (String × Tree)) :
    Tree.invB (.node fi cs) = true ↔
      distinctKeysB (cs.map Prod.fst) = true ∧ (fi = none ∨ cs = []) ∧
      nonemptyKeysB (cs.map Prod.fst) = true ∧ invChildrenB cs = true := by
  simp [Tree.invB, Bool.and_eq_true, Bool.or_eq_true, Option.isNone_iff_eq_none,
    List.isEmpty_iff, and_assoc]

/-- The empty object satisfies the invariant. -/
theorem invB_empty : Tree.invB Tree.empty = true := rfl

/-- Nothing is a file in the empty object. -/
theorem fileAt_empty : ∀ (q : List String), ¬ Tree.empty.fileAt q
  | [], h => by simp [Tree.fileAt, Tree.empty] at h
  | s :: q, h => by
    rcases h with ⟨c, hc, _⟩
    simp [Tree.empty, Tree.find?, lookupKey] at hc

/-- A found key names a child pair of the node. -/
theorem lookupKey_mem : ∀ (cs : List (String × Tree)) (k : String) (v : Tree),
    lookupKey cs k = some v → (k, v) ∈ cs
  | [], _, _, h => by simp [lookupKey] at h
  | (k', v') :: cs, k, v, h => by
    by_cases hk : k' = k
    · subst hk
      simp only [lookupKey, eq_self_iff_true, if_true, Option.some.injEq] at h
      subst h
      simp
    · simp only [lookupKey, if_neg hk] at h
      exact List.mem_cons_of_mem _ (lookupKey_mem cs k v h)

/-- A missing key is outside the keys. -/
theorem lookupKey_eq_none_iff : ∀ (cs : List (String × Tree)) (k : String),
    lookupKey cs k = none ↔ k ∉ cs.map Prod.fst
  | [], k => by simp [lookupKey]
  | (k', v') :: cs, k => by
    by_cases hk : k' = k
    · simp [lookupKey, hk]
    · rw [lookupKey, if_neg hk, lookupKey_eq_none_iff cs k]
      simp only [List.map_cons, List.mem_cons]
      constructor
      · intro hmem hor
        rcases hor with h1 | h1
        · exact hk h1.symm
        · exact hmem h1
      · intro hno hmem
        exact hno (Or.inr hmem)

/-- Keys after `setKey`: unchanged on overwrite, the new key appended on
fresh insertion. -/
theorem setKey_keys_of_mem : ∀ (cs : List (String × Tree)) (k : String) (v : Tree),
    k ∈ cs.map Prod.fst → (setKey cs k v).map Prod.fst = cs.map Prod.fst
  | [], k, v, h => by simp at h
  | (k', v') :: cs, k, v, h => by
    by_cases hk : k' = k
    · simp [setKey, hk]
    · simp only [List.map_cons, List.mem_cons] at h
      rcases h with h | h

      · exact absurd h.symm hk
      · simp [setKey, hk, setKey_keys_of_mem cs k v h]

/-- See `setKey_keys_of_mem`. -/
theorem setKey_keys_of_not_mem : ∀ (cs : List (String × Tree)) (k : String) (v : Tree),
    k ∉ cs.map Prod.fst → (setKey cs k v).map Prod.fst = cs.map Prod.fst ++ [k]
  | [], k, v, _ => by simp [setKey]
  | (k', v') :: cs, k, v, h => by
    simp only [List.map_cons, List.mem_cons] at h
    push_neg at h
    have hk : ¬ k' = k := fun hk => h.1 hk.symm
    simp [setKey, hk, setKey_keys_of_not_mem cs k v h.2]

/-- Distinct keys stay distinct when one more is appended. -/
theorem distinctKeysB_append_one : ∀ (ks : List String) (k : String),
    distinctKeysB ks = true → membS k ks = false → distinctKeysB (ks ++ [k]) = true
  | [], k, _, _ => by simp [distinctKeysB, membS]
  | k' :: ks, k, hd, hm => by
    rw [distinctKeysB_cons] at hd
    by_cases hk : k' = k
    · simp [membS, hk] at hm
    · rw [List.cons_append, distinctKeysB_cons]
      refine ⟨?_, distinctKeysB_append_one ks k hd.2 ?_⟩
      · rw [← Bool.not_eq_true]
        intro hmem
        rw [membS_iff] at hmem
        rcases List.mem_append.mp hmem with h | h
        · rw [← membS_iff] at h
          exact absurd h (by simp [hd.1])
        · simp at h
          exact hk h
      · rw [membS, if_neg hk] at hm
        exact hm

/-- Nonempty keys stay nonempty when one more nonempty key is appended. -/
theorem nonemptyKeysB_append_one (ks : List String) (k : String)
    (h : nonemptyKeysB ks = true) (hk : k ≠ "") : nonemptyKeysB (ks ++ [k]) = true := by
  rw [nonemptyKeysB_iff] at h ⊢
  intro x hx
  rcases List.mem_append.mp hx with hmem | hmem
  · exact h x hmem
  · simp at hmem
    rw [hmem]
    exact hk

/-- `setKey` preserves distinctness of keys. -/
theorem distinctKeysB_setKey (cs : List (String × Tree)) (k : String) (v : Tree)
    (h : distinctKeysB (cs.map Prod.fst) = true) :
    distinctKeysB ((setKey cs k v).map Prod.fst) = true := by
  by_cases hm : k ∈ cs.map Prod.fst
  · rw [setKey_keys_of_mem cs k v hm]
    exact h
  · rw [setKey_keys_of_not_mem cs k v hm]
    refine distinctKeysB_append_one _ _ h ?_
    rw [← Bool.not_eq_true, membS_iff]
    exact hm

/-- `setKey` preserves nonemptiness of keys when the new key is nonempty. -/
theorem nonemptyKeysB_setKey (cs : List (String × Tree)) (k : String) (v : Tree)
    (h : nonemptyKeysB (cs.map Prod.fst) = true) (hk : k ≠ "") :
    nonemptyKeysB ((setKey cs k v).map Prod.fst) = true := by
  by_cases hm : k ∈ cs.map Prod.fst
  · rw [setKey_keys_of_mem cs k v hm]
    exact h
  · rw [setKey_keys_of_not_mem cs k v hm]
    exact nonemptyKeysB_append_one _ _ h hk

/-- `setKey` preserves the children invariant when the written value
satisfies it. -/
theorem invChildrenB_setKey : ∀ (cs : List (String × Tree)) (k : String) (v : Tree),
    invChildrenB cs = true → Tree.invB v = true → invChildrenB (setKey cs k v) = true
  | [], k, v, _, hv => by simp [setKey, invChildrenB, hv]
  | (k', v') :: cs, k, v, h, hv => by
    simp only [invChildrenB, Bool.and_eq_true] at h
    by_cases hk : k' = k
    · simp [setKey, hk, invChildrenB, Bool.and_eq_true, hv, h.2]
    · simp only [setKey, if_neg hk, invChildrenB, Bool.and_eq_true]
      exact ⟨h.1, invChildrenB_setKey cs k v h.2 hv⟩

/-- The escaped form of a nonempty segment is nonempty. -/
theorem escSeg_ne_empty (s : String) (h : s ≠ "") : escSeg s ≠ "" := by
  unfold escSeg
  by_cases hd : firstIsDollar s = true
  · rw [if_pos hd]
    intro hc
    have h2 := congrArg String.length hc
    rw [String.length_append] at h2
    have h3 : ("\\" : String).length = 1 := rfl
    have h4 : ("" : String).length = 0 := rfl
    rw [h3, h4] at h2
    omega
  · rw [if_neg hd]
    exact h

/-- `[]` strictly begins every nonempty list. -/
theorem extendsBy_nil (s : List String) (h : s ≠ []) : ExtendsBy [] s := ⟨s, rfl, h⟩

/-- Head/tail form of `ExtendsBy`. -/
theorem extendsBy_cons_iff (x y : String) (xs ys : List String) :
    ExtendsBy (x :: xs) (y :: ys) ↔ x = y ∧ ExtendsBy xs ys := by
  constructor
  · rintro ⟨r, hr, hne⟩
    rw [List.cons_append] at hr
    injection hr with h1 h2
    exact ⟨h1.symm, r, h2, hne⟩
  · rintro ⟨hxy, r, hr, hne⟩
    exact ⟨r, by rw [List.cons_append, hxy, hr], hne⟩

/-- `strictRunB` is `ExtendsBy`. -/
theorem strictRunB_iff : ∀ (xs ys : List String), strictRunB xs ys = true ↔ ExtendsBy xs ys
  | [], [] => by
    simp only [strictRunB, Bool.false_eq_true, false_iff]
    rintro ⟨r, hr, hne⟩
    exact hne hr.symm
  | [], y :: ys => by
    simp only [strictRunB, true_iff]
    exact extendsBy_nil _ (by simp)
  | x :: xs, [] => by
    simp only [strictRunB, Bool.false_eq_true, false_iff]
    rintro ⟨r, hr, _⟩
    simp at hr
  | x :: xs, y :: ys => by
    by_cases h : x = y
    · simp [strictRunB, h, strictRunB_iff xs ys, extendsBy_cons_iff]
    · simp [strictRunB, h, extendsBy_cons_iff]

/-- No split path is empty. -/
theorem strSplitSlash_ne_nil (s : String) : strSplitSlash s ≠ [] := by
  unfold strSplitSlash
  generalize s.data = cs
  generalize hacc : ([] : List Char) = acc
  clear hacc
  induction cs generalizing acc with
  | nil => simp [strSplitSlash.go]
  | cons c rest ih =>
    by_cases h : c = '/'
    · simp [strSplitSlash.go, h]
    · simpa [strSplitSlash.go, h] using ih (c :: acc)

/-- Unfolding of `fileAt` at a node and a nonempty path. -/
theorem fileAt_cons_iff (fi : Option FileInfo) (cs : List (String × Tree)) (s : String)
    (q : List String) :
    Tree.fileAt (.node fi cs) (s :: q) ↔ ∃ c, lookupKey cs s = some c ∧ c.fileAt q :=
  Iff.rfl

/-- Unfolding of `fileAt` at a node and the empty path. -/
theorem fileAt_nil_iff (fi : Option FileInfo) (cs : List (String × Tree)) :
    Tree.fileAt (.node fi cs) [] ↔ fi.isSome = true :=
  Iff.rfl

/-- The invariant of the child a walk descends into (the found one, or the
freshly created `{}`). -/
theorem child_invB (cs : List (String × Tree)) (k : String)
    (hch : invChildrenB cs = true) :
    Tree.invB ((lookupKey cs k).getD Tree.empty) = true := by
  cases hl : lookupKey cs k with
  | none => exact invB_empty
  | some c =>
    have hmem := lookupKey_mem cs k c hl
    exact (invChildrenB_iff cs).mp hch _ hmem

/-- A file in the descended child is a file in the node, under the child's
key. -/
theorem child_fileAt (fi : Option FileInfo) (cs : List (String × Tree)) (k : String)
    (q : List String) (hf : ((lookupKey cs k).getD Tree.empty).fileAt q) :
    Tree.fileAt (.node fi cs) (k :: q) := by
  cases hl : lookupKey cs k with
  | none =>
    rw [hl] at hf
    exact absurd hf (fileAt_empty q)
  | some c =>
    rw [hl] at hf
    exact (fileAt_cons_iff fi cs k q).mpr ⟨c, hl, hf⟩

/-- The blob walk of `tree2Tree` preserves the invariant and adds file fields
only at the blob's own (escaped) path, provided no file node sits on a strict
prefix of that path. -/
theorem insBlobPath_ok : ∀ (segs : List String) (t : Tree) (info : FileInfo),
    Tree.invB t = true → segs ≠ [] → (∀ s ∈ segs, s ≠ "") →
    (∀ q, ExtendsBy q (segs.map escSeg) → ¬ t.fileAt q) →
    Tree.invB (GitHubStream.insBlobPath t segs info) = true ∧
    (∀ q, (GitHubStream.insBlobPath t segs info).fileAt q →
      q = segs.map escSeg ∨ t.fileAt q)
  | [], _, _, _, hne, _, _ => absurd rfl hne
  | [p], .node fi cs, info, hinv, _, hseg, hpre => by
    have hfi : fi = none := by
      have h0 := hpre [] (extendsBy_nil _ (by simp))
      rw [fileAt_nil_iff] at h0
      cases fi with
      | none => rfl
      | some _ => exact absurd rfl h0
    obtain ⟨hd, _, hne, hch⟩ := (invB_node fi cs).mp hinv
    have hpesc := escSeg_ne_empty p (hseg p (by simp))
    constructor
    · show Tree.invB (.node fi (setKey cs (escSeg p) (.node (some info) []))) = true
      rw [invB_node]
      exact ⟨distinctKeysB_setKey _ _ _ hd, Or.inl hfi,
        nonemptyKeysB_setKey _ _ _ hne hpesc, invChildrenB_setKey _ _ _ hch rfl⟩
    · intro q hq
      have hq' : Tree.fileAt (.node fi (setKey cs (escSeg p) (.node (some info) []))) q := hq
      cases q with
      | nil =>
        rw [fileAt_nil_iff, hfi] at hq'
        exact absurd hq' (by simp)
      | cons s q' =>
        rw [fileAt_cons_iff] at hq'
        obtain ⟨c, hc, hcf⟩ := hq'
        by_cases hs : s = escSeg p
        · subst hs
          rw [lookupKey_setKey_self] at hc
          cases hc
          cases q' with
          | nil => exact Or.inl rfl
          | cons s' q'' =>
            rw [fileAt_cons_iff] at hcf
            obtain ⟨c', hc', _⟩ := hcf
            simp [lookupKey] at hc'
        · rw [lookupKey_setKey_other _ _ _ _ hs] at hc
          exact Or.inr ((fileAt_cons_iff fi cs s q').mpr ⟨c, hc, hcf⟩)
  | p :: q0 :: rest, .node fi cs, info, hinv, _, hseg, hpre => by
    have hfi : fi = none := by
      have h0 := hpre [] (extendsBy_nil _ (by simp))
      rw [fileAt_nil_iff] at h0
      cases fi with
      | none => rfl
      | some _ => exact absurd rfl h0
    obtain ⟨hd, _, hne, hch⟩ := (invB_node fi cs).mp hinv
    have hpesc := escSeg_ne_empty p (hseg p (by simp))
    have hchildpre : ∀ q, ExtendsBy q ((q0 :: rest).map escSeg) →
        ¬ ((lookupKey cs (escSeg p)).getD Tree.empty).fileAt q := by
      intro q hq hf
      exact hpre (escSeg p :: q)
        (by rw [List.map_cons, extendsBy_cons_iff]; exact ⟨rfl, hq⟩)
        (child_fileAt fi cs (escSeg p) q hf)
    have IH := insBlobPath_ok (q0 :: rest) ((lookupKey cs (escSeg p)).getD Tree.empty) info
      (child_invB cs (escSeg p) hch) (by simp)
      (fun s hs => hseg s (List.mem_cons_of_mem _ hs)) hchildpre
    constructor
    · show Tree.invB (.node fi (setKey cs (escSeg p)
        (GitHubStream.insBlobPath ((lookupKey cs (escSeg p)).getD Tree.empty)
          (q0 :: rest) info))) = true
      rw [invB_node]
      exact ⟨distinctKeysB_setKey _ _ _ hd, Or.inl hfi,
        nonemptyKeysB_setKey _ _ _ hne hpesc, invChildrenB_setKey _ _ _ hch IH.1⟩
    · intro q hq
      have hq' : Tree.fileAt (.node fi (setKey cs (escSeg p)
          (GitHubStream.insBlobPath ((lookupKey cs (escSeg p)).getD Tree.empty)
            (q0 :: rest) info))) q := hq
      cases q with
      | nil =>
        rw [fileAt_nil_iff, hfi] at hq'
        exact absurd hq' (by simp)
      | cons s q' =>
        rw [fileAt_cons_iff] at hq'
        obtain ⟨c, hc, hcf⟩ := hq'
        by_cases hs : s = escSeg p
        · subst hs
          rw [lookupKey_setKey_self] at hc
          cases hc
          rcases IH.2 q' hcf with h1 | h1
          · exact Or.inl (by rw [List.map_cons, h1])
          · exact Or.inr (child_fileAt fi cs (escSeg p) q' h1)
        · rw [lookupKey_setKey_other _ _ _ _ hs] at hc
          exact Or.inr ((fileAt_cons_iff fi cs s q').mpr ⟨c, hc, hcf⟩)

/-- The directory walk of `tree2Tree` preserves the invariant and creates no
file node, provided no file node sits on a strict prefix of the walked
path. -/
theorem insTreePath_ok : ∀ (segs : List String) (t : Tree),
    Tree.invB t = true → (∀ s ∈ segs, s ≠ "") →
    (∀ q, ExtendsBy q (segs.map escSeg) → ¬ t.fileAt q) →
    Tree.invB (GitHubStream.insTreePath t segs) = true ∧
    (∀ q, (GitHubStream.insTreePath t segs).fileAt q → t.fileAt q)
  | [], .node fi cs, hinv, _, _ => ⟨hinv, fun _ hq => hq⟩
  | p :: rest, .node fi cs, hinv, hseg, hpre => by
    have hfi : fi = none := by
      have h0 := hpre [] (extendsBy_nil _ (by simp))
      rw [fileAt_nil_iff] at h0
      cases fi with
      | none => rfl
      | some _ => exact absurd rfl h0
    obtain ⟨hd, _, hne, hch⟩ := (invB_node fi cs).mp hinv
    have hpesc := escSeg_ne_empty p (hseg p (by simp))
    have hchildpre : ∀ q, ExtendsBy q (rest.map escSeg) →
        ¬ ((lookupKey cs (escSeg p)).getD Tree.empty).fileAt q := by
      intro q hq hf
      exact hpre (escSeg p :: q)
        (by rw [List.map_cons, extendsBy_cons_iff]; exact ⟨rfl, hq⟩)
        (child_fileAt fi cs (escSeg p) q hf)
    have IH := insTreePath_ok rest ((lookupKey cs (escSeg p)).getD Tree.empty)
      (child_invB cs (escSeg p) hch)
      (fun s hs => hseg s (List.mem_cons_of_mem _ hs)) hchildpre
    constructor
    · show Tree.invB (.node fi (setKey cs (escSeg p)
        (GitHubStream.insTreePath ((lookupKey cs (escSeg p)).getD Tree.empty) rest))) = true
      rw [invB_node]
      exact ⟨distinctKeysB_setKey _ _ _ hd, Or.inl hfi,
        nonemptyKeysB_setKey _ _ _ hne hpesc, invChildrenB_setKey _ _ _ hch IH.1⟩
    · intro q hq
      have hq' : Tree.fileAt (.node fi (setKey cs (escSeg p)
          (GitHubStream.insTreePath ((lookupKey cs (escSeg p)).getD Tree.empty) rest))) q := hq
      cases q with
      | nil =>
        rw [fileAt_nil_iff, hfi] at hq'
        exact absurd hq' (by simp)
      | cons s q' =>
        rw [fileAt_cons_iff] at hq'
        obtain ⟨c, hc, hcf⟩ := hq'
        by_cases hs : s = escSeg p
        · subst hs
          rw [lookupKey_setKey_self] at hc
          cases hc
          exact (child_fileAt fi cs (escSeg p) q' (IH.2 q' hcf))
        · rw [lookupKey_setKey_other _ _ _ _ hs] at hc
          exact (fileAt_cons_iff fi cs s q').mpr ⟨c, hc, hcf⟩

/-- The walk of `tree2Tree` for entries that are neither trees nor blobs,
same statement as for the directory walk. -/
theorem insTouchPath_ok : ∀ (segs : List String) (t : Tree),
    Tree.invB t = true → (∀ s ∈ segs, s ≠ "") →
    (∀ q, ExtendsBy q (segs.map escSeg) → ¬ t.fileAt q) →
    Tree.invB (GitHubStream.insTouchPath t segs) = true ∧
    (∀ q, (GitHubStream.insTouchPath t segs).fileAt q → t.fileAt q)
  | [], .node fi cs, hinv, _, _ => ⟨hinv, fun _ hq => hq⟩
  | [_], .node fi cs, hinv, _, _ => ⟨hinv, fun _ hq => hq⟩
  | p :: q0 :: rest, .node fi cs, hinv, hseg, hpre => by
    have hfi : fi = none := by
      have h0 := hpre [] (extendsBy_nil _ (by simp))
      rw [fileAt_nil_iff] at h0
      cases fi with
      | none => rfl
      | some _ => exact absurd rfl h0
    obtain ⟨hd, _, hne, hch⟩ := (invB_node fi cs).mp hinv
    have hpesc := escSeg_ne_empty p (hseg p (by simp))
    have hchildpre : ∀ q, ExtendsBy q ((q0 :: rest).map escSeg) →
        ¬ ((lookupKey cs (escSeg p)).getD Tree.empty).fileAt q := by
      intro q hq hf
      exact hpre (escSeg p :: q)
        (by rw [List.map_cons, extendsBy_cons_iff]; exact ⟨rfl, hq⟩)
        (child_fileAt fi cs (escSeg p) q hf)
    have IH := insTouchPath_ok (q0 :: rest) ((lookupKey cs (escSeg p)).getD Tree.empty)
      (child_invB cs (escSeg p) hch)
      (fun s hs => hseg s (List.mem_cons_of_mem _ hs)) hchildpre
    constructor
    · show Tree.invB (.node fi (setKey cs (escSeg p)
        (GitHubStream.insTouchPath ((lookupKey cs (escSeg p)).getD Tree.empty)
          (q0 :: rest)))) = true
      rw [invB_node]
      exact ⟨distinctKeysB_setKey _ _ _ hd, Or.inl hfi,
        nonemptyKeysB_setKey _ _ _ hne hpesc, invChildrenB_setKey _ _ _ hch IH.1⟩
    · intro q hq
      have hq' : Tree.fileAt (.node fi (setKey cs (escSeg p)
          (GitHubStream.insTouchPath ((lookupKey cs (escSeg p)).getD Tree.empty)
            (q0 :: rest)))) q := hq
      cases q with
      | nil =>
        rw [fileAt_nil_iff, hfi] at hq'
        exact absurd hq' (by simp)
      | cons s q' =>
        rw [fileAt_cons_iff] at hq'
        obtain ⟨c, hc, hcf⟩ := hq'
        by_cases hs : s = escSeg p
        · subst hs
          rw [lookupKey_setKey_self] at hc
          cases hc
          exact (child_fileAt fi cs (escSeg p) q' (IH.2 q' hcf))
        · rw [lookupKey_setKey_other _ _ _ _ hs] at hc
          exact (fileAt_cons_iff fi cs s q').mpr ⟨c, hc, hcf⟩

/-- One `tree2Tree` loop iteration preserves the invariant and adds file
fields only at the entry's own escaped blob path. -/
theorem insertElem_ok (pp : String) (e : GhEntry) (t : Tree)
    (hinv : Tree.invB t = true)
    (hemp : entryEmptySegB pp e = false)
    (hpre : ∀ segs q, escSegsOfEntry pp e = some segs → ExtendsBy q segs → ¬ t.fileAt q) :
    Tree.invB (GitHubStream.insertElem pp t e) = true ∧
    (∀ q, (GitHubStream.insertElem pp t e).fileAt q →
      (e.type = some "blob" ∧ escSegsOfEntry pp e = some q) ∨ t.fileAt q) := by
  cases hp : e.path with
  | none =>
    have heq : GitHubStream.insertElem pp t e = t := by
      simp [GitHubStream.insertElem, hp]
    rw [heq]
    exact ⟨hinv, fun _ hq => Or.inr hq⟩
  | some p =>
    by_cases hp0 : p = ""
    · have heq : GitHubStream.insertElem pp t e = t := by
        simp [GitHubStream.insertElem, hp, hp0]
      rw [heq]
      exact ⟨hinv, fun _ hq => Or.inr hq⟩
    · 
      have hsegsOf : segsOfEntry pp e = some (strSplitSlash (pathJoin pp p)) := by
        simp [segsOfEntry, hp, hp0]
      have hescOf : escSegsOfEntry pp e =
          some ((strSplitSlash (pathJoin pp p)).map escSeg) := by
        simp [escSegsOfEntry, hsegsOf]
      have hsegne : ∀ s ∈ strSplitSlash (pathJoin pp p), s ≠ "" := by
        intro s hs hs0
        subst hs0
        unfold entryEmptySegB at hemp
        rw [hsegsOf] at hemp
        change membS "" (strSplitSlash (pathJoin pp p)) = false at hemp
        exact absurd ((membS_iff "" _).mpr hs) (by simp [hemp])
      have hprefix : ∀ q, ExtendsBy q ((strSplitSlash (pathJoin pp p)).map escSeg) →
          ¬ t.fileAt q :=
        fun q hq => hpre _ q hescOf hq
      by_cases ht : e.type = some "tree"
      · have heq : GitHubStream.insertElem pp t e =
            GitHubStream.insTreePath t (strSplitSlash (pathJoin pp p)) := by
          simp [GitHubStream.insertElem, hp, hp0, ht]
        rw [heq]
        have h := insTreePath_ok (strSplitSlash (pathJoin pp p)) t hinv hsegne hprefix
        exact ⟨h.1, fun q hq => Or.inr (h.2 q hq)⟩
      · by_cases hb : e.type = some "blob"
        · have heq : GitHubStream.insertElem pp t e =
              GitHubStream.insBlobPath t (strSplitSlash (pathJoin pp p))
                ⟨e.size.getD 0, e.sha.getD ""⟩ := by
            simp [GitHubStream.insertElem, hp, hp0, ht, hb]
          rw [heq]
          have h := insBlobPath_ok (strSplitSlash (pathJoin pp p)) t
            ⟨e.size.getD 0, e.sha.getD ""⟩ hinv (strSplitSlash_ne_nil _) hsegne hprefix
          refine ⟨h.1, fun q hq => ?_⟩
          rcases h.2 q hq with h1 | h1
          · exact Or.inl ⟨hb, by rw [hescOf, h1]⟩
          · exact Or.inr h1
        · have heq : GitHubStream.insertElem pp t e =
              GitHubStream.insTouchPath t (strSplitSlash (pathJoin pp p)) := by
            simp [GitHubStream.insertElem, hp, hp0, ht, hb]
          rw [heq]
          have h := insTouchPath_ok (strSplitSlash (pathJoin pp p)) t hinv hsegne hprefix
          exact ⟨h.1, fun q hq => Or.inr (h.2 q hq)⟩

/-- The fold of `tree2Tree` keeps the invariant, as long as every blob path of
the whole listing avoids being a proper prefix of any other entry path (all
after escaping) and every file node of the accumulated tree is at such a blob
path. -/
theorem tree2Tree_fold_ok (pp : String) (esAll : List GhEntry)
    (hHaz : ∀ e ∈ esAll, ∀ e' ∈ esAll, blobHazardB pp e e' = false)
    (hEmp : ∀ e ∈ esAll, entryEmptySegB pp e = false) :
    ∀ (es : List GhEntry) (t : Tree), (∀ e ∈ es, e ∈ esAll) →
      Tree.invB t = true →
      (∀ q, t.fileAt q →
        ∃ e, e ∈ esAll ∧ e.type = some "blob" ∧ escSegsOfEntry pp e = some q) →
      Tree.invB (GitHubStream.tree2Tree es t pp) = true
  | [], _, _, hinv, _ => hinv
  | e :: es, t, hmem, hinv, hfiles => by
    have heAll := hmem e (by simp)
    have hstep := insertElem_ok pp e t hinv (hEmp e heAll) ?hpre
    case hpre =>
      intro segs q hesc hq hf
      rcases hfiles q hf with ⟨e'', he''All, he''blob, he''segs⟩
      have hhaz := hHaz e'' he''All e heAll
      unfold blobHazardB at hhaz
      rw [if_pos he''blob, he''segs, hesc] at hhaz
      change strictRunB q segs = false at hhaz
      exact absurd ((strictRunB_iff q segs).mpr hq) (by simp [hhaz])
    show Tree.invB (GitHubStream.tree2Tree es (GitHubStream.insertElem pp t e) pp) = true
    apply tree2Tree_fold_ok pp esAll hHaz hEmp es _
      (fun x hx => hmem x (List.mem_cons_of_mem _ hx)) hstep.1
    intro q hf
    rcases hstep.2 q hf with ⟨hb, hsegs⟩ | hold
    · exact ⟨e, heAll, hb, hsegs⟩
    · exact hfiles q hold

/-- C9 as amended: every Tree produced by folding a remote listing into an
empty tree satisfies the structural invariant — no duplicate sibling keys, no
key simultaneously a leaf and a subtree, no empty (spurious) key — provided
the listing is collision-free: no blob's escaped path is a proper prefix of
another entry's escaped path (the counterexample shows the fold corrupts a
leaf otherwise) and no entry path contributes an empty segment. -/
theorem tree2Tree_invariant (es : List GhEntry) (pp : String)
    (hHaz : ∀ e ∈ es, ∀ e' ∈ es, blobHazardB pp e e' = false)
    (hEmp : ∀ e ∈ es, entryEmptySegB pp e = false) :
    Tree.invB (GitHubStream.tree2Tree es Tree.empty pp) = true :=
  tree2Tree_fold_ok pp es hHaz hEmp es Tree.empty (fun _ h => h) invB_empty
    (fun q hf => absurd hf (fileAt_empty q))

/-- C1 counterexample: a remote listing fixture that requires truncation
resolution on which the synchronizer's output differs from the single
non-truncated fold of the same fixture data.  The truncated root listing
already mentions directory `a` and one of its files, so the step-2 lookup
finds `a` in the accumulated Tree and skips it as "already fully expanded" —
but it was only partially expanded: `a/y.txt` is never recovered, although
the one-shot fold contains it. -/
theorem getTree_cut_fixture_not_full_fold :
    (apiCut.recTree "shaQR").truncated = true ∧
    ((GitHubStream.getFiles apiCut 10 "shaQR").1.find? "a").bind (fun t => t.find? "y.txt") =
      none ∧
    ((gFold gCut).find? "a").bind (fun t => t.find? "y.txt") =
      some (.node (some ⟨2, "shaY"⟩) []) ∧
    Tree.eqv (GitHubStream.getFiles apiCut 10 "shaQR").1 (gFold gCut) = false := by
  decide

/-- A concrete two-level check besides the universal one-round theorem at the
end of this file: for the fixture remote API `apiTwoLevel`, which requires
two nested levels of truncation resolution and whose truncated listings are
subtree-closed, the synchronizer's output Tree equals — as a JS object, key
order disregarded — the Tree folded from a single non-truncated recursive
listing of the same fixture data. -/
theorem getTree_two_level_truncation_eq_full_fold :
    (apiTwoLevel.recTree "shaR").truncated = true ∧
    (apiTwoLevel.recTree "shaA").truncated = true ∧
    Tree.eqv (GitHubStream.getFiles apiTwoLevel 12 "shaR").1 (gFold gTwoLevel) = true := by
  decide

/-- C2 counterexample: the recursive fold inserted the whole subtree of the
`$a` directory (under the escaped key `\$a`), yet the step-2 lookup — which
walks the raw, unescaped segments — misses it, and the synchronizer fetches
`shaDA` again: the recursive-fetch log is `[shaDR, shaDA]`, not `[shaDR]`.
The escaping is *not* applied on the truncation-resolution lookup, and the
already-inserted subtree is re-fetched rather than skipped. -/
theorem getTruncatedTree_refetches_escaped_subtree :
    (GitHubStream.tree2Tree (apiDollar.recTree "shaDR").tree Tree.empty "").find? ("\\" ++ "$a") =
      some (.node none [("x.txt", .node (some ⟨1, "shaX"⟩) [])]) ∧
    (GitHubStream.getFiles apiDollar 10 "shaDR").2 = ["shaDR", "shaDA"] := by
  decide

/-- A concrete skip-versus-refetch check besides the universal theorem at the
end of this file: on the plain fixture the fully inserted subtree `a` is
found and skipped — no second fetch (`shaPA` never fetched) — and the output
equals the full fold; on the `$`-fixture the subtree is re-fetched, but the
re-fetch re-folds the same data with the same escaping, so the output Tree
still equals the full fold. -/
theorem getTruncatedTree_skip_vs_refetch :
    (GitHubStream.getFiles apiPlain 10 "shaPR").2 = ["shaPR"] ∧
    Tree.eqv (GitHubStream.getFiles apiPlain 10 "shaPR").1 (gFold gPlain) = true ∧
    Tree.eqv (GitHubStream.getFiles apiDollar 10 "shaDR").1 (gFold gDollar) = true := by
  decide

/-- Witness for the C9 theorem: the full recursive listing of the two-level
fixture satisfies the collision-freedom hypotheses, so its fold from the empty
tree satisfies the structural invariant. -/
theorem tree2Tree_invariant_witness :
    Tree.invB (GitHubStream.tree2Tree (gListing gTwoLevel "") Tree.empty "") = true :=
  tree2Tree_invariant (gListing gTwoLevel "") "" (by decide) (by decide)

/-- Witness for the C10 theorem: a root directory holding the single file
`$x` of size 4 and inode 11. -/
theorem listFiles_escapes_key_raw_callback_ino_sha_witness :
    ∃ out, (FileSystem.listFiles (.dir [("$x", .file 4 11)]) 1 []).1 = .ok out ∧
      out.find? ("\\" ++ "$x") = some (.node (some ⟨4, toString 11⟩) []) ∧
      .onEntry ["$x"] 4 ∈ (FileSystem.listFiles (.dir [("$x", .file 4 11)]) 1 []).2 :=
  listFiles_escapes_key_raw_callback_ino_sha [("$x", .file 4 11)] [] [] 0 4 11 "$x"
    rfl (by decide) (by decide) (by decide)

/-! #### Path-semantics lemmas -/

/-- The root node always exists. -/
theorem keyAt_nil (t : Tree) : t.keyAt [] := trivial

/-- Unfolding of `keyAt` at a node and a nonempty path. -/
theorem keyAt_cons (fi : Option FileInfo) (cs : List (String × Tree)) (s : String)
    (q : List String) :
    Tree.keyAt (.node fi cs) (s :: q) ↔ ∃ c, lookupKey cs s = some c ∧ Tree.keyAt c q :=
  Iff.rfl

/-- `entryAt` under a missing child. -/
theorem entryAt_cons_none (fi : Option FileInfo) (cs : List (String × Tree)) (s : String)
    (q : List String) (h : lookupKey cs s = none) :
    Tree.entryAt (.node fi cs) (s :: q) = none := by
  simp [Tree.entryAt, Tree.find?, h]

/-- `entryAt` under a found child. -/
theorem entryAt_cons_some (fi : Option FileInfo) (cs : List (String × Tree)) (s : String)
    (q : List String) (c : Tree) (h : lookupKey cs s = some c) :
    Tree.entryAt (.node fi cs) (s :: q) = c.entryAt q := by
  simp [Tree.entryAt, Tree.find?, h]

/-- Nothing exists below the root of the empty object. -/
theorem keyAt_empty (s : String) (q : List String) : ¬ Tree.empty.keyAt (s :: q) := by
  rintro ⟨c, hc, _⟩
  simp [Tree.empty, Tree.find?, lookupKey] at hc

/-- The empty object has no file fields anywhere. -/
theorem entryAt_empty : ∀ (q : List String), Tree.empty.entryAt q = none
  | [] => rfl
  | s :: q => entryAt_cons_none _ _ _ _ rfl

/-- `keyAt` of the child a walk descends into. -/
theorem keyAt_getD (cs : List (String × Tree)) (s : String) (q : List String) :
    Tree.keyAt ((lookupKey cs s).getD Tree.empty) q ↔
      (∃ c, lookupKey cs s = some c ∧ Tree.keyAt c q) ∨ q = [] := by
  cases hl : lookupKey cs s with
  | none =>
    simp only [Option.getD]
    cases q with
    | nil => simp [keyAt_nil]
    | cons s' q' =>
      constructor
      · intro h
        exact absurd h (keyAt_empty s' q')
      · rintro (⟨c, hc, _⟩ | h)
        · cases hc
        · cases h
  | some c =>
    simp only [Option.getD]
    constructor
    · intro h
      exact Or.inl ⟨c, rfl, h⟩
    · rintro (⟨c', hc', h⟩ | h)
      · cases hc'
        exact h
      · subst h
        exact keyAt_nil c

/-- `entryAt` of the child a walk descends into, on a nonempty path. -/
theorem entryAt_getD (cs : List (String × Tree)) (s : String) (s' : String) (q : List String) :
    ((lookupKey cs s).getD Tree.empty).entryAt (s' :: q) =
      match lookupKey cs s with
      | none => none
      | some c => c.entryAt (s' :: q) := by
  cases hl : lookupKey cs s with
  | none => simpa using entryAt_cons_none none [] s' q rfl
  | some c => simp

/-- `InitOf` of the empty run. -/
theorem initOf_nil (s : List String) : InitOf [] s := ⟨s, rfl⟩

/-- Only the empty run begins the empty list. -/
theorem initOf_nil_right (q : List String) : InitOf q [] ↔ q = [] := by
  constructor
  · rintro ⟨r, hr⟩
    cases q with
    | nil => rfl
    | cons a q' => simp at hr
  · rintro rfl
    exact initOf_nil []

/-- Head/tail form of `InitOf`. -/
theorem initOf_cons_iff (a b : String) (q s : List String) :
    InitOf (a :: q) (b :: s) ↔ a = b ∧ InitOf q s := by
  constructor
  · rintro ⟨r, hr⟩
    rw [List.cons_append] at hr
    injection hr with h1 h2
    exact ⟨h1.symm, r, h2⟩
  · rintro ⟨rfl, r, hr⟩
    exact ⟨r, by rw [List.cons_append, hr]⟩

/-- A strict run is a run. -/
theorem extendsBy_initOf (q s : List String) (h : ExtendsBy q s) : InitOf q s := by
  rcases h with ⟨r, hr, _⟩
  exact ⟨r, hr⟩

/-- Nothing strictly extends past the empty list. -/
theorem extendsBy_nil_right (q : List String) : ¬ ExtendsBy q [] := by
  rintro ⟨r, hr, hne⟩
  rcases List.append_eq_nil.mp hr.symm with ⟨_, h2⟩
  exact hne h2

/-- A run of `s` that is not all of `s` is strict. -/
theorem initOf_extendsBy (q s : List String) (h : InitOf q s) (hne : q ≠ s) : ExtendsBy q s := by
  rcases h with ⟨r, hr⟩
  refine ⟨r, hr, ?_⟩
  rintro rfl
  simp at hr
  exact hne hr.symm

/-- `insTreePath` on the empty path. -/
theorem insTreePath_nil (t : Tree) : GitHubStream.insTreePath t [] = t := by
  cases t
  rfl

/-- Node paths after a directory walk: the walked chain, plus everything that
was already there. -/
theorem insTreePath_keyAt : ∀ (S : List String) (t : Tree) (q : List String),
    (GitHubStream.insTreePath t S).keyAt q ↔ InitOf q (S.map escSeg) ∨ t.keyAt q
  | [], t, q => by
    rw [insTreePath_nil]
    simp only [List.map_nil, initOf_nil_right]
    constructor
    · exact fun h => Or.inr h
    · rintro (rfl | h)
      · exact keyAt_nil t
      · exact h
  | p :: rest, .node fi cs, q => by
    show Tree.keyAt (.node fi (setKey cs (escSeg p)
      (GitHubStream.insTreePath ((lookupKey cs (escSeg p)).getD Tree.empty) rest))) q ↔ _
    cases q with
    | nil => simp [keyAt_nil]
    | cons s q' =>
      rw [keyAt_cons]
      by_cases hs : s = escSeg p
      · subst hs
        constructor
        · rintro ⟨c, hc, hk⟩
          rw [lookupKey_setKey_self] at hc
          cases hc
          rcases (insTreePath_keyAt rest _ q').mp hk with h1 | h1
          · exact Or.inl ((initOf_cons_iff _ _ _ _).mpr ⟨rfl, h1⟩)
          · rcases (keyAt_getD cs (escSeg p) q').mp h1 with ⟨c0, hc0, hk0⟩ | rfl
            · exact Or.inr ((keyAt_cons fi cs _ q').mpr ⟨c0, hc0, hk0⟩)
            · exact Or.inl ((initOf_cons_iff _ _ _ _).mpr ⟨rfl, initOf_nil _⟩)
        · intro h
          refine ⟨_, lookupKey_setKey_self _ _ _, ?_⟩
          rw [insTreePath_keyAt rest _ q']
          rcases h with h1 | h1
          · rw [List.map_cons, initOf_cons_iff] at h1
            exact Or.inl h1.2
          · rw [keyAt_cons] at h1
            rcases h1 with ⟨c0, hc0, hk0⟩
            exact Or.inr ((keyAt_getD cs (escSeg p) q').mpr (Or.inl ⟨c0, hc0, hk0⟩))
      · rw [lookupKey_setKey_other _ _ _ _ hs]
        rw [List.map_cons]
        constructor
        · rintro ⟨c, hc, hk⟩
          exact Or.inr ((keyAt_cons fi cs s q').mpr ⟨c, hc, hk⟩)
        · rintro (h1 | h1)
          · rw [initOf_cons_iff] at h1
            exact absurd h1.1 hs
          · exact (keyAt_cons fi cs s q').mp h1

/-- File fields after a directory walk: unchanged. -/
theorem insTreePath_entryAt : ∀ (S : List String) (t : Tree) (q : List String),
    (GitHubStream.insTreePath t S).entryAt q = t.entryAt q
  | [], t, q => by rw [insTreePath_nil]
  | p :: rest, .node fi cs, q => by
    show Tree.entryAt (.node fi (setKey cs (escSeg p)
      (GitHubStream.insTreePath ((lookupKey cs (escSeg p)).getD Tree.empty) rest))) q = _
    cases q with
    | nil => rfl
    | cons s q' =>
      by_cases hs : s = escSeg p
      · subst hs
        rw [entryAt_cons_some _ _ _ _ _ (lookupKey_setKey_self _ _ _)]
        rw [insTreePath_entryAt rest _ q']
        cases hl : lookupKey cs (escSeg p) with
        | none =>
          rw [entryAt_cons_none _ _ _ _ hl]
          exact entryAt_empty q'
        | some c =>
          rw [entryAt_cons_some _ _ _ _ _ hl]
          rfl
      · cases hl : lookupKey cs s with
        | none =>
          rw [entryAt_cons_none _ _ _ _ (by rw [lookupKey_setKey_other _ _ _ _ hs]; exact hl),
            entryAt_cons_none _ _ _ _ hl]
        | some c =>
          rw [entryAt_cons_some _ _ _ _ _ (by rw [lookupKey_setKey_other _ _ _ _ hs]; exact hl),
            entryAt_cons_some _ _ _ _ _ hl]

/-- `ExtendsBy []` means nonempty. -/
theorem extendsBy_nil_iff (s : List String) : ExtendsBy [] s ↔ s ≠ [] := by
  constructor
  · rintro ⟨r, hr, hne⟩
    rw [hr]
    simpa using hne
  · exact fun h => ⟨s, rfl, h⟩

/-- A list strictly extended by a nonempty tail. -/
theorem extendsBy_append (q r : List String) (h : r ≠ []) : ExtendsBy q (q ++ r) := ⟨r, rfl, h⟩

/-- Node paths after a blob insertion: the blob's chain, plus everything that
was already there except what lay strictly below the blob (overwritten by the
fresh `FileEntry` object). -/
theorem insBlobPath_keyAt : ∀ (S : List String) (t : Tree) (info : FileInfo) (q : List String),
    S ≠ [] →
    ((GitHubStream.insBlobPath t S info).keyAt q ↔
      InitOf q (S.map escSeg) ∨ (t.keyAt q ∧ ¬ ExtendsBy (S.map escSeg) q))
  | [], _, _, _, hS => absurd rfl hS
  | [p], .node fi cs, info, q, _ => by
    show Tree.keyAt (.node fi (setKey cs (escSeg p) (.node (some info) []))) q ↔ _
    cases q with
    | nil => simp [keyAt_nil, initOf_nil]
    | cons s q' =>
      rw [keyAt_cons, List.map_cons, List.map_nil]
      by_cases hs : s = escSeg p
      · subst hs
        constructor
        · rintro ⟨c, hc, hk⟩
          rw [lookupKey_setKey_self] at hc
          cases hc
          cases q' with
          | nil => exact Or.inl ((initOf_cons_iff _ _ _ _).mpr ⟨rfl, initOf_nil _⟩)
          | cons s' q'' =>
            rcases hk with ⟨c', hc', _⟩
            simp [Tree.find?, lookupKey] at hc'
        · rintro (h | ⟨hk, hext⟩)
          · rw [initOf_cons_iff, initOf_nil_right] at h
            obtain ⟨-, h2⟩ := h
            subst h2
            exact ⟨_, lookupKey_setKey_self _ _ _, keyAt_nil _⟩
          · cases q' with
            | nil => exact ⟨_, lookupKey_setKey_self _ _ _, keyAt_nil _⟩
            | cons a q'' =>
              exact absurd ((extendsBy_cons_iff _ _ _ _).mpr
                ⟨rfl, (extendsBy_nil_iff _).mpr (by simp)⟩) hext
      · rw [lookupKey_setKey_other _ _ _ _ hs]
        constructor
        · rintro ⟨c, hc, hk⟩
          refine Or.inr ⟨(keyAt_cons fi cs s q').mpr ⟨c, hc, hk⟩, ?_⟩
          rintro ⟨r, hr, _⟩
          rw [List.cons_append] at hr
          injection hr with h1 _
          exact hs h1
        · rintro (h | ⟨hk, _⟩)
          · rw [initOf_cons_iff] at h
            exact absurd h.1 hs
          · exact (keyAt_cons fi cs s q').mp hk
  | p :: q0 :: rest, .node fi cs, info, q, _ => by
    show Tree.keyAt (.node fi (setKey cs (escSeg p)
      (GitHubStream.insBlobPath ((lookupKey cs (escSeg p)).getD Tree.empty)
        (q0 :: rest) info))) q ↔ _
    cases q with
    | nil => simp [keyAt_nil, initOf_nil]
    | cons s q' =>
      rw [keyAt_cons, List.map_cons]
      by_cases hs : s = escSeg p
      · subst hs
        have IH := insBlobPath_keyAt (q0 :: rest)
          ((lookupKey cs (escSeg p)).getD Tree.empty) info q' (by simp)
        constructor
        · rintro ⟨c, hc, hk⟩
          rw [lookupKey_setKey_self] at hc
          cases hc
          rcases IH.mp hk with h1 | ⟨hk1, hext1⟩
          · exact Or.inl ((initOf_cons_iff _ _ _ _).mpr ⟨rfl, h1⟩)
          · rcases (keyAt_getD cs (escSeg p) q').mp hk1 with ⟨c0, hc0, hk0⟩ | rfl
            · refine Or.inr ⟨(keyAt_cons fi cs _ q').mpr ⟨c0, hc0, hk0⟩, ?_⟩
              intro hext
              rw [extendsBy_cons_iff] at hext
              exact hext1 hext.2
            · exact Or.inl ((initOf_cons_iff _ _ _ _).mpr ⟨rfl, initOf_nil _⟩)
        · intro h
          refine ⟨_, lookupKey_setKey_self _ _ _, ?_⟩
          rw [IH]
          rcases h with h1 | ⟨hk1, hext1⟩
          · rw [initOf_cons_iff] at h1
            exact Or.inl h1.2
          · rw [keyAt_cons] at hk1
            rcases hk1 with ⟨c0, hc0, hk0⟩
            refine Or.inr ⟨(keyAt_getD cs (escSeg p) q').mpr (Or.inl ⟨c0, hc0, hk0⟩), ?_⟩
            intro hext
            exact hext1 ((extendsBy_cons_iff _ _ _ _).mpr ⟨rfl, hext⟩)
      · rw [lookupKey_setKey_other _ _ _ _ hs]
        constructor
        · rintro ⟨c, hc, hk⟩
          refine Or.inr ⟨(keyAt_cons fi cs s q').mpr ⟨c, hc, hk⟩, ?_⟩
          rintro ⟨r, hr, _⟩
          rw [List.cons_append] at hr
          injection hr with h1 _
          exact hs h1
        · rintro (h | ⟨hk, _⟩)
          · rw [initOf_cons_iff] at h
            exact absurd h.1 hs
          · exact (keyAt_cons fi cs s q').mp hk

/-- The file fields at the blob's own path after a blob insertion. -/
theorem insBlobPath_entryAt_at : ∀ (S : List String) (t : Tree) (info : FileInfo), S ≠ [] →
    (GitHubStream.insBlobPath t S info).entryAt (S.map escSeg) = some info
  | [], _, _, hS => absurd rfl hS
  | [p], .node fi cs, info, _ => by
    show Tree.entryAt (.node fi (setKey cs (escSeg p) (.node (some info) [])))
      [escSeg p] = some info
    rw [entryAt_cons_some _ _ _ _ _ (lookupKey_setKey_self _ _ _)]
    rfl
  | p :: q0 :: rest, .node fi cs, info, _ => by
    show Tree.entryAt (.node fi (setKey cs (escSeg p)
      (GitHubStream.insBlobPath ((lookupKey cs (escSeg p)).getD Tree.empty)
        (q0 :: rest) info))) (escSeg p :: (q0 :: rest).map escSeg) = some info
    rw [entryAt_cons_some _ _ _ _ _ (lookupKey_setKey_self _ _ _)]
    exact insBlobPath_entryAt_at (q0 :: rest) _ info (by simp)

/-- No file fields survive strictly below an inserted blob. -/
theorem insBlobPath_entryAt_under : ∀ (S : List String) (t : Tree) (info : FileInfo)
    (q : List String), S ≠ [] → ExtendsBy (S.map escSeg) q →
    (GitHubStream.insBlobPath t S info).entryAt q = none
  | [], _, _, _, hS, _ => absurd rfl hS
  | [p], .node fi cs, info, q, _, hext => by
    rw [List.map_cons, List.map_nil] at hext
    rcases hext with ⟨r, hr, hne⟩
    subst hr
    show Tree.entryAt (.node fi (setKey cs (escSeg p) (.node (some info) [])))
      ([escSeg p] ++ r) = none
    cases r with
    | nil => exact absurd rfl hne
    | cons a r' =>
      rw [List.cons_append, List.nil_append,
        entryAt_cons_some _ _ _ _ _ (lookupKey_setKey_self _ _ _)]
      exact entryAt_cons_none (some info) [] a r' rfl
  | p :: q0 :: rest, .node fi cs, info, q, _, hext => by
    rw [List.map_cons] at hext
    rcases hext with ⟨r, hr, hne⟩
    subst hr
    show Tree.entryAt (.node fi (setKey cs (escSeg p)
      (GitHubStream.insBlobPath ((lookupKey cs (escSeg p)).getD Tree.empty)
        (q0 :: rest) info))) ((escSeg p :: (q0 :: rest).map escSeg) ++ r) = none
    rw [List.cons_append, entryAt_cons_some _ _ _ _ _ (lookupKey_setKey_self _ _ _)]
    exact insBlobPath_entryAt_under (q0 :: rest) _ info _ (by simp) (extendsBy_append _ _ hne)

/-- File fields away from an inserted blob's path are unchanged. -/
theorem insBlobPath_entryAt_other : ∀ (S : List String) (t : Tree) (info : FileInfo)
    (q : List String), S ≠ [] → q ≠ S.map escSeg → ¬ ExtendsBy (S.map escSeg) q →
    (GitHubStream.insBlobPath t S info).entryAt q = t.entryAt q
  | [], _, _, _, hS, _, _ => absurd rfl hS
  | [p], .node fi cs, info, q, _, hqne, hext => by
    show Tree.entryAt (.node fi (setKey cs (escSeg p) (.node (some info) []))) q = _
    cases q with
    | nil => rfl
    | cons s q' =>
      by_cases hs : s = escSeg p
      · subst hs
        cases q' with
        | nil => exact absurd (rfl : ([escSeg p] : List String) = List.map escSeg [p]) hqne
        | cons a q'' =>
          exfalso
          apply hext
          rw [List.map_cons, List.map_nil]
          exact ⟨a :: q'', rfl, by simp⟩
      · cases hl : lookupKey cs s with
        | none =>
          rw [entryAt_cons_none _ _ _ _
            (by rw [lookupKey_setKey_other _ _ _ _ hs]; exact hl),
            entryAt_cons_none _ _ _ _ hl]
        | some c =>
          rw [entryAt_cons_some _ _ _ _ _
            (by rw [lookupKey_setKey_other _ _ _ _ hs]; exact hl),
            entryAt_cons_some _ _ _ _ _ hl]
  | p :: q0 :: rest, .node fi cs, info, q, _, hqne, hext => by
    show Tree.entryAt (.node fi (setKey cs (escSeg p)
      (GitHubStream.insBlobPath ((lookupKey cs (escSeg p)).getD Tree.empty)
        (q0 :: rest) info))) q = _
    cases q with
    | nil => rfl
    | cons s q' =>
      by_cases hs : s = escSeg p
      · subst hs
        rw [entryAt_cons_some _ _ _ _ _ (lookupKey_setKey_self _ _ _)]
        have hq'ne : q' ≠ (q0 :: rest).map escSeg := by
          intro h
          exact hqne (by rw [List.map_cons, h])
        have hq'ext : ¬ ExtendsBy ((q0 :: rest).map escSeg) q' := by
          intro h
          exact hext (by
            rw [List.map_cons]
            exact (extendsBy_cons_iff _ _ _ _).mpr ⟨rfl, h⟩)
        rw [insBlobPath_entryAt_other (q0 :: rest) _ info q' (by simp) hq'ne hq'ext]
        cases hl : lookupKey cs (escSeg p) with
        | none =>
          rw [entryAt_cons_none _ _ _ _ hl]
          exact entryAt_empty q'
        | some c =>
          rw [entryAt_cons_some _ _ _ _ _ hl]
          rfl
      · cases hl : lookupKey cs s with
        | none =>
          rw [entryAt_cons_none _ _ _ _
            (by rw [lookupKey_setKey_other _ _ _ _ hs]; exact hl),
            entryAt_cons_none _ _ _ _ hl]
        | some c =>
          rw [entryAt_cons_some _ _ _ _ _
            (by rw [lookupKey_setKey_other _ _ _ _ hs]; exact hl),
            entryAt_cons_some _ _ _ _ _ hl]

/-- Unfolding of `inKeysL` over a cons. -/
theorem inKeysL_cons (pps : List String) (e : GhEntry) (rest : List GhEntry) (q : List String) :
    inKeysL pps (e :: rest) q ↔
      (∃ S, entrySegs pps e = some S ∧ InitOf q S) ∨ inKeysL pps rest q := by
  constructor
  · rintro ⟨e', he', S, hS, hin⟩
    rcases List.mem_cons.mp he' with rfl | h
    · exact Or.inl ⟨S, hS, hin⟩
    · exact Or.inr ⟨e', h, S, hS, hin⟩
  · rintro (⟨S, hS, hin⟩ | ⟨e', he', S, hS, hin⟩)
    · exact ⟨e, List.mem_cons_self _ _, S, hS, hin⟩
    · exact ⟨e', List.mem_cons_of_mem _ he', S, hS, hin⟩

/-- Unfolding of `underBlobL` over a cons. -/
theorem underBlobL_cons (pps : List String) (e : GhEntry) (rest : List GhEntry)
    (q : List String) :
    underBlobL pps (e :: rest) q ↔
      (e.type = some "blob" ∧ ∃ S, entrySegs pps e = some S ∧ ExtendsBy S q) ∨
        underBlobL pps rest q := by
  constructor
  · rintro ⟨e', he', hb, S, hS, hext⟩
    rcases List.mem_cons.mp he' with rfl | h
    · exact Or.inl ⟨hb, S, hS, hext⟩
    · exact Or.inr ⟨e', h, hb, S, hS, hext⟩
  · rintro (⟨hb, S, hS, hext⟩ | ⟨e', he', hb, S, hS, hext⟩)
    · exact ⟨e, List.mem_cons_self _ _, hb, S, hS, hext⟩
    · exact ⟨e', List.mem_cons_of_mem _ he', hb, S, hS, hext⟩

/-- Nothing is in the empty listing. -/
theorem inKeysL_nil (pps : List String) (q : List String) : ¬ inKeysL pps [] q := by
  rintro ⟨e, he, _⟩
  simp at he

/-- See `inKeysL_nil`. -/
theorem underBlobL_nil (pps : List String) (q : List String) : ¬ underBlobL pps [] q := by
  rintro ⟨e, he, _⟩
  simp at he

/-- A strict run followed by a run is a strict run. -/
theorem extendsBy_trans_initOf (a q s : List String) (h1 : ExtendsBy a q) (h2 : InitOf q s) :
    ExtendsBy a s := by
  rcases h1 with ⟨r, hr, hne⟩
  rcases h2 with ⟨r', hr'⟩
  refine ⟨r ++ r', ?_, ?_⟩
  · rw [hr', hr, List.append_assoc]
  · intro hc
    rcases List.append_eq_nil.mp hc with ⟨h, _⟩
    exact hne h

/-- A strict run of a strict run is a strict run. -/
theorem extendsBy_trans (a q s : List String) (h1 : ExtendsBy a q) (h2 : ExtendsBy q s) :
    ExtendsBy a s :=
  extendsBy_trans_initOf a q s h1 (extendsBy_initOf _ _ h2)

/-- Runs of the same list are runs of each other or strict runs. -/
theorem initOf_total_cases (q s : List String) (h : InitOf q s) : q = s ∨ ExtendsBy q s := by
  by_cases hqs : q = s
  · exact Or.inl hqs
  · exact Or.inr (initOf_extendsBy _ _ h hqs)

/-- Every run begins itself. -/
theorem initOf_refl (s : List String) : InitOf s s := ⟨[], (List.append_nil s).symm⟩

/-- The empty listing holds no blob. -/
theorem blobAtL_nil (pps : List String) (q : List String) : blobAtL pps [] q = none := rfl

/-- What a successful `blobAtL` lookup means. -/
theorem blobAtL_some_elim (pps : List String) :
    ∀ (es : List GhEntry) (q : List String) (i : FileInfo), blobAtL pps es q = some i →
      ∃ e, e ∈ es ∧ e.type = some "blob" ∧ entrySegs pps e = some q ∧
        i = ⟨e.size.getD 0, e.sha.getD ""⟩
  | [], _, _, h => by cases h
  | e :: rest, q, i, h => by
    rw [blobAtL] at h
    split at h
    · rename_i hcond
      injection h with h'
      exact ⟨e, List.mem_cons_self _ _, hcond.1, hcond.2, h'.symm⟩
    · rcases blobAtL_some_elim pps rest q i h with ⟨e', he', h1, h2, h3⟩
      exact ⟨e', List.mem_cons_of_mem _ he', h1, h2, h3⟩

/-- A listing containing a nonempty path yields a nonempty segment list. -/
theorem entrySegs_ne_nil (pps : List String) (e : GhEntry) (S : List String)
    (h : entrySegs pps e = some S) : S ≠ [] := by
  unfold entrySegs at h
  cases hp : e.path with
  | none => rw [hp] at h; cases h
  | some p =>
    rw [hp] at h
    change (if p = "" then none else some (List.map escSeg (pps ++ strSplitSlash p)))
      = some S at h
    by_cases hp0 : p = ""
    · rw [if_pos hp0] at h; cases h
    · rw [if_neg hp0] at h
      injection h with h'
      subst h'
      intro hc
      rcases List.map_eq_nil.mp hc with hnil
      rcases List.append_eq_nil.mp hnil with ⟨_, h2⟩
      exact strSplitSlash_ne_nil p h2

/-- The semantics of one `tree2Tree` pass: node paths are the chains of the
listing's entries plus the previous ones not overwritten by a blob, and file
fields are the listing's blob entries, else the previous fields away from any
blob path.  The hypotheses: `Hpp` links the string-level `path.join` to
segment concatenation, `hb1` says no blob path of the listing sits strictly
above another entry's path, `hb4` says duplicate blob paths agree on their
fields, and `hty` says the listing holds only `tree` and `blob` entries. -/
theorem fold_sem (pp : String) (pps : List String)
    (Hpp : ∀ p : String, p ≠ "" → strSplitSlash (pathJoin pp p) = pps ++ strSplitSlash p) :
    ∀ (es : List GhEntry)
    (hb1 : ∀ e ∈ es, e.type = some "blob" → ∀ e' ∈ es, ∀ S S', entrySegs pps e = some S →
      entrySegs pps e' = some S' → ¬ ExtendsBy S S')
    (hb4 : ∀ e ∈ es, e.type = some "blob" → ∀ e' ∈ es, e'.type = some "blob" →
      ∀ S, entrySegs pps e = some S → entrySegs pps e' = some S →
      (⟨e.size.getD 0, e.sha.getD ""⟩ : FileInfo) = ⟨e'.size.getD 0, e'.sha.getD ""⟩)
    (hty : ∀ e ∈ es, e.type = some "tree" ∨ e.type = some "blob")
    (t : Tree),
    (∀ q, (GitHubStream.tree2Tree es t pp).keyAt q ↔
      inKeysL pps es q ∨ (t.keyAt q ∧ ¬ underBlobL pps es q)) ∧
    (∀ q i, blobAtL pps es q = some i → (GitHubStream.tree2Tree es t pp).entryAt q = some i) ∧
    (∀ q, blobAtL pps es q = none → underBlobL pps es q →
      (GitHubStream.tree2Tree es t pp).entryAt q = none) ∧
    (∀ q, blobAtL pps es q = none → ¬ underBlobL pps es q →
      (GitHubStream.tree2Tree es t pp).entryAt q = t.entryAt q)
  | [], _, _, _, t => by
    refine ⟨fun q => ?_, fun q i h => ?_, fun q h hu => ?_, fun q _ _ => rfl⟩
    · simp only [iff_def]
      constructor
      · exact fun h => Or.inr ⟨h, underBlobL_nil pps q⟩
      · rintro (h | ⟨h, _⟩)
        · exact absurd h (inKeysL_nil pps q)
        · exact h
    · cases h
    · exact absurd hu (underBlobL_nil pps q)
  | e :: rest, hb1, hb4, hty, t => by
    have hb1' : ∀ e' ∈ rest, e'.type = some "blob" → ∀ e'' ∈ rest, ∀ S S',
        entrySegs pps e' = some S → entrySegs pps e'' = some S' → ¬ ExtendsBy S S' :=
      fun e' he' hb e'' he'' => hb1 e' (List.mem_cons_of_mem _ he') hb e''
        (List.mem_cons_of_mem _ he'')
    have hb4' : ∀ e' ∈ rest, e'.type = some "blob" → ∀ e'' ∈ rest, e''.type = some "blob" →
        ∀ S, entrySegs pps e' = some S → entrySegs pps e'' = some S →
        (⟨e'.size.getD 0, e'.sha.getD ""⟩ : FileInfo) = ⟨e''.size.getD 0, e''.sha.getD ""⟩ :=
      fun e' he' hb e'' he'' => hb4 e' (List.mem_cons_of_mem _ he') hb e''
        (List.mem_cons_of_mem _ he'')
    have hty' : ∀ e' ∈ rest, e'.type = some "tree" ∨ e'.type = some "blob" :=
      fun e' he' => hty e' (List.mem_cons_of_mem _ he')
    cases hp : e.path with
    | none =>
      have hSe : entrySegs pps e = none := by simp [entrySegs, hp]
      have hins : GitHubStream.insertElem pp t e = t := by
        simp [GitHubStream.insertElem, hp]
      have heq : GitHubStream.tree2Tree (e :: rest) t pp =
          GitHubStream.tree2Tree rest t pp := by
        show List.foldl _ t (e :: rest) = List.foldl _ t rest
        rw [List.foldl_cons, hins]
      have IH := fold_sem pp pps Hpp rest hb1' hb4' hty' t
      have hbA : ∀ q, blobAtL pps (e :: rest) q = blobAtL pps rest q := by
        intro q
        rw [blobAtL, if_neg]
        rintro ⟨_, hc⟩
        rw [hSe] at hc
        cases hc
      refine ⟨fun q => ?_, fun q i h => ?_, fun q h hu => ?_, fun q h hu => ?_⟩
      · rw [heq, (IH.1 q), inKeysL_cons, underBlobL_cons]
        simp [hSe]
      · rw [heq]
        exact IH.2.1 q i (by rw [← hbA]; exact h)
      · rw [heq]
        refine IH.2.2.1 q (by rw [← hbA]; exact h) ?_
        rcases (underBlobL_cons pps e rest q).mp hu with ⟨_, S, hS, _⟩ | h2
        · rw [hSe] at hS; cases hS
        · exact h2
      · rw [heq]
        refine IH.2.2.2 q (by rw [← hbA]; exact h) ?_
        intro h2
        exact hu ((underBlobL_cons pps e rest q).mpr (Or.inr h2))
    | some p =>
      by_cases hp0 : p = ""
      · subst hp0
        have hSe : entrySegs pps e = none := by simp [entrySegs, hp]
        have hins : GitHubStream.insertElem pp t e = t := by
          simp [GitHubStream.insertElem, hp]
        have heq : GitHubStream.tree2Tree (e :: rest) t pp =
            GitHubStream.tree2Tree rest t pp := by
          show List.foldl _ t (e :: rest) = List.foldl _ t rest
          rw [List.foldl_cons, hins]
        have IH := fold_sem pp pps Hpp rest hb1' hb4' hty' t
        have hbA : ∀ q, blobAtL pps (e :: rest) q = blobAtL pps rest q := by
          intro q
          rw [blobAtL, if_neg]
          rintro ⟨_, hc⟩
          rw [hSe] at hc
          cases hc
        refine ⟨fun q => ?_, fun q i h => ?_, fun q h hu => ?_, fun q h hu => ?_⟩
        · rw [heq, (IH.1 q), inKeysL_cons, underBlobL_cons]
          simp [hSe]
        · rw [heq]
          exact IH.2.1 q i (by rw [← hbA]; exact h)
        · rw [heq]
          refine IH.2.2.1 q (by rw [← hbA]; exact h) ?_
          rcases (underBlobL_cons pps e rest q).mp hu with ⟨_, S, hS, _⟩ | h2
          · rw [hSe] at hS; cases hS
          · exact h2
        · rw [heq]
          refine IH.2.2.2 q (by rw [← hbA]; exact h) ?_
          intro h2
          exact hu ((underBlobL_cons pps e rest q).mpr (Or.inr h2))
      · have hSe : entrySegs pps e = some ((pps ++ strSplitSlash p).map escSeg) := by
          simp [entrySegs, hp, hp0]
        have hnoUB : ∀ q, InitOf q ((pps ++ strSplitSlash p).map escSeg) →
            ¬ underBlobL pps rest q := by
          rintro q hin ⟨B, hB, hBblob, SB, hSB, hBext⟩
          exact hb1 B (List.mem_cons_of_mem _ hB) hBblob e (List.mem_cons_self _ _)
            SB _ hSB hSe (extendsBy_trans_initOf _ _ _ hBext hin)
        rcases hty e (List.mem_cons_self _ _) with ht | ht
        · -- tree entry
          have hnb : ¬ (e.type = some "blob") := by rw [ht]; simp
          have hins : GitHubStream.insertElem pp t e =
              GitHubStream.insTreePath t (pps ++ strSplitSlash p) := by
            simp [GitHubStream.insertElem, hp, hp0, ht, Hpp p hp0]
          have heq : GitHubStream.tree2Tree (e :: rest) t pp =
              GitHubStream.tree2Tree rest
                (GitHubStream.insTreePath t (pps ++ strSplitSlash p)) pp := by
            show List.foldl _ t (e :: rest) = _
            rw [List.foldl_cons, hins]
            rfl
          have IH := fold_sem pp pps Hpp rest hb1' hb4' hty'
            (GitHubStream.insTreePath t (pps ++ strSplitSlash p))
          have hbA : ∀ q, blobAtL pps (e :: rest) q = blobAtL pps rest q := by
            intro q
            rw [blobAtL, if_neg]
            rintro ⟨hc, _⟩
            exact hnb hc
          have hUBA : ∀ q, underBlobL pps (e :: rest) q ↔ underBlobL pps rest q := by
            intro q
            rw [underBlobL_cons]
            constructor
            · rintro (⟨hc, _⟩ | h2)
              · exact absurd hc hnb
              · exact h2
            · exact fun h2 => Or.inr h2
          refine ⟨fun q => ?_, fun q i h => ?_, fun q h hu => ?_, fun q h hu => ?_⟩
          · rw [heq, (IH.1 q), inKeysL_cons, hUBA]
            constructor
            · rintro (hA | ⟨hK', hU⟩)
              · exact Or.inl (Or.inr hA)
              · rcases (insTreePath_keyAt _ t q).mp hK' with hI | hK
                · exact Or.inl (Or.inl ⟨_, hSe, hI⟩)
                · exact Or.inr ⟨hK, hU⟩
            · rintro ((⟨S, hS, hI⟩ | hA) | ⟨hK, hU⟩)
              · rw [hSe] at hS
                injection hS with hS'
                subst hS'
                exact Or.inr ⟨(insTreePath_keyAt _ t q).mpr (Or.inl hI), hnoUB q hI⟩
              · exact Or.inl hA
              · exact Or.inr ⟨(insTreePath_keyAt _ t q).mpr (Or.inr hK), hU⟩
          · rw [heq]
            exact IH.2.1 q i (by rw [← hbA]; exact h)
          · rw [heq]
            exact IH.2.2.1 q (by rw [← hbA]; exact h) ((hUBA q).mp hu)
          · rw [heq]
            rw [IH.2.2.2 q (by rw [← hbA]; exact h) (fun h2 => hu ((hUBA q).mpr h2))]
            exact insTreePath_entryAt _ t q
        · -- blob entry
          have hSraw : (pps ++ strSplitSlash p) ≠ [] := by
            intro hc
            rcases List.append_eq_nil.mp hc with ⟨_, h2⟩
            exact strSplitSlash_ne_nil p h2
          have hins : GitHubStream.insertElem pp t e =
              GitHubStream.insBlobPath t (pps ++ strSplitSlash p)
                ⟨e.size.getD 0, e.sha.getD ""⟩ := by
            by_cases htr : e.type = some "tree"
            · exact absurd (htr.symm.trans ht) (by simp)
            · simp [GitHubStream.insertElem, hp, hp0, htr, ht, Hpp p hp0]
          have heq : GitHubStream.tree2Tree (e :: rest) t pp =
              GitHubStream.tree2Tree rest
                (GitHubStream.insBlobPath t (pps ++ strSplitSlash p)
                  ⟨e.size.getD 0, e.sha.getD ""⟩) pp := by
            show List.foldl _ t (e :: rest) = _
            rw [List.foldl_cons, hins]
            rfl
          have IH := fold_sem pp pps Hpp rest hb1' hb4' hty'
            (GitHubStream.insBlobPath t (pps ++ strSplitSlash p)
              ⟨e.size.getD 0, e.sha.getD ""⟩)
          refine ⟨fun q => ?_, fun q i h => ?_, fun q h hu => ?_, fun q h hu => ?_⟩
          · rw [heq, (IH.1 q), inKeysL_cons, underBlobL_cons]
            constructor
            · rintro (hA | ⟨hK', hU⟩)
              · exact Or.inl (Or.inr hA)
              · rcases (insBlobPath_keyAt _ t _ q hSraw).mp hK' with hI | ⟨hK, hEx⟩
                · exact Or.inl (Or.inl ⟨_, hSe, hI⟩)
                · refine Or.inr ⟨hK, ?_⟩
                  rintro (⟨_, S, hS, hext⟩ | h2)
                  · rw [hSe] at hS
                    injection hS with hS'
                    subst hS'
                    exact hEx hext
                  · exact hU h2
            · rintro ((⟨S, hS, hI⟩ | hA) | ⟨hK, hU⟩)
              · rw [hSe] at hS
                injection hS with hS'
                subst hS'
                exact Or.inr ⟨(insBlobPath_keyAt _ t _ q hSraw).mpr (Or.inl hI), hnoUB q hI⟩
              · exact Or.inl hA
              · refine Or.inr ⟨(insBlobPath_keyAt _ t _ q hSraw).mpr (Or.inr ⟨hK, ?_⟩), ?_⟩
                · intro hext
                  exact hU (Or.inl ⟨ht, _, hSe, hext⟩)
                · intro h2
                  exact hU (Or.inr h2)
          · rw [heq]
            rw [blobAtL] at h
            split at h
            · rename_i hcond
              injection h with h'
              subst h'
              have hq : q = (pps ++ strSplitSlash p).map escSeg := by
                have := hcond.2
                rw [hSe] at this
                injection this with h''
                exact h''.symm
              subst hq
              cases hbr : blobAtL pps rest ((pps ++ strSplitSlash p).map escSeg) with
              | some i' =>
                rw [IH.2.1 _ i' hbr]
                rcases blobAtL_some_elim pps rest _ i' hbr with ⟨B, hB, hBblob, hBsegs, hBi⟩
                rw [hBi]
                exact congrArg some (hb4 B (List.mem_cons_of_mem _ hB) hBblob e
                  (List.mem_cons_self _ _) ht _ hBsegs hSe)
              | none =>
                rw [IH.2.2.2 _ hbr (hnoUB _ (initOf_refl _))]
                exact insBlobPath_entryAt_at _ t _ hSraw
            · rw [IH.2.1 q i h]
          · rw [heq]
            rw [blobAtL] at h
            split at h
            · cases h
            · rename_i hcond
              rcases (underBlobL_cons pps e rest q).mp hu with ⟨_, S, hS, hext⟩ | h2
              · rw [hSe] at hS
                injection hS with hS'
                subst hS'
                by_cases hbr2 : underBlobL pps rest q
                · exact IH.2.2.1 q h hbr2
                · rw [IH.2.2.2 q h hbr2]
                  exact insBlobPath_entryAt_under _ t _ q hSraw hext
              · exact IH.2.2.1 q h h2
          · rw [heq]
            rw [blobAtL] at h
            split at h
            · cases h
            · rename_i hcond
              have hnu2 : ¬ underBlobL pps rest q := by
                intro h2
                exact hu ((underBlobL_cons pps e rest q).mpr (Or.inr h2))
              rw [IH.2.2.2 q h hnu2]
              have hqne : q ≠ (pps ++ strSplitSlash p).map escSeg := by
                intro hc
                exact hcond ⟨ht, by rw [hSe, hc]⟩
              have hnext : ¬ ExtendsBy ((pps ++ strSplitSlash p).map escSeg) q := by
                intro hext
                exact hu ((underBlobL_cons pps e rest q).mpr (Or.inl ⟨ht, _, hSe, hext⟩))
              exact insBlobPath_entryAt_other _ t _ q hSraw hqne hnext

/-- Splitting distributes over a `/` in the character list. -/
theorem strSplitSlash_go_append (ys : List Char) :
    ∀ (xs : List Char) (acc : List Char),
    strSplitSlash.go (xs ++ '/' :: ys) acc =
      strSplitSlash.go xs acc ++ strSplitSlash.go ys []
  | [], acc => by
    have e1 : ∀ (c : Char) (zs a : List Char), strSplitSlash.go (c :: zs) a =
        if c = '/' then String.mk a.reverse :: strSplitSlash.go zs []
        else strSplitSlash.go zs (c :: a) := fun _ _ _ => rfl
    rw [List.nil_append, e1, if_pos rfl]
    rfl
  | c :: xs, acc => by
    have e1 : ∀ (c : Char) (zs a : List Char), strSplitSlash.go (c :: zs) a =
        if c = '/' then String.mk a.reverse :: strSplitSlash.go zs []
        else strSplitSlash.go zs (c :: a) := fun _ _ _ => rfl
    rw [List.cons_append, e1, e1]
    by_cases hc : c = '/'
    · rw [if_pos hc, if_pos hc, strSplitSlash_go_append ys xs []]
      rfl
    · rw [if_neg hc, if_neg hc, strSplitSlash_go_append ys xs (c :: acc)]

/-- JS `split("/")` distributes over string concatenation with a `/` glue. -/
theorem strSplitSlash_append (a b : String) :
    strSplitSlash (a ++ "/" ++ b) = strSplitSlash a ++ strSplitSlash b := by
  unfold strSplitSlash
  have hd : (a ++ "/" ++ b).data = a.data ++ '/' :: b.data := by
    simp [String.data_append]
  rw [hd, strSplitSlash_go_append]

/-- A slash-free character list is one single piece. -/
theorem strSplitSlash_go_noSlash :
    ∀ (xs acc : List Char), (∀ c ∈ xs, c ≠ '/') →
    strSplitSlash.go xs acc = [String.mk (acc.reverse ++ xs)]
  | [], acc, _ => by rw [strSplitSlash.go, List.append_nil]
  | c :: xs, acc, h => by
    have hc : c ≠ '/' := h c (by simp)
    rw [strSplitSlash.go, if_neg hc,
      strSplitSlash_go_noSlash xs (c :: acc) (fun d hd => h d (List.mem_cons_of_mem _ hd))]
    simp

/-- JS `split("/")` of a slash-free string. -/
theorem strSplitSlash_noSlash (s : String) (h : noSlashB s = true) :
    strSplitSlash s = [s] := by
  unfold strSplitSlash
  rw [strSplitSlash_go_noSlash s.data [] ?hns]
  case hns =>
    intro c hc
    have := List.all_eq_true.mp h c hc
    simpa using this
  cases s
  rfl

/-- `path.join` with the empty parent. -/
theorem pathJoin_empty (b : String) : pathJoin "" b = b := by
  simp [pathJoin]

/-- The split of a join is the split of the parent followed by the split of
the child. -/
theorem splitsTo_join (a p : String) :
    strSplitSlash (pathJoin a p) = splitsTo a ++ strSplitSlash p := by
  by_cases ha : a = ""
  · subst ha
    simp [pathJoin, splitsTo]
  · rw [pathJoin, if_neg ha, splitsTo, if_neg ha, strSplitSlash_append]

/-- Joining one slash-free segment extends the parent's segment list by that
segment. -/
theorem splitsTo_join_seg (a nm : String) (h1 : nm ≠ "") (h2 : noSlashB nm = true) :
    splitsTo (pathJoin a nm) = splitsTo a ++ [nm] := by
  have hne : pathJoin a nm ≠ "" := by
    by_cases ha : a = ""
    · rw [ha, pathJoin_empty]; exact h1
    · rw [pathJoin, if_neg ha]
      intro hc
      have := congrArg String.data hc
      simp [String.data_append] at this
  rw [splitsTo, if_neg hne, splitsTo_join, strSplitSlash_noSlash nm h2]

/-- The step-2 lookup loop succeeds exactly when the walked path is a node
path of the accumulated tree. -/
theorem walkFound_iff_keyAt : ∀ (t : Tree) (q : List String),
    GitHubStream.walkFound t q = true ↔ t.keyAt q
  | _, [] => by simp [GitHubStream.walkFound, Tree.keyAt]
  | t, s :: rest => by
    rw [GitHubStream.walkFound]
    cases h : t.find? s with
    | none => simp [Tree.keyAt, h]
    | some c => simp [Tree.keyAt, h, walkFound_iff_keyAt c rest]

/-- A path carrying file fields is a node path. -/
theorem keyAt_of_entryAt_some : ∀ (t : Tree) (q : List String) (i : FileInfo),
    t.entryAt q = some i → t.keyAt q
  | _, [], _, _ => trivial
  | t, s :: rest, i, h => by
    rw [Tree.entryAt] at h
    cases hf : t.find? s with
    | none => rw [hf] at h; cases h
    | some c =>
      rw [hf] at h
      exact ⟨c, hf, keyAt_of_entryAt_some c rest i h⟩

/-- A node path's first segment is a node path. -/
theorem keyAt_head (t : Tree) (s : String) (rest : List String)
    (h : t.keyAt (s :: rest)) : t.keyAt [s] := by
  obtain ⟨c, hc, _⟩ := h
  exact ⟨c, hc, trivial⟩

/-- Escaping is idempotent: an escaped segment never starts with `$` again. -/
theorem escSeg_idem (p : String) : escSeg (escSeg p) = escSeg p := by
  by_cases h : firstIsDollar p = true
  · have h1 : escSeg p = "\\" ++ p := by rw [escSeg, if_pos h]
    have hd : ("\\" ++ p).data = '\\' :: p.data := by simp [String.data_append]
    have h2 : firstIsDollar ("\\" ++ p) = false := by
      simp [firstIsDollar, hd]
    rw [h1, escSeg, h2]
    simp
  · have h1 : escSeg p = p := by rw [escSeg, if_neg h]
    rw [h1]
    exact h1

/-- JS string comparison is total. -/
theorem strLeb_go_total : ∀ (xs ys : List Char),
    strLeb.go xs ys = true ∨ strLeb.go ys xs = true
  | [], _ => Or.inl rfl
  | _ :: _, [] => Or.inr rfl
  | c :: cs, d :: ds => by
    have e : ∀ (c d : Char) (cs ds : List Char), strLeb.go (c :: cs) (d :: ds) =
        if c.val.toNat < d.val.toNat then true
        else if d.val.toNat < c.val.toNat then false
        else strLeb.go cs ds := fun _ _ _ _ => rfl
    rw [e, e]
    by_cases h1 : c.val.toNat < d.val.toNat
    · exact Or.inl (by rw [if_pos h1])
    · by_cases h2 : d.val.toNat < c.val.toNat
      · exact Or.inr (by rw [if_pos h2])
      · rw [if_neg h1, if_neg h2, if_neg h2, if_neg h1]
        exact strLeb_go_total cs ds

/-- JS string comparison is antisymmetric. -/
theorem strLeb_go_antisymm : ∀ (xs ys : List Char),
    strLeb.go xs ys = true → strLeb.go ys xs = true → xs = ys
  | [], [], _, _ => rfl
  | [], _ :: _, _, h2 => by cases h2
  | _ :: _, [], h1, _ => by cases h1
  | c :: cs, d :: ds, h1, h2 => by
    have e : ∀ (c d : Char) (cs ds : List Char), strLeb.go (c :: cs) (d :: ds) =
        if c.val.toNat < d.val.toNat then true
        else if d.val.toNat < c.val.toNat then false
        else strLeb.go cs ds := fun _ _ _ _ => rfl
    rw [e] at h1 h2
    by_cases h3 : c.val.toNat < d.val.toNat
    · rw [if_neg (Nat.lt_asymm h3), if_pos h3] at h2
      cases h2
    · by_cases h4 : d.val.toNat < c.val.toNat
      · rw [if_neg h3, if_pos h4] at h1
        cases h1
      · rw [if_neg h3, if_neg h4] at h1
        have hcd : c = d :=
          Char.ext (UInt32.toNat.inj (Nat.le_antisymm (Nat.not_lt.mp h4) (Nat.not_lt.mp h3)))
        rw [if_neg h4, if_neg h3] at h2
        rw [hcd, strLeb_go_antisymm cs ds h1 h2]

/-- JS string comparison is transitive. -/
theorem strLeb_go_trans : ∀ (xs ys zs : List Char),
    strLeb.go xs ys = true → strLeb.go ys zs = true → strLeb.go xs zs = true
  | [], _, _, _, _ => rfl
  | _ :: _, [], _, h1, _ => by cases h1
  | _ :: _, _ :: _, [], _, h2 => by cases h2
  | c :: cs, d :: ds, f :: fs, h1, h2 => by
    have e : ∀ (c d : Char) (cs ds : List Char), strLeb.go (c :: cs) (d :: ds) =
        if c.val.toNat < d.val.toNat then true
        else if d.val.toNat < c.val.toNat then false
        else strLeb.go cs ds := fun _ _ _ _ => rfl
    rw [e] at h1 h2
    rw [e]
    by_cases h3 : c.val.toNat < d.val.toNat
    · have hdf : d.val.toNat ≤ f.val.toNat := by
        by_cases h5 : d.val.toNat < f.val.toNat
        · exact Nat.le_of_lt h5
        · rw [if_neg h5] at h2
          by_cases h6 : f.val.toNat < d.val.toNat
          · rw [if_pos h6] at h2; cases h2
          · exact Nat.not_lt.mp h6
      rw [if_pos (Nat.lt_of_lt_of_le h3 hdf)]
    · by_cases h4 : d.val.toNat < c.val.toNat
      · rw [if_neg h3, if_pos h4] at h1; cases h1
      · have hcd : c.val.toNat = d.val.toNat :=
          Nat.le_antisymm (Nat.not_lt.mp h4) (Nat.not_lt.mp h3)
        rw [if_neg h3, if_neg h4] at h1
        by_cases h5 : d.val.toNat < f.val.toNat
        · rw [if_pos (hcd ▸ h5)]
        · by_cases h6 : f.val.toNat < d.val.toNat
          · rw [if_neg h5, if_pos h6] at h2; cases h2
          · rw [if_neg h5, if_neg h6] at h2
            rw [if_neg (hcd ▸ h5), if_neg (hcd ▸ h6)]
            exact strLeb_go_trans cs ds fs h1 h2

/-- Totality of `strLeb` on strings. -/
theorem strLeb_total (a b : String) : strLeb a b = true ∨ strLeb b a = true :=
  strLeb_go_total a.data b.data

/-- Antisymmetry of `strLeb` on strings. -/
theorem strLeb_antisymm (a b : String) (h1 : strLeb a b = true) (h2 : strLeb b a = true) :
    a = b := by
  have := strLeb_go_antisymm a.data b.data h1 h2
  cases a
  cases b
  cases this
  rfl

/-- Transitivity of `strLeb` on strings. -/
theorem strLeb_trans (a b c : String) (h1 : strLeb a b = true) (h2 : strLeb b c = true) :
    strLeb a c = true :=
  strLeb_go_trans a.data b.data c.data h1 h2

/-- Membership through one insertion-sort step. -/
theorem mem_insKey : ∀ (x z : String × Tree) (l : List (String × Tree)),
    z ∈ insKey x l ↔ z = x ∨ z ∈ l
  | x, z, [] => by simp [insKey]
  | x, z, y :: ys => by
    rw [insKey]
    by_cases h : strLeb x.1 y.1 = true
    · rw [if_pos h]
      simp [List.mem_cons]
    · rw [if_neg h]
      rw [List.mem_cons, mem_insKey x z ys, List.mem_cons]
      tauto

/-- One insertion-sort step is a permutation. -/
theorem insKey_perm : ∀ (x : String × Tree) (l : List (String × Tree)),
    List.Perm (insKey x l) (x :: l)
  | _, [] => List.Perm.refl _
  | x, y :: ys => by
    rw [insKey]
    by_cases h : strLeb x.1 y.1 = true
    · rw [if_pos h]
    · rw [if_neg h]
      exact ((insKey_perm x ys).cons y).trans (List.Perm.swap x y ys)

/-- The child sort is a permutation. -/
theorem sortKeys_perm : ∀ (l : List (String × Tree)), List.Perm (sortKeys l) l
  | [] => List.Perm.refl _
  | x :: xs => by
    rw [sortKeys]
    exact (insKey_perm x (sortKeys xs)).trans ((sortKeys_perm xs).cons x)

/-- One insertion-sort step keeps the list sorted. -/
theorem pairwise_insKey (x : String × Tree) : ∀ (l : List (String × Tree)),
    List.Pairwise keyLe l → List.Pairwise keyLe (insKey x l)
  | [], _ => List.pairwise_singleton _ _
  | y :: ys, hp => by
    rw [insKey]
    rcases List.pairwise_cons.mp hp with ⟨hy, hys⟩
    by_cases h : strLeb x.1 y.1 = true
    · rw [if_pos h]
      refine List.pairwise_cons.mpr ⟨?_, hp⟩
      intro z hz
      rcases List.mem_cons.mp hz with rfl | hz'
      · exact h
      · exact strLeb_trans _ _ _ h (hy z hz')
    · rw [if_neg h]
      refine List.pairwise_cons.mpr ⟨?_, pairwise_insKey x ys hys⟩
      intro z hz
      rcases (mem_insKey x z ys).mp hz with heq | hz'
      · rw [heq]
        rcases strLeb_total x.1 y.1 with h1 | h1
        · exact absurd h1 h
        · exact h1
      · exact hy z hz'

/-- The child sort sorts. -/
theorem sortKeys_pairwise : ∀ (l : List (String × Tree)),
    List.Pairwise keyLe (sortKeys l)
  | [] => List.Pairwise.nil
  | x :: xs => by
    rw [sortKeys]
    exact pairwise_insKey x (sortKeys xs) (sortKeys_pairwise xs)

/-- The Boolean key-distinctness check means `Nodup`. -/
theorem distinctKeysB_iff : ∀ (ks : List String), distinctKeysB ks = true ↔ ks.Nodup
  | [] => by simp [distinctKeysB]
  | k :: ks => by
    rw [distinctKeysB_cons, List.nodup_cons, distinctKeysB_iff ks]
    constructor
    · rintro ⟨h1, h2⟩
      refine ⟨fun hc => ?_, h2⟩
      rw [(membS_iff k ks).mpr hc] at h1
      cases h1
    · rintro ⟨h1, h2⟩
      refine ⟨?_, h2⟩
      cases hm : membS k ks with
      | false => rfl
      | true => exact absurd ((membS_iff k ks).mp hm) h1

/-- Membership in the normalised child list. -/
theorem mem_normChildren : ∀ (cs : List (String × Tree)) (k : String) (u : Tree),
    ((k, u) ∈ normChildren cs) ↔ ∃ t, (k, t) ∈ cs ∧ u = Tree.norm t
  | [], k, u => by simp [normChildren]
  | (k', t') :: rest, k, u => by
    rw [normChildren, List.mem_cons, mem_normChildren rest k u]
    constructor
    · rintro (h | ⟨t, hm, rfl⟩)
      · injection h with h1 h2
        subst h1
        exact ⟨t', List.mem_cons_self _ _, h2⟩
      · exact ⟨t, List.mem_cons_of_mem _ hm, rfl⟩
    · rintro ⟨t, hm, rfl⟩
      rcases List.mem_cons.mp hm with heq | hm'
      · injection heq with h1 h2
        subst h1
        subst h2
        exact Or.inl rfl
      · exact Or.inr ⟨t, hm', rfl⟩

/-- Normalising children keeps the key list. -/
theorem normChildren_keys : ∀ (cs : List (String × Tree)),
    (normChildren cs).map Prod.fst = cs.map Prod.fst
  | [] => rfl
  | (k, t) :: rest => by
    rw [normChildren, List.map_cons, List.map_cons, normChildren_keys rest]

/-- With distinct keys, membership determines the lookup. -/
theorem mem_lookupKey : ∀ (cs : List (String × Tree)) (k : String) (v : Tree),
    (cs.map Prod.fst).Nodup → (k, v) ∈ cs → lookupKey cs k = some v
  | [], _, _, _, hm => by cases hm
  | (k', v') :: rest, k, v, hd, hm => by
    rw [List.map_cons, List.nodup_cons] at hd
    rcases List.mem_cons.mp hm with heq | hm'
    · injection heq with h1 h2
      subst h1
      subst h2
      rw [lookupKey, if_pos rfl]
    · rw [lookupKey]
      by_cases hk : k' = k
      · subst hk
        exact absurd (List.mem_map_of_mem Prod.fst hm') hd.1
      · rw [if_neg hk]
        exact mem_lookupKey rest k v hd.2 hm'

/-- Children of a distinct-keys tree have distinct keys. -/
theorem dkChildren_mem : ∀ (cs : List (String × Tree)) (k : String) (t : Tree),
    dkChildren cs = true → (k, t) ∈ cs → Tree.dkB t = true
  | [], _, _, _, hm => by cases hm
  | (k', t') :: rest, k, t, hd, hm => by
    rw [dkChildren, Bool.and_eq_true] at hd
    rcases List.mem_cons.mp hm with heq | hm'
    · injection heq with _ h2
      subst h2
      exact hd.1
    · exact dkChildren_mem rest k t hd.2 hm'

/-- Trees have positive size. -/
theorem sz_pos : ∀ (t : Tree), 1 ≤ Tree.sz t
  | .node _ cs => by rw [Tree.sz]; omega

/-- A child is smaller than the whole child list. -/
theorem szChildren_mem : ∀ (cs : List (String × Tree)) (k : String) (t : Tree),
    (k, t) ∈ cs → Tree.sz t ≤ szChildren cs
  | [], _, _, hm => by cases hm
  | (k', t') :: rest, k, t, hm => by
    rw [szChildren]
    rcases List.mem_cons.mp hm with heq | hm'
    · injection heq with _ h2
      subst h2
      omega
    · have := szChildren_mem rest k t hm'
      omega

/-- Two sorted association lists with distinct keys and the same members are
equal. -/
theorem sorted_eq_of_mem_iff : ∀ (l1 l2 : List (String × Tree)),
    List.Pairwise keyLe l1 → List.Pairwise keyLe l2 →
    (l1.map Prod.fst).Nodup → (l2.map Prod.fst).Nodup →
    (∀ x, x ∈ l1 ↔ x ∈ l2) → l1 = l2
  | [], [], _, _, _, _, _ => rfl
  | [], y :: l2, _, _, _, _, hm => by
    have := (hm y).mpr (List.mem_cons_self _ _)
    cases this
  | x :: l1, [], _, _, _, _, hm => by
    have := (hm x).mp (List.mem_cons_self _ _)
    cases this
  | x :: l1, y :: l2, hs1, hs2, hd1, hd2, hm => by
    rcases List.pairwise_cons.mp hs1 with ⟨hx, hs1'⟩
    rcases List.pairwise_cons.mp hs2 with ⟨hy, hs2'⟩
    rw [List.map_cons, List.nodup_cons] at hd1 hd2
    have hxy : x = y := by
      rcases List.mem_cons.mp ((hm x).mp (List.mem_cons_self _ _)) with h | hx2
      · exact h
      · rcases List.mem_cons.mp ((hm y).mpr (List.mem_cons_self _ _)) with h | hy1
        · exact h.symm
        · have h1 : keyLe x y := hx y hy1
          have h2 : keyLe y x := hy x hx2
          have hk : x.1 = y.1 := strLeb_antisymm _ _ h1 h2
          exact absurd (hk ▸ List.mem_map_of_mem Prod.fst hx2) hd2.1
    subst hxy
    have htail : ∀ z, z ∈ l1 ↔ z ∈ l2 := by
      intro z
      constructor
      · intro hz
        rcases List.mem_cons.mp ((hm z).mp (List.mem_cons_of_mem _ hz)) with h | h
        · subst h
          exact absurd (List.mem_map_of_mem Prod.fst hz) hd1.1
        · exact h
      · intro hz
        rcases List.mem_cons.mp ((hm z).mpr (List.mem_cons_of_mem _ hz)) with h | h
        · subst h
          exact absurd (List.mem_map_of_mem Prod.fst hz) hd2.1
        · exact h
    rw [sorted_eq_of_mem_iff l1 l2 hs1' hs2' hd1.2 hd2.2 htail]

/-- Extensionality of `Tree.norm`: two trees with distinct sibling keys, the
same node paths and the same file fields everywhere have the same normal
form — they are `deepEqual` as JS objects. -/
theorem norm_ext : ∀ (n : Nat) (a b : Tree), Tree.sz a ≤ n →
    Tree.dkB a = true → Tree.dkB b = true →
    (∀ q, a.keyAt q ↔ b.keyAt q) → (∀ q, a.entryAt q = b.entryAt q) →
    a.norm = b.norm := by
  intro n
  induction n with
  | zero =>
    intro a _ hsz _ _ _ _
    exact absurd (Nat.le_trans (sz_pos a) hsz) (by simp)
  | succ n ih =>
    rintro ⟨fi, cs⟩ ⟨fi', cs'⟩ hsz hda hdb hK hE
    rw [Tree.dkB, Bool.and_eq_true] at hda hdb
    have hnd1 : (cs.map Prod.fst).Nodup := (distinctKeysB_iff _).mp hda.1
    have hnd2 : (cs'.map Prod.fst).Nodup := (distinctKeysB_iff _).mp hdb.1
    have hfi : fi = fi' := hE []
    rw [Tree.sz] at hsz
    have hszc : szChildren cs ≤ n := by omega
    have core : ∀ (k : String) (t t' : Tree), lookupKey cs k = some t →
        lookupKey cs' k = some t' → Tree.norm t = Tree.norm t' := by
      intro k t t' hl hl'
      have hKc : ∀ q, t.keyAt q ↔ t'.keyAt q := by
        intro q
        constructor
        · intro hq
          rcases (hK (k :: q)).mp ⟨t, hl, hq⟩ with ⟨c, hc, hcq⟩
          have : t' = c := by
            have := hl'.symm.trans hc
            injection this
          rw [this]
          exact hcq
        · intro hq
          rcases (hK (k :: q)).mpr ⟨t', hl', hq⟩ with ⟨c, hc, hcq⟩
          have : t = c := by
            have := hl.symm.trans hc
            injection this
          rw [this]
          exact hcq
      have hEc : ∀ q, t.entryAt q = t'.entryAt q := by
        intro q
        have h2 := hE (k :: q)
        have e : ∀ (fi : Option FileInfo) (cs : List (String × Tree)) (k : String)
            (q : List String), Tree.entryAt (.node fi cs) (k :: q) =
            match lookupKey cs k with
            | none => none
            | some c => c.entryAt q := fun _ _ _ _ => rfl
        rw [e, e, hl, hl'] at h2
        exact h2
      exact ih t t' (Nat.le_trans (szChildren_mem cs k t (lookupKey_mem cs k t hl)) hszc)
        (dkChildren_mem cs k t hda.2 (lookupKey_mem cs k t hl))
        (dkChildren_mem cs' k t' hdb.2 (lookupKey_mem cs' k t' hl')) hKc hEc
    have hmem : ∀ x, x ∈ sortKeys (normChildren cs) ↔ x ∈ sortKeys (normChildren cs') := by
      rintro ⟨k, u⟩
      rw [(sortKeys_perm _).mem_iff, (sortKeys_perm _).mem_iff,
        mem_normChildren, mem_normChildren]
      constructor
      · rintro ⟨t, hmt, rfl⟩
        have hl : lookupKey cs k = some t := mem_lookupKey cs k t hnd1 hmt
        rcases (hK [k]).mp ⟨t, hl, trivial⟩ with ⟨t', hl', -⟩
        exact ⟨t', lookupKey_mem cs' k t' hl', core k t t' hl hl'⟩
      · rintro ⟨t', hmt', rfl⟩
        have hl' : lookupKey cs' k = some t' := mem_lookupKey cs' k t' hnd2 hmt'
        rcases (hK [k]).mpr ⟨t', hl', trivial⟩ with ⟨t, hl, -⟩
        exact ⟨t, lookupKey_mem cs k t hl, (core k t t' hl hl').symm⟩
    have hkeys1 : ((sortKeys (normChildren cs)).map Prod.fst).Nodup := by
      rw [((sortKeys_perm (normChildren cs)).map Prod.fst).nodup_iff, normChildren_keys]
      exact hnd1
    have hkeys2 : ((sortKeys (normChildren cs')).map Prod.fst).Nodup := by
      rw [((sortKeys_perm (normChildren cs')).map Prod.fst).nodup_iff, normChildren_keys]
      exact hnd2
    rw [Tree.norm, Tree.norm, hfi,
      sorted_eq_of_mem_iff _ _ (sortKeys_pairwise _) (sortKeys_pairwise _)
        hkeys1 hkeys2 hmem]

/-- Property writes keep children's keys distinct recursively. -/
theorem dkChildren_setKey : ∀ (cs : List (String × Tree)) (k : String) (v : Tree),
    dkChildren cs = true → Tree.dkB v = true → dkChildren (setKey cs k v) = true
  | [], k, v, _, hv => by
    rw [setKey, dkChildren, hv, dkChildren]
    rfl
  | (k', v') :: rest, k, v, hd, hv => by
    rw [dkChildren, Bool.and_eq_true] at hd
    rw [setKey]
    by_cases hk : k' = k
    · rw [if_pos hk, dkChildren, hv, hd.2]
      rfl
    · rw [if_neg hk, dkChildren, hd.1, dkChildren_setKey rest k v hd.2 hv]
      rfl

/-- The child a walk descends into has distinct keys. -/
theorem dk_child (fi : Option FileInfo) (cs : List (String × Tree)) (k : String)
    (h : Tree.dkB (.node fi cs) = true) :
    Tree.dkB ((lookupKey cs k).getD Tree.empty) = true := by
  rw [Tree.dkB, Bool.and_eq_true] at h
  cases hl : lookupKey cs k with
  | none => rfl
  | some c => exact dkChildren_mem cs k c h.2 (lookupKey_mem cs k c hl)

/-- A property write on a distinct-keys node with a distinct-keys value. -/
theorem dkB_setKey (fi : Option FileInfo) (cs : List (String × Tree)) (k : String)
    (v : Tree) (h : Tree.dkB (.node fi cs) = true) (hv : Tree.dkB v = true) :
    Tree.dkB (.node fi (setKey cs k v)) = true := by
  rw [Tree.dkB, Bool.and_eq_true] at h
  rw [Tree.dkB, distinctKeysB_setKey cs k v h.1, dkChildren_setKey cs k v h.2 hv]
  rfl

/-- The tree walk keeps sibling keys distinct. -/
theorem insTreePath_dk : ∀ (segs : List String) (t : Tree), Tree.dkB t = true →
    Tree.dkB (GitHubStream.insTreePath t segs) = true
  | [], t, h => by
    rw [show GitHubStream.insTreePath t [] = t by cases t; rfl]
    exact h
  | p :: rest, .node fi cs, h =>
    dkB_setKey fi cs (escSeg p) _ h
      (insTreePath_dk rest ((lookupKey cs (escSeg p)).getD Tree.empty)
        (dk_child fi cs (escSeg p) h))

/-- The blob walk keeps sibling keys distinct. -/
theorem insBlobPath_dk : ∀ (segs : List String) (t : Tree) (info : FileInfo),
    Tree.dkB t = true → Tree.dkB (GitHubStream.insBlobPath t segs info) = true
  | [], t, _, h => by
    rw [show GitHubStream.insBlobPath t [] _ = t by cases t; rfl]
    exact h
  | [p], .node fi cs, info, h => dkB_setKey fi cs (escSeg p) _ h rfl
  | p :: q :: rest, .node fi cs, info, h =>
    dkB_setKey fi cs (escSeg p) _ h
      (insBlobPath_dk (q :: rest) ((lookupKey cs (escSeg p)).getD Tree.empty) info
        (dk_child fi cs (escSeg p) h))

/-- The non-tree/non-blob walk keeps sibling keys distinct. -/
theorem insTouchPath_dk : ∀ (segs : List String) (t : Tree), Tree.dkB t = true →
    Tree.dkB (GitHubStream.insTouchPath t segs) = true
  | [], t, h => by
    rw [show GitHubStream.insTouchPath t [] = t by cases t; rfl]
    exact h
  | [p], t, h => by
    rw [show GitHubStream.insTouchPath t [p] = t by cases t; rfl]
    exact h
  | p :: q :: rest, .node fi cs, h =>
    dkB_setKey fi cs (escSeg p) _ h
      (insTouchPath_dk (q :: rest) ((lookupKey cs (escSeg p)).getD Tree.empty)
        (dk_child fi cs (escSeg p) h))

/-- One loop step of `tree2Tree` keeps sibling keys distinct. -/
theorem insertElem_dk (pp : String) (t : Tree) (e : GhEntry) (h : Tree.dkB t = true) :
    Tree.dkB (GitHubStream.insertElem pp t e) = true := by
  cases hp : e.path with
  | none =>
    rw [show GitHubStream.insertElem pp t e = t by simp [GitHubStream.insertElem, hp]]
    exact h
  | some p =>
    by_cases hp0 : p = ""
    · rw [show GitHubStream.insertElem pp t e = t by
        simp [GitHubStream.insertElem, hp, hp0]]
      exact h
    · by_cases ht : e.type = some "tree"
      · rw [show GitHubStream.insertElem pp t e =
            GitHubStream.insTreePath t (strSplitSlash (pathJoin pp p)) by
          simp [GitHubStream.insertElem, hp, hp0, ht]]
        exact insTreePath_dk _ t h
      · by_cases hb : e.type = some "blob"
        · rw [show GitHubStream.insertElem pp t e =
              GitHubStream.insBlobPath t (strSplitSlash (pathJoin pp p))
                ⟨e.size.getD 0, e.sha.getD ""⟩ by
            simp [GitHubStream.insertElem, hp, hp0, ht, hb]]
          exact insBlobPath_dk _ t _ h
        · rw [show GitHubStream.insertElem pp t e =
              GitHubStream.insTouchPath t (strSplitSlash (pathJoin pp p)) by
            simp [GitHubStream.insertElem, hp, hp0, ht, hb]]
          exact insTouchPath_dk _ t h

/-- Folding any listing keeps sibling keys distinct. -/
theorem tree2Tree_dk : ∀ (es : List GhEntry) (t : Tree) (pp : String),
    Tree.dkB t = true → Tree.dkB (GitHubStream.tree2Tree es t pp) = true
  | [], _, _, h => h
  | e :: es, t, pp, h =>
    tree2Tree_dk es (GitHubStream.insertElem pp t e) pp (insertElem_dk pp t e h)

/-- `getTruncatedTree` runs the step-2 fold, then re-folds the non-recursive
listing: the mutual recursion unrolled once, stated over the named fold
body. -/
theorem ghFetch_true_eq (api : GitHubStream.RemoteApi) (n : Nat) (sha : String)
    (t : Tree) (pp : String) :
    GitHubStream.ghFetch api (n + 1) true sha t pp =
      (GitHubStream.tree2Tree (api.oneTree sha).tree
        ((api.oneTree sha).tree.foldl (GitHubStream.step2F api n pp) (t, [])).1 pp,
       ((api.oneTree sha).tree.foldl (GitHubStream.step2F api n pp) (t, [])).2) := rfl

/-- Entries without a path are skipped by the step-2 loop. -/
theorem step2F_noPath (api : GitHubStream.RemoteApi) (n : Nat) (pp : String)
    (acc : Tree × List String) (e : GhEntry) (h : e.path = none) :
    GitHubStream.step2F api n pp acc e = acc := by
  simp [GitHubStream.step2F, h]

/-- Entries with an empty path are skipped by the step-2 loop. -/
theorem step2F_emptyPath (api : GitHubStream.RemoteApi) (n : Nat) (pp : String)
    (acc : Tree × List String) (e : GhEntry) (h : e.path = some "") :
    GitHubStream.step2F api n pp acc e = acc := by
  simp [GitHubStream.step2F, h]

/-- Non-`tree` entries are skipped by the step-2 loop. -/
theorem step2F_nonTree (api : GitHubStream.RemoteApi) (n : Nat) (pp : String)
    (acc : Tree × List String) (e : GhEntry) (p : String) (hp : e.path = some p)
    (hp0 : p ≠ "") (ht : ¬ (e.type = some "tree")) :
    GitHubStream.step2F api n pp acc e = acc := by
  simp [GitHubStream.step2F, hp, hp0, ht]

/-- A `tree` entry whose raw path walk succeeds on the accumulated tree is
skipped by the step-2 loop. -/
theorem step2F_found (api : GitHubStream.RemoteApi) (n : Nat) (pp : String)
    (acc : Tree × List String) (e : GhEntry) (p : String) (hp : e.path = some p)
    (hp0 : p ≠ "") (ht : e.type = some "tree")
    (hw : GitHubStream.walkFound acc.1 (strSplitSlash (pathJoin pp p)) = true) :
    GitHubStream.step2F api n pp acc e = acc := by
  simp [GitHubStream.step2F, hp, hp0, ht, hw]

/-- A `tree` entry without a sha is skipped by the step-2 loop. -/
theorem step2F_noSha (api : GitHubStream.RemoteApi) (n : Nat) (pp : String)
    (acc : Tree × List String) (e : GhEntry) (p : String) (hp : e.path = some p)
    (hp0 : p ≠ "") (ht : e.type = some "tree")
    (hw : ¬ (GitHubStream.walkFound acc.1 (strSplitSlash (pathJoin pp p)) = true))
    (hs : e.sha = none) :
    GitHubStream.step2F api n pp acc e = acc := by
  simp [GitHubStream.step2F, hp, hp0, ht, hw, hs]

/-- A `tree` entry whose raw path walk fails triggers a recursive re-fetch of
its subtree in the step-2 loop. -/
theorem step2F_fetch (api : GitHubStream.RemoteApi) (n : Nat) (pp : String)
    (acc : Tree × List String) (e : GhEntry) (p csha : String) (hp : e.path = some p)
    (hp0 : p ≠ "") (ht : e.type = some "tree")
    (hw : ¬ (GitHubStream.walkFound acc.1 (strSplitSlash (pathJoin pp p)) = true))
    (hs : e.sha = some csha) :
    GitHubStream.step2F api n pp acc e =
      ((GitHubStream.ghFetch api n false csha acc.1 (pathJoin pp p)).1,
       acc.2 ++ (GitHubStream.ghFetch api n false csha acc.1 (pathJoin pp p)).2) := by
  simp [GitHubStream.step2F, hp, hp0, ht, hw, hs]

/-- The whole synchronizer recursion keeps sibling keys distinct, whatever
the remote answers. -/
theorem ghFetch_dk (api : GitHubStream.RemoteApi) : ∀ (n : Nat) (mode : Bool)
    (sha : String) (t : Tree) (pp : String), Tree.dkB t = true →
    Tree.dkB (GitHubStream.ghFetch api n mode sha t pp).1 = true := by
  intro n
  induction n with
  | zero =>
    intro mode sha t pp h
    exact h
  | succ n ih =>
    intro mode sha t pp h
    cases mode with
    | false =>
      rw [GitHubStream.ghFetch]
      cases htr : (api.recTree sha).truncated with
      | true =>
        rw [if_pos rfl]
        exact ih true sha _ pp (tree2Tree_dk _ t pp h)
      | false =>
        rw [if_neg (by simp)]
        exact tree2Tree_dk _ t pp h
    | true =>
      rw [ghFetch_true_eq]
      have hfold : ∀ (es : List GhEntry) (acc : Tree × List String),
          Tree.dkB acc.1 = true →
          Tree.dkB (es.foldl (GitHubStream.step2F api n pp) acc).1 = true := by
        intro es
        induction es with
        | nil => exact fun acc h => h
        | cons e es ihe =>
          intro acc hacc
          rw [List.foldl_cons]
          apply ihe
          cases hp : e.path with
          | none => rw [step2F_noPath api n pp acc e hp]; exact hacc
          | some p =>
            by_cases hp0 : p = ""
            · subst hp0
              rw [step2F_emptyPath api n pp acc e hp]
              exact hacc
            · by_cases ht : e.type = some "tree"
              · by_cases hw : GitHubStream.walkFound acc.1
                    (strSplitSlash (pathJoin pp p)) = true
                · rw [step2F_found api n pp acc e p hp hp0 ht hw]
                  exact hacc
                · cases hs : e.sha with
                  | none =>
                    rw [step2F_noSha api n pp acc e p hp hp0 ht hw hs]
                    exact hacc
                  | some csha =>
                    rw [step2F_fetch api n pp acc e p csha hp hp0 ht hw hs]
                    exact ih false csha acc.1 _ hacc
              · rw [step2F_nonTree api n pp acc e p hp hp0 ht]
                exact hacc
      exact tree2Tree_dk _ _ pp (hfold _ (t, []) h)

/-- Unpacking fixture well-formedness at a cons. -/
theorem gwfB_cons (x : GEntry) (cs : List GEntry) (h : gwfB (x :: cs) = true) :
    gwfE x = true ∧ gwfB cs = true ∧
    ¬ (escSeg x.nameOf ∈ (cs.map GEntry.nameOf).map escSeg) := by
  rw [gwfB, Bool.and_eq_true] at h
  obtain ⟨hd, hl⟩ := h
  rw [gwfL, Bool.and_eq_true] at hl
  rw [List.map_cons, List.map_cons, distinctKeysB_cons] at hd
  refine ⟨hl.1, ?_, ?_⟩
  · rw [gwfB, hd.2, hl.2]
    rfl
  · intro hc
    rw [(membS_iff _ _).mpr hc] at hd
    exact absurd hd.1 (by simp)

/-- Unpacking the well-formedness of a directory child. -/
theorem gwfE_dir (nm sha : String) (sub : List GEntry)
    (h : gwfE (.gdir nm sha sub) = true) :
    nm ≠ "" ∧ noSlashB nm = true ∧ gwfB sub = true := by
  rw [gwfE, Bool.and_eq_true, Bool.and_eq_true, Bool.and_eq_true] at h
  refine ⟨by simpa using h.1.1.1, h.1.1.2, ?_⟩
  rw [gwfB, Bool.and_eq_true]
  exact ⟨h.1.2, h.2⟩

/-- Unpacking the well-formedness of a file child. -/
theorem gwfE_file (nm sha : String) (sz : Nat)
    (h : gwfE (.gfile nm sha sz) = true) :
    nm ≠ "" ∧ noSlashB nm = true := by
  rw [gwfE, Bool.and_eq_true] at h
  exact ⟨by simpa using h.1, h.2⟩

/-- A chain through one child starts with that child's escaped name. -/
theorem chainFE_head : ∀ (x : GEntry) (r : List String), chainFE x r = true →
    r.head? = some (escSeg x.nameOf)
  | .gfile nm _ _, r, h => by
    have := of_decide_eq_true h
    subst this
    rfl
  | .gdir nm _ sub, r, h => by
    cases r with
    | nil => cases h
    | cons s rest =>
      rw [chainFE, Bool.and_eq_true] at h
      have := of_decide_eq_true h.1
      subst this
      rfl

/-- A chain of the fixture starts with the escaped name of a top child. -/
theorem chainF_head : ∀ (cs : List GEntry) (r : List String), chainF cs r = true →
    ∃ nm, nm ∈ cs.map GEntry.nameOf ∧ r.head? = some (escSeg nm)
  | [], _, h => by cases h
  | x :: cs, r, h => by
    rw [chainF, Bool.or_eq_true] at h
    rcases h with h | h
    · exact ⟨x.nameOf, by simp, chainFE_head x r h⟩
    · rcases chainF_head cs r h with ⟨nm, hm, hh⟩
      exact ⟨nm, List.mem_cons_of_mem _ hm, hh⟩

/-- No file lookup through a child whose escaped name is not the path head
succeeds. -/
theorem blobFE_of_head_ne : ∀ (x : GEntry) (r : List String),
    r.head? ≠ some (escSeg x.nameOf) → blobFE x r = none
  | .gfile nm sha sz, r, h => by
    rw [blobFE]
    rw [if_neg]
    intro hr
    subst hr
    exact h rfl
  | .gdir nm sha sub, r, h => by
    cases r with
    | nil => rfl
    | cons s rest =>
      rw [blobFE]
      rw [if_neg]
      rintro ⟨h1, -⟩
      subst h1
      exact h rfl

/-- No chain through a child whose escaped name is not the path head. -/
theorem chainFE_of_head_ne (x : GEntry) (r : List String)
    (h : r.head? ≠ some (escSeg x.nameOf)) : chainFE x r = false := by
  cases hc : chainFE x r with
  | false => rfl
  | true => exact absurd (chainFE_head x r hc) h

/-- A successful file lookup starts at a top child's escaped name. -/
theorem blobFE_head : ∀ (x : GEntry) (r : List String) (i : FileInfo),
    blobFE x r = some i → r.head? = some (escSeg x.nameOf)
  | x, r, i, h => by
    by_cases hh : r.head? = some (escSeg x.nameOf)
    · exact hh
    · rw [blobFE_of_head_ne x r hh] at h
      cases h

/-- A successful fixture file lookup starts at a top child's escaped name. -/
theorem blobF_head : ∀ (cs : List GEntry) (r : List String) (i : FileInfo),
    blobF cs r = some i →
    ∃ nm, nm ∈ cs.map GEntry.nameOf ∧ r.head? = some (escSeg nm)
  | [], _, _, h => by cases h
  | x :: cs, r, i, h => by
    rw [blobF] at h
    cases hx : blobFE x r with
    | some j =>
      exact ⟨x.nameOf, by simp, blobFE_head x r j hx⟩
    | none =>
      rw [hx] at h
      rcases blobF_head cs r i h with ⟨nm, hm, hh⟩
      exact ⟨nm, List.mem_cons_of_mem _ hm, hh⟩

mutual
/-- Chains through one child are closed under nonempty initial runs. -/
theorem chainFE_initRun : ∀ (x : GEntry) (r q : List String), chainFE x r = true →
    InitOf q r → q ≠ [] → chainFE x q = true
  | .gfile nm _ _, r, q, h, hin, hq => by
    have hr := of_decide_eq_true h
    subst hr
    obtain ⟨rr, hrr⟩ := hin
    cases q with
    | nil => exact absurd rfl hq
    | cons a q' =>
      rw [List.cons_append] at hrr
      injection hrr with h1 h2
      subst h1
      rcases List.append_eq_nil.mp h2.symm with ⟨h3, -⟩
      subst h3
      exact h
  | .gdir nm sha sub, r, q, h, hin, hq => by
    cases r with
    | nil => cases h
    | cons s rest =>
      rw [chainFE, Bool.and_eq_true] at h
      have hs := of_decide_eq_true h.1
      obtain ⟨rr, hrr⟩ := hin
      cases q with
      | nil => exact absurd rfl hq
      | cons a q' =>
        rw [List.cons_append] at hrr
        injection hrr with h1 h2
        subst h1
        subst hs
        cases hq' : decide (q' = []) with
        | true =>
          have := of_decide_eq_true hq'
          subst this
          rw [chainFE]
          simp
        | false =>
          have hq'ne : q' ≠ [] := by
            intro hc
            rw [hc] at hq'
            cases hq'
          rw [Bool.or_eq_true] at h
          rcases h.2 with h2' | h2'
          · have := of_decide_eq_true h2'
            rw [this] at h2
            rcases List.append_eq_nil.mp h2.symm with ⟨h3, -⟩
            exact absurd h3 hq'ne
          · rw [chainFE]
            have : chainF sub q' = true :=
              chainF_initRun sub rest q' h2' ⟨rr, h2⟩ hq'ne
            simp [this]

/-- Chains of the fixture are closed under nonempty initial runs. -/
theorem chainF_initRun : ∀ (cs : List GEntry) (r q : List String), chainF cs r = true →
    InitOf q r → q ≠ [] → chainF cs q = true
  | [], _, _, h, _, _ => by cases h
  | x :: cs, r, q, h, hin, hq => by
    rw [chainF, Bool.or_eq_true] at h
    rw [chainF, Bool.or_eq_true]
    rcases h with h | h
    · exact Or.inl (chainFE_initRun x r q h hin hq)
    · exact Or.inr (chainF_initRun cs r q h hin hq)
end

/-- A fixture child contributes at least one listing entry. -/
theorem gListingE_ne_nil : ∀ (x : GEntry) (pfx : String), gListingE x pfx ≠ []
  | .gfile _ _ _, _ => by simp [gListingE]
  | .gdir _ _ _, _ => by simp [gListingE]

/-- Well-formedness contains the per-child checks. -/
theorem gwfB_gwfL (cs : List GEntry) (h : gwfB cs = true) : gwfL cs = true := by
  rw [gwfB, Bool.and_eq_true] at h
  exact h.2

/-- The head of an append is the head of a nonempty left part. -/
theorem head_append_left (r r' : List String) (a : String) (h : r.head? = some a) :
    (r ++ r').head? = some a := by
  cases r with
  | nil => cases h
  | cons x xs => exact h

mutual
/-- Every listing entry contributed by one fixture child carries the joined
path of a chain of that child, is a `tree` or a `blob`, and a blob's fields
are the fixture file's fields. -/
theorem gListingE_char : ∀ (x : GEntry) (pfx : String) (e : GhEntry), gwfE x = true →
    e ∈ gListingE x pfx →
    ∃ p raw, e.path = some p ∧ strSplitSlash p = splitsTo pfx ++ raw ∧ raw ≠ [] ∧
      chainFE x (raw.map escSeg) = true ∧
      (e.type = some "tree" ∨ e.type = some "blob") ∧
      (e.type = some "blob" →
        blobFE x (raw.map escSeg) = some ⟨e.size.getD 0, e.sha.getD ""⟩)
  | .gfile nm sha sz, pfx, e, hwf, hm => by
    rcases gwfE_file nm sha sz hwf with ⟨h1, h2⟩
    rw [gListingE, List.mem_singleton] at hm
    subst hm
    refine ⟨pathJoin pfx nm, [nm], rfl, ?_, by simp, ?_, Or.inr rfl, ?_⟩
    · rw [splitsTo_join, strSplitSlash_noSlash nm h2]
    · simp [chainFE]
    · intro _
      simp [blobFE]
  | .gdir nm dsha sub, pfx, e, hwf, hm => by
    rcases gwfE_dir nm dsha sub hwf with ⟨h1, h2, h3⟩
    rw [gListingE] at hm
    rcases List.mem_cons.mp hm with heq | hm'
    · subst heq
      refine ⟨pathJoin pfx nm, [nm], rfl, ?_, by simp, ?_, Or.inl rfl, ?_⟩
      · rw [splitsTo_join, strSplitSlash_noSlash nm h2]
      · simp [chainFE]
      · intro hb
        simp at hb
    · rcases gListing_char sub (pathJoin pfx nm) e h3 hm' with
        ⟨p, raw', hp, hsp, hne, hch, hty, hbl⟩
      refine ⟨p, nm :: raw', hp, ?_, by simp, ?_, hty, ?_⟩
      · rw [hsp, splitsTo_join_seg pfx nm h1 h2, List.append_assoc]
        rfl
      · rw [List.map_cons, chainFE]
        simp [hch]
      · intro hb
        rw [List.map_cons, blobFE, if_pos ⟨rfl, by simp [hne]⟩]
        exact hbl hb

/-- Every entry of a fixture listing carries the joined path of a chain of
the fixture, is a `tree` or a `blob`, and a blob's fields are the fixture
file's fields. -/
theorem gListing_char : ∀ (cs : List GEntry) (pfx : String) (e : GhEntry), gwfB cs = true →
    e ∈ gListing cs pfx →
    ∃ p raw, e.path = some p ∧ strSplitSlash p = splitsTo pfx ++ raw ∧ raw ≠ [] ∧
      chainF cs (raw.map escSeg) = true ∧
      (e.type = some "tree" ∨ e.type = some "blob") ∧
      (e.type = some "blob" →
        blobF cs (raw.map escSeg) = some ⟨e.size.getD 0, e.sha.getD ""⟩)
  | [], _, _, _, hm => by rw [gListing] at hm; cases hm
  | x :: cs, pfx, e, hwf, hm => by
    rcases gwfB_cons x cs hwf with ⟨hwx, hwcs, hnin⟩
    rw [gListing] at hm
    rcases List.mem_append.mp hm with hm' | hm'
    · rcases gListingE_char x pfx e hwx hm' with ⟨p, raw, hp, hsp, hne, hch, hty, hbl⟩
      refine ⟨p, raw, hp, hsp, hne, ?_, hty, ?_⟩
      · rw [chainF, hch]
        rfl
      · intro hb
        rw [blobF, hbl hb]
    · rcases gListing_char cs pfx e hwcs hm' with ⟨p, raw, hp, hsp, hne, hch, hty, hbl⟩
      have hhead : (raw.map escSeg).head? ≠ some (escSeg x.nameOf) := by
        rcases chainF_head cs (raw.map escSeg) hch with ⟨nm0, hm0, hh0⟩
        rw [hh0]
        intro hc
        injection hc with hc'
        exact hnin (hc' ▸ List.mem_map_of_mem escSeg hm0)
      refine ⟨p, raw, hp, hsp, hne, ?_, hty, ?_⟩
      · rw [chainF, hch]
        simp
      · intro hb
        rw [blobF, blobFE_of_head_ne x _ hhead]
        exact hbl hb
end

mutual
/-- Every chain of one fixture child is the path of one of its listing
entries. -/
theorem chainFE_to_entry : ∀ (x : GEntry) (pfx : String) (r : List String),
    gwfE x = true → chainFE x r = true →
    ∃ e, e ∈ gListingE x pfx ∧ ∃ p raw, e.path = some p ∧
      strSplitSlash p = splitsTo pfx ++ raw ∧ raw.map escSeg = r
  | .gfile nm sha sz, pfx, r, hwf, hch => by
    rcases gwfE_file nm sha sz hwf with ⟨h1, h2⟩
    have hr := of_decide_eq_true hch
    subst hr
    exact ⟨_, List.mem_singleton.mpr rfl, pathJoin pfx nm, [nm], rfl,
      by rw [splitsTo_join, strSplitSlash_noSlash nm h2], rfl⟩
  | .gdir nm dsha sub, pfx, r, hwf, hch => by
    rcases gwfE_dir nm dsha sub hwf with ⟨h1, h2, h3⟩
    cases r with
    | nil => cases hch
    | cons s rest =>
      rw [chainFE, Bool.and_eq_true] at hch
      have hs := of_decide_eq_true hch.1
      subst hs
      rw [Bool.or_eq_true] at hch
      rcases hch.2 with hr | hr
      · have := of_decide_eq_true hr
        subst this
        exact ⟨_, List.mem_cons_self _ _, pathJoin pfx nm, [nm], rfl,
          by rw [splitsTo_join, strSplitSlash_noSlash nm h2], rfl⟩
      · rcases chainF_to_entry sub (pathJoin pfx nm) rest (gwfB_gwfL sub h3) hr with
          ⟨e, hme, p, raw', hp, hsp, hmap⟩
        refine ⟨e, ?_, p, nm :: raw', hp, ?_, by rw [List.map_cons, hmap]⟩
        · rw [gListingE]
          exact List.mem_cons_of_mem _ hme
        · rw [hsp, splitsTo_join_seg pfx nm h1 h2, List.append_assoc]
          rfl

/-- Every chain of the fixture is the path of a listing entry. -/
theorem chainF_to_entry : ∀ (cs : List GEntry) (pfx : String) (r : List String),
    gwfL cs = true → chainF cs r = true →
    ∃ e, e ∈ gListing cs pfx ∧ ∃ p raw, e.path = some p ∧
      strSplitSlash p = splitsTo pfx ++ raw ∧ raw.map escSeg = r
  | [], _, _, _, hch => by cases hch
  | x :: cs, pfx, r, hwf, hch => by
    rw [gwfL, Bool.and_eq_true] at hwf
    rw [chainF, Bool.or_eq_true] at hch
    rcases hch with hch | hch
    · rcases chainFE_to_entry x pfx r hwf.1 hch with ⟨e, hme, rest⟩
      exact ⟨e, by rw [gListing]; exact List.mem_append_left _ hme, rest⟩
    · rcases chainF_to_entry cs pfx r hwf.2 hch with ⟨e, hme, rest⟩
      exact ⟨e, by rw [gListing]; exact List.mem_append_right _ hme, rest⟩
end

mutual
/-- Every file of one fixture child is a blob entry of its listing, with the
file's fields. -/
theorem blobFE_to_entry : ∀ (x : GEntry) (pfx : String) (r : List String) (i : FileInfo),
    gwfE x = true → blobFE x r = some i →
    ∃ e, e ∈ gListingE x pfx ∧ e.type = some "blob" ∧ ∃ p raw, e.path = some p ∧
      strSplitSlash p = splitsTo pfx ++ raw ∧ raw.map escSeg = r ∧
      i = ⟨e.size.getD 0, e.sha.getD ""⟩
  | .gfile nm sha sz, pfx, r, i, hwf, hbl => by
    rcases gwfE_file nm sha sz hwf with ⟨h1, h2⟩
    rw [blobFE] at hbl
    split at hbl
    · rename_i hr
      subst hr
      injection hbl with hbl'
      exact ⟨_, List.mem_singleton.mpr rfl, rfl, pathJoin pfx nm, [nm], rfl,
        by rw [splitsTo_join, strSplitSlash_noSlash nm h2], rfl, hbl'.symm⟩
    · cases hbl
  | .gdir nm dsha sub, pfx, r, i, hwf, hbl => by
    rcases gwfE_dir nm dsha sub hwf with ⟨h1, h2, h3⟩
    cases r with
    | nil => cases hbl
    | cons s rest =>
      rw [blobFE] at hbl
      split at hbl
      · rename_i hcond
        obtain ⟨hs, hrest⟩ := hcond
        subst hs
        rcases blobF_to_entry sub (pathJoin pfx nm) rest i h3 hbl with
          ⟨e, hme, hty, p, raw', hp, hsp, hmap, hinfo⟩
        refine ⟨e, ?_, hty, p, nm :: raw', hp, ?_, by rw [List.map_cons, hmap], hinfo⟩
        · rw [gListingE]
          exact List.mem_cons_of_mem _ hme
        · rw [hsp, splitsTo_join_seg pfx nm h1 h2, List.append_assoc]
          rfl
      · cases hbl

/-- Every file of the fixture is a blob entry of the listing, with the file's
fields. -/
theorem blobF_to_entry : ∀ (cs : List GEntry) (pfx : String) (r : List String)
    (i : FileInfo), gwfB cs = true → blobF cs r = some i →
    ∃ e, e ∈ gListing cs pfx ∧ e.type = some "blob" ∧ ∃ p raw, e.path = some p ∧
      strSplitSlash p = splitsTo pfx ++ raw ∧ raw.map escSeg = r ∧
      i = ⟨e.size.getD 0, e.sha.getD ""⟩
  | [], _, _, _, _, hbl => by cases hbl
  | x :: cs, pfx, r, i, hwf, hbl => by
    rcases gwfB_cons x cs hwf with ⟨hwx, hwcs, hnin⟩
    rw [blobF] at hbl
    cases hx : blobFE x r with
    | some j =>
      rw [hx] at hbl
      injection hbl with hbl'
      subst hbl'
      rcases blobFE_to_entry x pfx r j hwx hx with ⟨e, hme, rest⟩
      exact ⟨e, by rw [gListing]; exact List.mem_append_left _ hme, rest⟩
    | none =>
      rw [hx] at hbl
      rcases blobF_to_entry cs pfx r i hwcs hbl with ⟨e, hme, rest⟩
      exact ⟨e, by rw [gListing]; exact List.mem_append_right _ hme, rest⟩
end

mutual
/-- No chain of one fixture child strictly extends one of its file paths. -/
theorem blobFE_no_ext : ∀ (x : GEntry) (r r' : List String) (i : FileInfo),
    gwfE x = true → blobFE x r = some i → chainFE x (r ++ r') = true → r' = []
  | .gfile nm sha sz, r, r', i, _, hbl, hch => by
    rw [blobFE] at hbl
    split at hbl
    · rename_i hr
      subst hr
      have h := of_decide_eq_true hch
      simpa using h
    · cases hbl
  | .gdir nm dsha sub, r, r', i, hwf, hbl, hch => by
    rcases gwfE_dir nm dsha sub hwf with ⟨h1, h2, h3⟩
    cases r with
    | nil => cases hbl
    | cons s rest =>
      rw [blobFE] at hbl
      split at hbl
      · rename_i hcond
        obtain ⟨hs, hrest⟩ := hcond
        subst hs
        rw [List.cons_append, chainFE, Bool.and_eq_true, Bool.or_eq_true] at hch
        rcases hch.2 with hr | hr
        · have := of_decide_eq_true hr
          rcases List.append_eq_nil.mp this with ⟨h4, -⟩
          exact absurd h4 hrest
        · exact blobF_no_ext sub rest r' i h3 hbl hr
      · cases hbl

/-- No chain of the fixture strictly extends a file path. -/
theorem blobF_no_ext : ∀ (cs : List GEntry) (r r' : List String) (i : FileInfo),
    gwfB cs = true → blobF cs r = some i → chainF cs (r ++ r') = true → r' = []
  | [], _, _, _, _, hbl, _ => by cases hbl
  | x :: cs, r, r', i, hwf, hbl, hch => by
    rcases gwfB_cons x cs hwf with ⟨hwx, hwcs, hnin⟩
    rw [chainF, Bool.or_eq_true] at hch
    rw [blobF] at hbl
    cases hx : blobFE x r with
    | some j =>
      rw [hx] at hbl
      injection hbl with hbl'
      subst hbl'
      rcases hch with hch | hch
      · exact blobFE_no_ext x r r' _ hwx hx hch
      · rcases chainF_head cs (r ++ r') hch with ⟨nm0, hm0, hh0⟩
        have hhr := blobFE_head x r _ hx
        rw [head_append_left r r' _ hhr] at hh0
        injection hh0 with hh0'
        exact absurd (hh0' ▸ List.mem_map_of_mem escSeg hm0) hnin
    | none =>
      rw [hx] at hbl
      rcases hch with hch | hch
      · rcases blobF_head cs r i hbl with ⟨nm0, hm0, hh0⟩
        have := chainFE_head x (r ++ r') hch
        rw [head_append_left r r' _ hh0] at this
        injection this with hh0'
        exact absurd (hh0'.symm ▸ List.mem_map_of_mem escSeg hm0) hnin
      · exact blobF_no_ext cs r r' i hwcs hbl hch
end

/-- No chain starts at a segment that is no top child's escaped name. -/
theorem chainF_none_of_head : ∀ (cs : List GEntry) (s : String) (rest : List String),
    ¬ (s ∈ (cs.map GEntry.nameOf).map escSeg) → chainF cs (s :: rest) = false
  | [], _, _, _ => rfl
  | x :: cs, s, rest, h => by
    rw [List.map_cons, List.map_cons, List.mem_cons] at h
    rw [chainF, chainFE_of_head_ne x _ (by intro hc; injection hc with hc'; exact h (Or.inl hc')),
      chainF_none_of_head cs s rest (fun hc => h (Or.inr hc))]
    rfl

/-- No file lookup starts at a segment that is no top child's escaped name. -/
theorem blobF_none_of_head : ∀ (cs : List GEntry) (s : String) (rest : List String),
    ¬ (s ∈ (cs.map GEntry.nameOf).map escSeg) → blobF cs (s :: rest) = none
  | [], _, _, _ => rfl
  | x :: cs, s, rest, h => by
    rw [List.map_cons, List.map_cons, List.mem_cons] at h
    rw [blobF, blobFE_of_head_ne x _ (by intro hc; injection hc with hc'; exact h (Or.inl hc')),
      blobF_none_of_head cs s rest (fun hc => h (Or.inr hc))]

/-- Chains below a top directory are its name followed by a chain of its
children. -/
theorem chainF_dir_iff : ∀ (cs : List GEntry) (nm dsha : String) (sub : List GEntry)
    (rest : List String), gwfB cs = true → (.gdir nm dsha sub) ∈ cs →
    (chainF cs (escSeg nm :: rest) = true ↔ (rest = [] ∨ chainF sub rest = true))
  | [], _, _, _, _, _, hm => by cases hm
  | x :: cs, nm, dsha, sub, rest, hwf, hm => by
    rcases gwfB_cons x cs hwf with ⟨hwx, hwcs, hnin⟩
    rcases List.mem_cons.mp hm with heq | hm'
    · subst heq
      rw [chainF, chainF_none_of_head cs (escSeg nm) rest hnin, Bool.or_false, chainFE]
      simp
    · have hne : escSeg nm ≠ escSeg x.nameOf := by
        intro hc
        exact hnin (hc ▸ List.mem_map_of_mem escSeg (List.mem_map_of_mem GEntry.nameOf hm'))
      rw [chainF, chainFE_of_head_ne x _ (by intro hc; injection hc with hc'; exact hne hc'),
        Bool.false_or]
      exact chainF_dir_iff cs nm dsha sub rest hwcs hm'

/-- File lookups below a top directory delegate to its children. -/
theorem blobF_dir : ∀ (cs : List GEntry) (nm dsha : String) (sub : List GEntry)
    (rest : List String), gwfB cs = true → (.gdir nm dsha sub) ∈ cs →
    blobF cs (escSeg nm :: rest) = if rest = [] then none else blobF sub rest
  | [], _, _, _, _, _, hm => by cases hm
  | x :: cs, nm, dsha, sub, rest, hwf, hm => by
    rcases gwfB_cons x cs hwf with ⟨hwx, hwcs, hnin⟩
    rcases List.mem_cons.mp hm with heq | hm'
    · subst heq
      by_cases hr : rest = []
      · subst hr
        rw [if_pos rfl, blobF,
          show blobFE (.gdir nm dsha sub) [escSeg nm] = none by
            rw [blobFE, if_neg]; rintro ⟨-, hc⟩; exact hc rfl]
        exact blobF_none_of_head cs (escSeg nm) [] hnin
      · rw [if_neg hr, blobF,
          show blobFE (.gdir nm dsha sub) (escSeg nm :: rest) = blobF sub rest by
            rw [blobFE, if_pos ⟨rfl, hr⟩]]
        cases hb : blobF sub rest with
        | some i => rfl
        | none => exact blobF_none_of_head cs (escSeg nm) rest hnin
    · have hne : escSeg nm ≠ escSeg x.nameOf := by
        intro hc
        exact hnin (hc ▸ List.mem_map_of_mem escSeg (List.mem_map_of_mem GEntry.nameOf hm'))
      rw [blobF, blobFE_of_head_ne x _ (by intro hc; injection hc with hc'; exact hne hc')]
      exact blobF_dir cs nm dsha sub rest hwcs hm'

/-- Chains below a top file stop at the file. -/
theorem chainF_file_iff : ∀ (cs : List GEntry) (nm fsha : String) (sz : Nat)
    (rest : List String), gwfB cs = true → (.gfile nm fsha sz) ∈ cs →
    (chainF cs (escSeg nm :: rest) = true ↔ rest = [])
  | [], _, _, _, _, _, hm => by cases hm
  | x :: cs, nm, fsha, sz, rest, hwf, hm => by
    rcases gwfB_cons x cs hwf with ⟨hwx, hwcs, hnin⟩
    rcases List.mem_cons.mp hm with heq | hm'
    · subst heq
      rw [chainF, chainF_none_of_head cs (escSeg nm) rest hnin, Bool.or_false, chainFE]
      simp
    · have hne : escSeg nm ≠ escSeg x.nameOf := by
        intro hc
        exact hnin (hc ▸ List.mem_map_of_mem escSeg (List.mem_map_of_mem GEntry.nameOf hm'))
      rw [chainF, chainFE_of_head_ne x _ (by intro hc; injection hc with hc'; exact hne hc'),
        Bool.false_or]
      exact chainF_file_iff cs nm fsha sz rest hwcs hm'

/-- File lookups at a top file yield its fields, and nothing lies below it. -/
theorem blobF_file : ∀ (cs : List GEntry) (nm fsha : String) (sz : Nat)
    (rest : List String), gwfB cs = true → (.gfile nm fsha sz) ∈ cs →
    blobF cs (escSeg nm :: rest) =
      if rest = [] then some ⟨sz, fsha⟩ else none
  | [], _, _, _, _, _, hm => by cases hm
  | x :: cs, nm, fsha, sz, rest, hwf, hm => by
    rcases gwfB_cons x cs hwf with ⟨hwx, hwcs, hnin⟩
    rcases List.mem_cons.mp hm with heq | hm'
    · subst heq
      by_cases hr : rest = []
      · subst hr
        rw [if_pos rfl, blobF,
          show blobFE (.gfile nm fsha sz) [escSeg nm] = some ⟨sz, fsha⟩ by
            rw [blobFE, if_pos rfl]]
      · rw [if_neg hr, blobF,
          show blobFE (.gfile nm fsha sz) (escSeg nm :: rest) = none by
            rw [blobFE, if_neg]
            intro hc
            injection hc with h1 h2
            exact hr h2]
        exact blobF_none_of_head cs (escSeg nm) rest hnin
    · have hne : escSeg nm ≠ escSeg x.nameOf := by
        intro hc
        exact hnin (hc ▸ List.mem_map_of_mem escSeg (List.mem_map_of_mem GEntry.nameOf hm'))
      rw [blobF, blobFE_of_head_ne x _ (by intro hc; injection hc with hc'; exact hne hc')]
      exact blobF_file cs nm fsha sz rest hwcs hm'

/-- Every child of a well-formed level is well-formed. -/
theorem gwfL_mem : ∀ (cs : List GEntry) (x : GEntry), gwfL cs = true → x ∈ cs →
    gwfE x = true
  | [], _, _, hm => by cases hm
  | y :: cs, x, hwf, hm => by
    rw [gwfL, Bool.and_eq_true] at hwf
    rcases List.mem_cons.mp hm with heq | hm'
    · subst heq
      exact hwf.1
    · exact gwfL_mem cs x hwf.2 hm'

/-- Well-formed children have nonempty names. -/
theorem gwfE_name_ne (x : GEntry) (h : gwfE x = true) : x.nameOf ≠ "" := by
  cases x with
  | gfile nm sha sz => exact (gwfE_file nm sha sz h).1
  | gdir nm sha sub => exact (gwfE_dir nm sha sub h).1

/-- A chain of a well-formed fixture never starts with the empty segment. -/
theorem chain_head_ne_empty (cs : List GEntry) (r : List String)
    (hwf : gwfB cs = true) (h : chainF cs r = true) : r.head? ≠ some "" := by
  rcases chainF_head cs r h with ⟨nm0, hm0, hh0⟩
  rw [hh0]
  intro hc
  injection hc with hc'
  rcases List.mem_map.mp hm0 with ⟨x, hx, hnm⟩
  exact escSeg_ne_empty nm0 (hnm ▸ gwfE_name_ne x (gwfL_mem cs x (gwfB_gwfL cs hwf) hx)) hc'

/-- An initial run of an append is an initial run of the left part or extends
it by an initial run of the right part. -/
theorem initOf_append_split : ∀ (X q Y : List String), InitOf q (X ++ Y) →
    InitOf q X ∨ ∃ r, r ≠ [] ∧ q = X ++ r ∧ InitOf r Y
  | [], q, Y, h => by
    cases hq : q with
    | nil => exact Or.inl (initOf_nil [])
    | cons a q' =>
      subst hq
      exact Or.inr ⟨a :: q', by simp, rfl, h⟩
  | x :: X', q, Y, h => by
    cases hq : q with
    | nil => exact Or.inl (initOf_nil _)
    | cons a q' =>
      subst hq
      rw [List.cons_append] at h
      rcases (initOf_cons_iff a x q' (X' ++ Y)).mp h with ⟨h1, h2⟩
      subst h1
      rcases initOf_append_split X' q' Y h2 with h3 | ⟨r, hr, h4, h5⟩
      · exact Or.inl ((initOf_cons_iff a a q' X').mpr ⟨rfl, h3⟩)
      · exact Or.inr ⟨r, hr, by rw [h4, List.cons_append], h5⟩

/-- A strict extension is strictly longer. -/
theorem extendsBy_length (S q : List String) (h : ExtendsBy S q) :
    S.length < q.length := by
  obtain ⟨r, hq, hr⟩ := h
  subst hq
  rw [List.length_append]
  cases r with
  | nil => exact absurd rfl hr
  | cons a r' => simp

/-- If some entry of a listing is a blob at `q`, and every blob of the listing
at `q` carries the fields `i`, the first-match lookup returns `i`. -/
theorem blobAtL_eq_some (pps : List String) :
    ∀ (es : List GhEntry) (q : List String) (i : FileInfo),
    (∃ e, e ∈ es ∧ e.type = some "blob" ∧ entrySegs pps e = some q) →
    (∀ e, e ∈ es → e.type = some "blob" → entrySegs pps e = some q →
      (⟨e.size.getD 0, e.sha.getD ""⟩ : FileInfo) = i) →
    blobAtL pps es q = some i
  | [], _, _, hex, _ => by
    rcases hex with ⟨e, hm, -⟩
    cases hm
  | e' :: es, q, i, hex, huniq => by
    rw [blobAtL]
    by_cases hc : e'.type = some "blob" ∧ entrySegs pps e' = some q
    · rw [if_pos hc]
      rw [huniq e' (List.mem_cons_self _ _) hc.1 hc.2]
    · rw [if_neg hc]
      rcases hex with ⟨e, hm, hb, hs⟩
      rcases List.mem_cons.mp hm with heq | hm'
      · subst heq
        exact absurd ⟨hb, hs⟩ hc
      · exact blobAtL_eq_some pps es q i ⟨e, hm', hb, hs⟩
          (fun e hm => huniq e (List.mem_cons_of_mem _ hm))

/-- A path whose escaped segments do not start empty is nonempty. -/
theorem path_ne_empty_of_head (p : String) (raw : List String)
    (hsp : strSplitSlash p = raw) (hh : (raw.map escSeg).head? ≠ some "") : p ≠ "" := by
  intro hc
  subst hc
  have hr : raw = [""] := by rw [← hsp]; rfl
  subst hr
  exact hh rfl

/-- Every entry of a root fixture listing, seen by a fold with parent
segments `A`: its escaped segments are `A` (escaped) followed by a chain of
the fixture. -/
theorem gListing_entry (cs : List GEntry) (A : List String) (e : GhEntry)
    (hwf : gwfB cs = true) (hm : e ∈ gListing cs "") :
    ∃ raw, raw ≠ [] ∧
      entrySegs A e = some (A.map escSeg ++ raw.map escSeg) ∧
      chainF cs (raw.map escSeg) = true ∧
      (e.type = some "tree" ∨ e.type = some "blob") ∧
      (e.type = some "blob" →
        blobF cs (raw.map escSeg) = some ⟨e.size.getD 0, e.sha.getD ""⟩) := by
  rcases gListing_char cs "" e hwf hm with ⟨p, raw, hp, hsp, hne, hch, hty, hbl⟩
  have hsp' : strSplitSlash p = raw := by rw [hsp]; simp [splitsTo]
  have hpne : p ≠ "" :=
    path_ne_empty_of_head p raw hsp' (chain_head_ne_empty cs _ hwf hch)
  refine ⟨raw, hne, ?_, hch, hty, hbl⟩
  simp [entrySegs, hp, hpne, hsp', List.map_append]

/-- Every chain of the fixture is the escaped-segment suffix of a listing
entry, for any parent segments `A`. -/
theorem chain_to_entrySegs (cs : List GEntry) (A r : List String)
    (hwf : gwfB cs = true) (hch : chainF cs r = true) :
    ∃ e, e ∈ gListing cs "" ∧ entrySegs A e = some (A.map escSeg ++ r) := by
  rcases chainF_to_entry cs "" r (gwfB_gwfL cs hwf) hch with ⟨e, hm, p, raw, hp, hsp, hmap⟩
  have hsp' : strSplitSlash p = raw := by rw [hsp]; simp [splitsTo]
  have hpne : p ≠ "" :=
    path_ne_empty_of_head p raw hsp'
      (by rw [hmap]; exact chain_head_ne_empty cs r hwf hch)
  refine ⟨e, hm, ?_⟩
  simp [entrySegs, hp, hpne, hsp', List.map_append, hmap]

/-- Every fixture file is a blob entry of the listing, with its fields, for
any parent segments `A`. -/
theorem blob_to_entrySegs (cs : List GEntry) (A r : List String) (i : FileInfo)
    (hwf : gwfB cs = true) (hbl : blobF cs r = some i) :
    ∃ e, e ∈ gListing cs "" ∧ e.type = some "blob" ∧
      entrySegs A e = some (A.map escSeg ++ r) ∧
      i = ⟨e.size.getD 0, e.sha.getD ""⟩ := by
  rcases blobF_to_entry cs "" r i hwf hbl with ⟨e, hm, hty, p, raw, hp, hsp, hmap, hinfo⟩
  have hsp' : strSplitSlash p = raw := by rw [hsp]; simp [splitsTo]
  have hh : (raw.map escSeg).head? ≠ some "" := by
    rw [hmap]
    rcases blobF_head cs r i hbl with ⟨nm0, hm0, hh0⟩
    rw [hh0]
    intro hc
    injection hc with hc'
    rcases List.mem_map.mp hm0 with ⟨x, hx, hnm⟩
    exact escSeg_ne_empty nm0 (hnm ▸ gwfE_name_ne x (gwfL_mem cs x (gwfB_gwfL cs hwf) hx)) hc'
  have hpne : p ≠ "" := path_ne_empty_of_head p raw hsp' hh
  refine ⟨e, hm, hty, ?_, hinfo⟩
  simp [entrySegs, hp, hpne, hsp', List.map_append, hmap]

/-- Keys created by folding a root fixture listing under parent segments `A`:
initial runs of `A` extended by chains. -/
theorem inKeysL_gListing (cs : List GEntry) (A q : List String) (hwf : gwfB cs = true) :
    inKeysL A (gListing cs "") q ↔
      ∃ r, chainF cs r = true ∧ InitOf q (A.map escSeg ++ r) := by
  constructor
  · rintro ⟨e, hm, S, hS, hin⟩
    rcases gListing_entry cs A e hwf hm with ⟨raw, hne, hsegs, hch, -, -⟩
    rw [hsegs] at hS
    injection hS with hS'
    subst hS'
    exact ⟨raw.map escSeg, hch, hin⟩
  · rintro ⟨r, hch, hin⟩
    rcases chain_to_entrySegs cs A r hwf hch with ⟨e, hm, hsegs⟩
    exact ⟨e, hm, A.map escSeg ++ r, hsegs, hin⟩

/-- The first blob match of a root fixture listing under parent segments
`A`. -/
theorem blobAtL_gListing (cs : List GEntry) (A q : List String) (i : FileInfo)
    (hwf : gwfB cs = true) :
    blobAtL A (gListing cs "") q = some i ↔
      ∃ r, q = A.map escSeg ++ r ∧ blobF cs r = some i := by
  constructor
  · intro h
    rcases blobAtL_some_elim A (gListing cs "") q i h with ⟨e, hm, hb, hS, hinfo⟩
    rcases gListing_entry cs A e hwf hm with ⟨raw, hne, hsegs, hch, -, hbl⟩
    rw [hsegs] at hS
    injection hS with hS'
    refine ⟨raw.map escSeg, hS'.symm, ?_⟩
    rw [hbl hb, hinfo]
  · rintro ⟨r, hq, hbl⟩
    subst hq
    rcases blob_to_entrySegs cs A r i hwf hbl with ⟨e, hm, hb, hsegs, hinfo⟩
    apply blobAtL_eq_some A (gListing cs "") _ i ⟨e, hm, hb, hsegs⟩
    intro e' hm' hb' hsegs'
    rcases gListing_entry cs A e' hwf hm' with ⟨raw', hne', hsegs'', hch', -, hbl'⟩
    rw [hsegs''] at hsegs'
    injection hsegs' with hS'
    have hrr : raw'.map escSeg = r := (List.append_right_inj (A.map escSeg)).mp hS'
    have := hbl' hb'
    rw [hrr, hbl] at this
    injection this with this'
    rw [this']

/-- Being strictly below a blob of a root fixture listing under parent
segments `A`. -/
theorem underBlobL_gListing (cs : List GEntry) (A q : List String)
    (hwf : gwfB cs = true) :
    underBlobL A (gListing cs "") q ↔
      ∃ r i, blobF cs r = some i ∧ ExtendsBy (A.map escSeg ++ r) q := by
  constructor
  · rintro ⟨e, hm, hb, S, hS, hext⟩
    rcases gListing_entry cs A e hwf hm with ⟨raw, hne, hsegs, hch, -, hbl⟩
    rw [hsegs] at hS
    injection hS with hS'
    subst hS'
    exact ⟨raw.map escSeg, _, hbl hb, hext⟩
  · rintro ⟨r, i, hbl, hext⟩
    rcases blob_to_entrySegs cs A r i hwf hbl with ⟨e, hm, hb, hsegs, -⟩
    exact ⟨e, hm, hb, A.map escSeg ++ r, hsegs, hext⟩

/-- No blob path of a root fixture listing sits strictly above another
entry's path (the `hb1` hypothesis of `fold_sem`). -/
theorem gListing_hb1 (cs : List GEntry) (A : List String) (hwf : gwfB cs = true) :
    ∀ e ∈ gListing cs "", e.type = some "blob" → ∀ e' ∈ gListing cs "",
    ∀ S S', entrySegs A e = some S → entrySegs A e' = some S' →
    ¬ ExtendsBy S S' := by
  intro e hm hb e' hm' S S' hS hS' hext
  rcases gListing_entry cs A e hwf hm with ⟨raw, hne, hsegs, hch, -, hbl⟩
  rcases gListing_entry cs A e' hwf hm' with ⟨raw', hne', hsegs', hch', -, -⟩
  rw [hsegs] at hS
  injection hS with h1
  subst h1
  rw [hsegs'] at hS'
  injection hS' with h2
  subst h2
  obtain ⟨extra, hq, hexne⟩ := hext
  have hsplit : raw'.map escSeg = raw.map escSeg ++ extra := by
    apply (List.append_right_inj (A.map escSeg)).mp
    rw [← List.append_assoc]
    exact hq
  have := blobF_no_ext cs (raw.map escSeg) extra _ hwf (hbl hb)
    (by rw [← hsplit]; exact hch')
  exact hexne this

/-- Duplicate blob paths of a root fixture listing agree on their fields (the
`hb4` hypothesis of `fold_sem`). -/
theorem gListing_hb4 (cs : List GEntry) (A : List String) (hwf : gwfB cs = true) :
    ∀ e ∈ gListing cs "", e.type = some "blob" → ∀ e' ∈ gListing cs "",
    e'.type = some "blob" → ∀ S, entrySegs A e = some S → entrySegs A e' = some S →
    (⟨e.size.getD 0, e.sha.getD ""⟩ : FileInfo) =
      ⟨e'.size.getD 0, e'.sha.getD ""⟩ := by
  intro e hm hb e' hm' hb' S hS hS'
  rcases gListing_entry cs A e hwf hm with ⟨raw, hne, hsegs, hch, -, hbl⟩
  rcases gListing_entry cs A e' hwf hm' with ⟨raw', hne', hsegs', hch', -, hbl'⟩
  rw [hsegs] at hS
  injection hS with h1
  rw [hsegs', ← h1] at hS'
  injection hS' with h2
  have hrr : raw'.map escSeg = raw.map escSeg :=
    (List.append_right_inj (A.map escSeg)).mp h2
  have hv := hbl' hb'
  rw [hrr] at hv
  have := (hbl hb).symm.trans hv
  injection this

/-- Every entry of a root fixture listing is a `tree` or a `blob` (the `hty`
hypothesis of `fold_sem`). -/
theorem gListing_hty (cs : List GEntry) (hwf : gwfB cs = true) :
    ∀ e ∈ gListing cs "", e.type = some "tree" ∨ e.type = some "blob" := by
  intro e hm
  rcases gListing_char cs "" e hwf hm with ⟨p, raw, hp, hsp, hne, hch, hty, hbl⟩
  exact hty

/-- Initial runs of a single segment. -/
theorem initOf_singleton (s : String) (q : List String) :
    InitOf q [s] ↔ q = [] ∨ q = [s] := by
  constructor
  · rintro ⟨r, hr⟩
    cases q with
    | nil => exact Or.inl rfl
    | cons a q' =>
      rw [List.cons_append] at hr
      injection hr with h1 h2
      subst h1
      rcases List.append_eq_nil.mp h2.symm with ⟨h3, -⟩
      subst h3
      exact Or.inr rfl
  · rintro (rfl | rfl)
    · exact ⟨[s], rfl⟩
    · exact ⟨[], rfl⟩

/-- Strict extensions of a single segment. -/
theorem extendsBy_singleton (s : String) (q : List String) :
    ExtendsBy [s] q ↔ ∃ rest, rest ≠ [] ∧ q = s :: rest := by
  constructor
  · rintro ⟨r, hq, hr⟩
    exact ⟨r, hr, by rw [hq]; rfl⟩
  · rintro ⟨rest, hne, rfl⟩
    exact ⟨rest, rfl, hne⟩

/-- The entries of the non-recursive root listing, by fixture child shape. -/
theorem gOneListing_char (cs : List GEntry) (e : GhEntry) :
    e ∈ gOneListing cs ↔
      (∃ nm sha sz, (.gfile nm sha sz) ∈ cs ∧
        e = ⟨some nm, some "blob", some sha, some sz⟩) ∨
      (∃ nm sha sub, (.gdir nm sha sub) ∈ cs ∧
        e = ⟨some nm, some "tree", some sha, none⟩) := by
  rw [gOneListing, List.mem_map]
  constructor
  · rintro ⟨x, hx, rfl⟩
    cases x with
    | gfile nm sha sz => exact Or.inl ⟨nm, sha, sz, hx, rfl⟩
    | gdir nm sha sub => exact Or.inr ⟨nm, sha, sub, hx, rfl⟩
  · rintro (⟨nm, sha, sz, hx, rfl⟩ | ⟨nm, sha, sub, hx, rfl⟩)
    · exact ⟨.gfile nm sha sz, hx, rfl⟩
    · exact ⟨.gdir nm sha sub, hx, rfl⟩

/-- The escaped segments of a one-listing entry for a child of name `nm`. -/
theorem entrySegs_one (nm : String) (ty sha : Option String) (sz : Option Nat)
    (h1 : nm ≠ "") (h2 : noSlashB nm = true) :
    entrySegs [] (⟨some nm, ty, sha, sz⟩ : GhEntry) = some [escSeg nm] := by
  simp [entrySegs, h1, strSplitSlash_noSlash nm h2]

/-- Escaped names identify fixture children at a well-formed level. -/
theorem esc_name_inj (cs : List GEntry) (hwf : gwfB cs = true) (x y : GEntry)
    (hx : x ∈ cs) (hy : y ∈ cs) (h : escSeg x.nameOf = escSeg y.nameOf) : x = y := by
  rw [gwfB, Bool.and_eq_true] at hwf
  have hnd : (cs.map fun z => escSeg z.nameOf).Nodup := by
    have := (distinctKeysB_iff _).mp hwf.1
    rw [List.map_map] at this
    exact this
  exact List.inj_on_of_nodup_map hnd hx hy h

/-- Keys created by folding the non-recursive root listing. -/
theorem inKeysL_one (cs : List GEntry) (q : List String) (hwf : gwfB cs = true) :
    inKeysL [] (gOneListing cs) q ↔
      ∃ x, x ∈ cs ∧ InitOf q [escSeg x.nameOf] := by
  constructor
  · rintro ⟨e, hm, S, hS, hin⟩
    rcases (gOneListing_char cs e).mp hm with
      ⟨nm, sha, sz, hx, rfl⟩ | ⟨nm, sha, sub, hx, rfl⟩
    · rcases gwfE_file nm sha sz (gwfL_mem cs _ (gwfB_gwfL cs hwf) hx) with ⟨h1, h2⟩
      rw [entrySegs_one nm _ _ _ h1 h2] at hS
      injection hS with hS'
      subst hS'
      exact ⟨.gfile nm sha sz, hx, hin⟩
    · rcases gwfE_dir nm sha sub (gwfL_mem cs _ (gwfB_gwfL cs hwf) hx) with ⟨h1, h2, -⟩
      rw [entrySegs_one nm _ _ _ h1 h2] at hS
      injection hS with hS'
      subst hS'
      exact ⟨.gdir nm sha sub, hx, hin⟩
  · rintro ⟨x, hx, hin⟩
    cases x with
    | gfile nm sha sz =>
      rcases gwfE_file nm sha sz (gwfL_mem cs _ (gwfB_gwfL cs hwf) hx) with ⟨h1, h2⟩
      exact ⟨⟨some nm, some "blob", some sha, some sz⟩,
        (gOneListing_char cs _).mpr (Or.inl ⟨nm, sha, sz, hx, rfl⟩),
        [escSeg nm], entrySegs_one nm _ _ _ h1 h2, hin⟩
    | gdir nm sha sub =>
      rcases gwfE_dir nm sha sub (gwfL_mem cs _ (gwfB_gwfL cs hwf) hx) with ⟨h1, h2, -⟩
      exact ⟨⟨some nm, some "tree", some sha, none⟩,
        (gOneListing_char cs _).mpr (Or.inr ⟨nm, sha, sub, hx, rfl⟩),
        [escSeg nm], entrySegs_one nm _ _ _ h1 h2, hin⟩

/-- The first blob match of the non-recursive root listing. -/
theorem blobAtL_one (cs : List GEntry) (q : List String) (i : FileInfo)
    (hwf : gwfB cs = true) :
    blobAtL [] (gOneListing cs) q = some i ↔
      ∃ nm fsha sz, (.gfile nm fsha sz) ∈ cs ∧ q = [escSeg nm] ∧
        i = (⟨sz, fsha⟩ : FileInfo) := by
  constructor
  · intro h
    rcases blobAtL_some_elim [] (gOneListing cs) q i h with ⟨e, hm, hb, hS, hinfo⟩
    rcases (gOneListing_char cs e).mp hm with
      ⟨nm, sha, sz, hx, rfl⟩ | ⟨nm, sha, sub, hx, rfl⟩
    · rcases gwfE_file nm sha sz (gwfL_mem cs _ (gwfB_gwfL cs hwf) hx) with ⟨h1, h2⟩
      rw [entrySegs_one nm _ _ _ h1 h2] at hS
      injection hS with hS'
      exact ⟨nm, sha, sz, hx, hS'.symm, hinfo⟩
    · simp at hb
  · rintro ⟨nm, fsha, sz, hx, rfl, rfl⟩
    rcases gwfE_file nm fsha sz (gwfL_mem cs _ (gwfB_gwfL cs hwf) hx) with ⟨h1, h2⟩
    apply blobAtL_eq_some [] (gOneListing cs) _ _
      ⟨⟨some nm, some "blob", some fsha, some sz⟩,
        (gOneListing_char cs _).mpr (Or.inl ⟨nm, fsha, sz, hx, rfl⟩), rfl,
        entrySegs_one nm _ _ _ h1 h2⟩
    intro e' hm' hb' hS'
    rcases (gOneListing_char cs e').mp hm' with
      ⟨nm', sha', sz', hx', rfl⟩ | ⟨nm', sha', sub', hx', rfl⟩
    · rcases gwfE_file nm' sha' sz' (gwfL_mem cs _ (gwfB_gwfL cs hwf) hx') with ⟨h1', h2'⟩
      rw [entrySegs_one nm' _ _ _ h1' h2'] at hS'
      injection hS' with hS''
      have : escSeg nm' = escSeg nm := by
        injection hS''
      have hxy := esc_name_inj cs hwf _ _ hx' hx this
      injection hxy with e1 e2 e3
      subst e1
      subst e2
      subst e3
      rfl
    · simp at hb'

/-- Being strictly below a blob of the non-recursive root listing. -/
theorem underBlobL_one (cs : List GEntry) (q : List String) (hwf : gwfB cs = true) :
    underBlobL [] (gOneListing cs) q ↔
      ∃ nm fsha sz, (.gfile nm fsha sz) ∈ cs ∧ ExtendsBy [escSeg nm] q := by
  constructor
  · rintro ⟨e, hm, hb, S, hS, hext⟩
    rcases (gOneListing_char cs e).mp hm with
      ⟨nm, sha, sz, hx, rfl⟩ | ⟨nm, sha, sub, hx, rfl⟩
    · rcases gwfE_file nm sha sz (gwfL_mem cs _ (gwfB_gwfL cs hwf) hx) with ⟨h1, h2⟩
      rw [entrySegs_one nm _ _ _ h1 h2] at hS
      injection hS with hS'
      subst hS'
      exact ⟨nm, sha, sz, hx, hext⟩
    · simp at hb
  · rintro ⟨nm, fsha, sz, hx, hext⟩
    rcases gwfE_file nm fsha sz (gwfL_mem cs _ (gwfB_gwfL cs hwf) hx) with ⟨h1, h2⟩
    exact ⟨⟨some nm, some "blob", some fsha, some sz⟩,
      (gOneListing_char cs _).mpr (Or.inl ⟨nm, fsha, sz, hx, rfl⟩), rfl,
      [escSeg nm], entrySegs_one nm _ _ _ h1 h2, hext⟩

/-- `hb1` for the non-recursive root listing: all its paths are single
segments, so none strictly extends another. -/
theorem one_hb1 (cs : List GEntry) (hwf : gwfB cs = true) :
    ∀ e ∈ gOneListing cs, e.type = some "blob" → ∀ e' ∈ gOneListing cs,
    ∀ S S', entrySegs [] e = some S → entrySegs [] e' = some S' →
    ¬ ExtendsBy S S' := by
  intro e hm hb e' hm' S S' hS hS' hext
  have hlen : ∀ (f : GhEntry), f ∈ gOneListing cs → ∀ T, entrySegs [] f = some T →
      T.length = 1 := by
    intro f hmf T hT
    rcases (gOneListing_char cs f).mp hmf with
      ⟨nm, sha, sz, hx, rfl⟩ | ⟨nm, sha, sub, hx, rfl⟩
    · rcases gwfE_file nm sha sz (gwfL_mem cs _ (gwfB_gwfL cs hwf) hx) with ⟨h1, h2⟩
      rw [entrySegs_one nm _ _ _ h1 h2] at hT
      injection hT with hT'
      rw [← hT']
      rfl
    · rcases gwfE_dir nm sha sub (gwfL_mem cs _ (gwfB_gwfL cs hwf) hx) with ⟨h1, h2, -⟩
      rw [entrySegs_one nm _ _ _ h1 h2] at hT
      injection hT with hT'
      rw [← hT']
      rfl
  have := extendsBy_length S S' hext
  rw [hlen e hm S hS, hlen e' hm' S' hS'] at this
  exact absurd this (by simp)

/-- `hb4` for the non-recursive root listing. -/
theorem one_hb4 (cs : List GEntry) (hwf : gwfB cs = true) :
    ∀ e ∈ gOneListing cs, e.type = some "blob" → ∀ e' ∈ gOneListing cs,
    e'.type = some "blob" → ∀ S, entrySegs [] e = some S → entrySegs [] e' = some S →
    (⟨e.size.getD 0, e.sha.getD ""⟩ : FileInfo) =
      ⟨e'.size.getD 0, e'.sha.getD ""⟩ := by
  intro e hm hb e' hm' hb' S hS hS'
  rcases (gOneListing_char cs e).mp hm with
    ⟨nm, sha, sz, hx, rfl⟩ | ⟨nm, sha, sub, hx, rfl⟩
  · rcases (gOneListing_char cs e').mp hm' with
      ⟨nm', sha', sz', hx', rfl⟩ | ⟨nm', sha', sub', hx', rfl⟩
    · rcases gwfE_file nm sha sz (gwfL_mem cs _ (gwfB_gwfL cs hwf) hx) with ⟨h1, h2⟩
      rcases gwfE_file nm' sha' sz' (gwfL_mem cs _ (gwfB_gwfL cs hwf) hx') with ⟨h1', h2'⟩
      rw [entrySegs_one nm _ _ _ h1 h2] at hS
      rw [entrySegs_one nm' _ _ _ h1' h2'] at hS'
      injection hS with hS1
      injection hS' with hS2
      have : escSeg nm = escSeg nm' := by
        rw [← hS2] at hS1
        injection hS1
      have hxy := esc_name_inj cs hwf _ _ hx hx' this
      injection hxy with e1 e2 e3
      subst e1
      subst e2
      subst e3
      rfl
    · simp at hb'
  · simp at hb

/-- `hty` for the non-recursive root listing. -/
theorem one_hty (cs : List GEntry) :
    ∀ e ∈ gOneListing cs, e.type = some "tree" ∨ e.type = some "blob" := by
  intro e hm
  rcases (gOneListing_char cs e).mp hm with
    ⟨nm, sha, sz, hx, rfl⟩ | ⟨nm, sha, sub, hx, rfl⟩
  · exact Or.inr rfl
  · exact Or.inl rfl

/-- No file lookup succeeds on the empty path through one child. -/
theorem blobFE_nil : ∀ (x : GEntry), blobFE x [] = none
  | .gfile _ _ _ => rfl
  | .gdir _ _ _ => rfl

/-- No file lookup succeeds on the empty path. -/
theorem blobF_nil : ∀ (cs : List GEntry), blobF cs [] = none
  | [] => rfl
  | x :: cs => by rw [blobF, blobFE_nil x, blobF_nil cs]

/-- Chains are nonempty. -/
theorem chainF_ne_nil (cs : List GEntry) (r : List String) (h : chainF cs r = true) :
    r ≠ [] := by
  rcases chainF_head cs r h with ⟨nm0, -, hh⟩
  intro hc
  subst hc
  cases hh

/-- A nonempty level has a chain. -/
theorem chainF_exists_of_ne : ∀ (sub : List GEntry), sub ≠ [] →
    ∃ r, chainF sub r = true
  | [], h => absurd rfl h
  | .gfile nm sha sz :: cs, _ =>
    ⟨[escSeg nm], by rw [chainF, chainFE]; simp⟩
  | .gdir nm sha sub :: cs, _ =>
    ⟨[escSeg nm], by rw [chainF, chainFE]; simp⟩

/-- Unpacking the Boolean sub-listing check. -/
theorem subListB_mem (esT full : List GhEntry) (h : subListB esT full = true)
    (e : GhEntry) (hm : e ∈ esT) : e ∈ full := by
  rw [subListB] at h
  exact of_decide_eq_true (List.all_eq_true.mp h e hm)

/-- Unpacking the Boolean closedness check. -/
theorem closedForB_mem (cs : List GEntry) (esT : List GhEntry) (nm dsha : String)
    (sub : List GEntry) (h : closedForB cs esT = true) (hm : (.gdir nm dsha sub) ∈ cs)
    (hsome : ∃ t, t ∈ esT ∧ entryHead t = some nm) :
    ∀ g ∈ gListing cs "", entryHead g = some nm → g ∈ esT := by
  intro g hg hhead
  rw [closedForB] at h
  have := List.all_eq_true.mp h _ hm
  rw [Bool.or_eq_true] at this
  rcases this with hnone | hall
  · rcases hsome with ⟨t, ht, hth⟩
    rw [Bool.not_eq_true', List.any_eq_false] at hnone
    have := hnone t ht
    exact absurd (decide_eq_true hth) this
  · have := List.all_eq_true.mp hall g hg
    rw [Bool.or_eq_true] at this
    rcases this with h1 | h1
    · rw [decide_eq_true_iff] at h1
      exact absurd hhead h1
    · exact of_decide_eq_true h1

/-- A top-level directory's id is among the top-level ids. -/
theorem topDirShas_mem : ∀ (cs : List GEntry) (nm dsha : String) (sub : List GEntry),
    (.gdir nm dsha sub) ∈ cs → dsha ∈ topDirShas cs
  | [], _, _, _, hm => by cases hm
  | .gfile nm' sha' sz' :: cs, nm, dsha, sub, hm => by
    rcases List.mem_cons.mp hm with heq | hm'
    · cases heq
    · exact topDirShas_mem cs nm dsha sub hm'
  | .gdir nm' dsha' sub' :: cs, nm, dsha, sub, hm => by
    rw [topDirShas]
    rcases List.mem_cons.mp hm with heq | hm'
    · injection heq with h1 h2 h3
      subst h2
      exact List.mem_cons_self _ _
    · exact List.mem_cons_of_mem _ (topDirShas_mem cs nm dsha sub hm')

/-- With distinct top-level directory ids, the API dispatch finds the right
subtree. -/
theorem topDirSub_of_mem : ∀ (cs : List GEntry) (nm dsha : String) (sub : List GEntry),
    distinctKeysB (topDirShas cs) = true → (.gdir nm dsha sub) ∈ cs →
    topDirSub cs dsha = some (nm, sub)
  | [], _, _, _, _, hm => by cases hm
  | .gfile nm' sha' sz' :: cs, nm, dsha, sub, hd, hm => by
    rcases List.mem_cons.mp hm with heq | hm'
    · cases heq
    · rw [topDirSub]
      exact topDirSub_of_mem cs nm dsha sub hd hm'
  | .gdir nm' dsha' sub' :: cs, nm, dsha, sub, hd, hm => by
    rw [topDirShas, distinctKeysB_cons] at hd
    rw [topDirSub]
    rcases List.mem_cons.mp hm with heq | hm'
    · injection heq with h1 h2 h3
      subst h1
      subst h2
      subst h3
      rw [if_pos rfl]
    · by_cases hs : dsha' = dsha
      · subst hs
        have := topDirShas_mem cs nm dsha' sub hm'
        rw [(membS_iff _ _).mpr this] at hd
        exact absurd hd.1 (by simp)
      · rw [if_neg hs]
        exact topDirSub_of_mem cs nm dsha sub hd.2 hm'

/-- Every entry contributed by one fixture child is headed by that child's
raw name. -/
theorem gListingE_head : ∀ (x : GEntry) (pfx : String) (e : GhEntry), gwfE x = true →
    e ∈ gListingE x pfx →
    ∃ p raw, e.path = some p ∧ strSplitSlash p = splitsTo pfx ++ raw ∧
      raw.head? = some x.nameOf
  | .gfile nm sha sz, pfx, e, hwf, hm => by
    rcases gwfE_file nm sha sz hwf with ⟨h1, h2⟩
    rw [gListingE, List.mem_singleton] at hm
    subst hm
    exact ⟨pathJoin pfx nm, [nm], rfl,
      by rw [splitsTo_join, strSplitSlash_noSlash nm h2], rfl⟩
  | .gdir nm dsha sub, pfx, e, hwf, hm => by
    rcases gwfE_dir nm dsha sub hwf with ⟨h1, h2, h3⟩
    rw [gListingE] at hm
    rcases List.mem_cons.mp hm with heq | hm'
    · subst heq
      exact ⟨pathJoin pfx nm, [nm], rfl,
        by rw [splitsTo_join, strSplitSlash_noSlash nm h2], rfl⟩
    · rcases gListing_char sub (pathJoin pfx nm) e h3 hm' with
        ⟨p, raw', hp, hsp, hne, -, -, -⟩
      refine ⟨p, nm :: raw', hp, ?_, rfl⟩
      rw [hsp, splitsTo_join_seg pfx nm h1 h2, List.append_assoc]
      rfl

/-- Every listing entry is headed by the raw name of a top-level child. -/
theorem gListing_head : ∀ (cs : List GEntry) (pfx : String) (e : GhEntry),
    gwfB cs = true → e ∈ gListing cs pfx →
    ∃ p raw nm0, e.path = some p ∧ strSplitSlash p = splitsTo pfx ++ raw ∧
      raw.head? = some nm0 ∧ nm0 ∈ cs.map GEntry.nameOf
  | [], _, _, _, hm => by rw [gListing] at hm; cases hm
  | x :: cs, pfx, e, hwf, hm => by
    rcases gwfB_cons x cs hwf with ⟨hwx, hwcs, hnin⟩
    rw [gListing] at hm
    rcases List.mem_append.mp hm with hm' | hm'
    · rcases gListingE_head x pfx e hwx hm' with ⟨p, raw, hp, hsp, hh⟩
      exact ⟨p, raw, x.nameOf, hp, hsp, hh, by simp⟩
    · rcases gListing_head cs pfx e hwcs hm' with ⟨p, raw, nm0, hp, hsp, hh, hmem⟩
      exact ⟨p, raw, nm0, hp, hsp, hh, List.mem_cons_of_mem _ hmem⟩

/-- Names at a well-formed level are identified by their escapes. -/
theorem esc_rawname_inj (cs : List GEntry) (hwf : gwfB cs = true) (nm0 nm1 : String)
    (h0 : nm0 ∈ cs.map GEntry.nameOf) (h1 : nm1 ∈ cs.map GEntry.nameOf)
    (h : escSeg nm0 = escSeg nm1) : nm0 = nm1 := by
  rcases List.mem_map.mp h0 with ⟨x, hx, hxn⟩
  rcases List.mem_map.mp h1 with ⟨y, hy, hyn⟩
  subst hxn
  subst hyn
  rw [esc_name_inj cs hwf x y hx hy h]

/-- A listing entry whose escaped segments start at `escSeg nm`, `nm` a
top-level name, has raw head `nm`. -/
theorem entryHead_of_segs (cs : List GEntry) (e : GhEntry) (nm : String) (r : List String)
    (hwf : gwfB cs = true) (hm : e ∈ gListing cs "")
    (hsegs : entrySegs [] e = some (escSeg nm :: r)) (hnm : nm ∈ cs.map GEntry.nameOf) :
    entryHead e = some nm := by
  rcases gListing_head cs "" e hwf hm with ⟨p, raw, nm0, hp, hsp, hh, hnm0⟩
  have hsp' : strSplitSlash p = raw := by rw [hsp]; simp [splitsTo]
  have hnm0ne : nm0 ≠ "" := by
    rcases List.mem_map.mp hnm0 with ⟨x, hx, hxn⟩
    exact hxn ▸ gwfE_name_ne x (gwfL_mem cs x (gwfB_gwfL cs hwf) hx)
  have hpne : p ≠ "" := by
    intro hc
    subst hc
    have hr : raw = [""] := by rw [← hsp']; rfl
    rw [hr] at hh
    injection hh with hh'
    exact hnm0ne hh'.symm
  have hsegs' : entrySegs [] e = some (raw.map escSeg) := by
    simp [entrySegs, hp, hpne, hsp']
  rw [hsegs'] at hsegs
  injection hsegs with hS
  have hhead0 : (raw.map escSeg).head? = some (escSeg nm0) := by
    cases raw with
    | nil => cases hh
    | cons a raw' =>
      injection hh with hh'
      subst hh'
      rfl
  rw [hS] at hhead0
  have h3 : escSeg nm = escSeg nm0 := by
    have h4 : some (escSeg nm) = some (escSeg nm0) := hhead0
    injection h4
  have h5 : nm0 = nm := esc_rawname_inj cs hwf nm0 nm hnm0 hnm h3.symm
  simp [entryHead, hp, hsp', hh, h5]

/-- The truncated root listing, folded into the empty tree, satisfies the
step-2 invariant: it only builds genuine fixture nodes, all file fields it
writes are the fixture's, and any top-level directory key it creates is a
fully expanded subtree (by subtree-closedness). -/
theorem InvP_T0 (cs : List GEntry) (esT : List GhEntry)
    (hwf : gwfB cs = true) (hsub : subListB esT (gListing cs "") = true)
    (hclosed : closedForB cs esT = true) :
    InvP cs (GitHubStream.tree2Tree esT Tree.empty "") := by
  have hmem : ∀ e ∈ esT, e ∈ gListing cs "" := subListB_mem esT _ hsub
  have FS := fold_sem "" [] (fun p _ => by rw [pathJoin_empty]; rfl) esT
    (fun e hm hb e' hm' S S' hS hS' =>
      gListing_hb1 cs [] hwf e (hmem e hm) hb e' (hmem e' hm') S S' hS hS')
    (fun e hm hb e' hm' hb' S hS hS' =>
      gListing_hb4 cs [] hwf e (hmem e hm) hb e' (hmem e' hm') hb' S hS hS')
    (fun e hm => gListing_hty cs hwf e (hmem e hm))
    Tree.empty
  obtain ⟨FK, FE1, FE2, FE3⟩ := FS
  have hnmofdir : ∀ (nm dsha : String) (sub : List GEntry), (.gdir nm dsha sub) ∈ cs →
      nm ∈ cs.map GEntry.nameOf :=
    fun nm dsha sub h => List.mem_map_of_mem GEntry.nameOf h
  refine ⟨?_, ?_, ?_⟩
  · -- KaP
    intro q hq hKey
    rcases (FK q).mp hKey with hIn | ⟨hEmp, -⟩
    · obtain ⟨e, hm, S, hS, hin⟩ := hIn
      rcases gListing_entry cs [] e hwf (hmem e hm) with ⟨raw, hne, hsegs, hch, -, -⟩
      rw [hsegs] at hS
      injection hS with hS'
      subst hS'
      exact chainF_initRun cs (raw.map escSeg) q hch hin hq
    · cases q with
      | nil => exact absurd rfl hq
      | cons s q' => exact absurd hEmp (keyAt_empty s q')
  · -- EbP
    intro q i hE
    cases hB : blobAtL [] esT q with
    | some j =>
      have hEj := FE1 q j hB
      rw [hEj] at hE
      injection hE with hij
      rcases blobAtL_some_elim [] esT q j hB with ⟨e, hm, hb, hS, hinfo⟩
      rcases gListing_entry cs [] e hwf (hmem e hm) with ⟨raw, hne, hsegs, -, -, hbl⟩
      rw [hsegs] at hS
      injection hS with hS'
      have hq : q = raw.map escSeg := by rw [← hS']; rfl
      subst hq
      rw [hbl hb, ← hinfo, hij]
    | none =>
      by_cases hU : underBlobL [] esT q
      · rw [FE2 q hB hU] at hE
        cases hE
      · rw [FE3 q hB hU, entryAt_empty q] at hE
        cases hE
  · -- CskP
    intro nm dsha sub hdm hKey
    rcases (FK [escSeg nm]).mp hKey with hIn | ⟨hEmp, -⟩
    · obtain ⟨e, hm, S, hS, hin⟩ := hIn
      obtain ⟨rr, hrr⟩ := hin
      have hSform : entrySegs [] e = some (escSeg nm :: rr) := by
        rw [hS, hrr]
        rfl
      have hEh : entryHead e = some nm :=
        entryHead_of_segs cs e nm rr hwf (hmem e hm) hSform (hnmofdir nm dsha sub hdm)
      have hclosedAll := closedForB_mem cs esT nm dsha sub hclosed hdm ⟨e, hm, hEh⟩
      constructor
      · intro rest hch
        have hchcs : chainF cs (escSeg nm :: rest) = true := by
          rw [chainF_dir_iff cs nm dsha sub rest hwf hdm]
          exact Or.inr hch
        rcases chain_to_entrySegs cs [] (escSeg nm :: rest) hwf hchcs with ⟨e', hm', hsegs'⟩
        have hm'T : e' ∈ esT :=
          hclosedAll e' hm'
            (entryHead_of_segs cs e' nm rest hwf hm' hsegs' (hnmofdir nm dsha sub hdm))
        apply (FK (escSeg nm :: rest)).mpr
        exact Or.inl ⟨e', hm'T, _, hsegs', initOf_refl _⟩
      · intro rest i hbl
        have hrne : rest ≠ [] := by
          intro hc
          subst hc
          rw [blobF_nil sub] at hbl
          cases hbl
        have hblcs : blobF cs (escSeg nm :: rest) = some i := by
          rw [blobF_dir cs nm dsha sub rest hwf hdm, if_neg hrne]
          exact hbl
        rcases blob_to_entrySegs cs [] (escSeg nm :: rest) i hwf hblcs with
          ⟨e', hm', hb', hsegs', hinfo'⟩
        have hm'T : e' ∈ esT :=
          hclosedAll e' hm'
            (entryHead_of_segs cs e' nm rest hwf hm' hsegs' (hnmofdir nm dsha sub hdm))
        apply FE1
        apply blobAtL_eq_some [] esT _ i ⟨e', hm'T, hb', hsegs'⟩
        intro e'' hm'' hb'' hsegs''
        rcases gListing_entry cs [] e'' hwf (hmem e'' hm'') with
          ⟨raw'', hne'', hsegs2, -, -, hbl''⟩
        rw [hsegs2] at hsegs''
        injection hsegs'' with hS2
        have hq2 : raw''.map escSeg = (escSeg nm :: rest) :=
          (List.append_right_inj (List.map escSeg [])).mp hS2
        have := hbl'' hb''
        rw [hq2, hblcs] at this
        injection this with this'
        rw [← this']
    · exact absurd hEmp (keyAt_empty _ _)

/-- A non-truncated recursive listing is folded in and returned at once. -/
theorem ghFetch_false_notrunc (api : GitHubStream.RemoteApi) (n : Nat) (sha : String)
    (t : Tree) (pp : String) (L : List GhEntry) (h : api.recTree sha = ⟨L, false⟩) :
    GitHubStream.ghFetch api (n + 1) false sha t pp =
      (GitHubStream.tree2Tree L t pp, [sha]) := by
  simp [GitHubStream.ghFetch, h]

/-- A truncated recursive listing is folded in and handed to step 2. -/
theorem ghFetch_false_trunc (api : GitHubStream.RemoteApi) (n : Nat) (sha : String)
    (t : Tree) (pp : String) (L : List GhEntry) (h : api.recTree sha = ⟨L, true⟩) :
    GitHubStream.ghFetch api (n + 1) false sha t pp =
      ((GitHubStream.ghFetch api n true sha (GitHubStream.tree2Tree L t pp) pp).1,
       sha :: (GitHubStream.ghFetch api n true sha (GitHubStream.tree2Tree L t pp) pp).2) := by
  simp [GitHubStream.ghFetch, h]

/-- The step-2 loop of one truncation-resolution round: starting from any
accumulator satisfying the invariant, the loop preserves it, never loses a
node path, and leaves every directory of the processed suffix either empty or
present as a key (skipped directories were complete by the invariant;
re-fetched ones become complete by the re-fold). -/
theorem step2_fold (cs : List GEntry) (esT : List GhEntry) (rootSha : String)
    (hwf : gwfB cs = true) (hshas : distinctKeysB (topDirShas cs) = true)
    (hroot : ¬ (rootSha ∈ topDirShas cs)) (fuel : Nat) :
    ∀ (todo : List GEntry) (acc : Tree × List String),
    (∀ x ∈ todo, x ∈ cs) → InvP cs acc.1 →
    InvP cs ((gOneListing todo).foldl
      (GitHubStream.step2F (oneRoundApi cs esT rootSha) (fuel + 1) "") acc).1 ∧
    (∀ q, acc.1.keyAt q → ((gOneListing todo).foldl
      (GitHubStream.step2F (oneRoundApi cs esT rootSha) (fuel + 1) "") acc).1.keyAt q) ∧
    (∀ nm dsha sub, (.gdir nm dsha sub) ∈ todo → sub = [] ∨
      ((gOneListing todo).foldl
        (GitHubStream.step2F (oneRoundApi cs esT rootSha) (fuel + 1) "") acc).1.keyAt
        [escSeg nm])
  | [], acc, _, hInv =>
    ⟨hInv, fun _ h => h, fun _ _ _ hm => absurd hm (List.not_mem_nil _)⟩
  | .gfile nm fsha fsz :: todo', acc, hmem, hInv => by
    have hx : (.gfile nm fsha fsz : GEntry) ∈ cs := hmem _ (List.mem_cons_self _ _)
    rcases gwfE_file nm fsha fsz (gwfL_mem cs _ (gwfB_gwfL cs hwf) hx) with ⟨hnmne, -⟩
    have hone : gOneListing (.gfile nm fsha fsz :: todo') =
        (⟨some nm, some "blob", some fsha, some fsz⟩ : GhEntry) :: gOneListing todo' := rfl
    rw [hone, List.foldl_cons,
      step2F_nonTree (oneRoundApi cs esT rootSha) (fuel + 1) "" acc _ nm rfl hnmne
        (by simp)]
    have IH := step2_fold cs esT rootSha hwf hshas hroot fuel todo' acc
      (fun x hx' => hmem x (List.mem_cons_of_mem _ hx')) hInv
    refine ⟨IH.1, IH.2.1, ?_⟩
    intro nm' dsha' sub' hm'
    rcases List.mem_cons.mp hm' with heq | hm''
    · cases heq
    · exact IH.2.2 nm' dsha' sub' hm''
  | .gdir nm dsha sub :: todo', acc, hmem, hInv => by
    obtain ⟨hKa, hEb, hCsk⟩ := hInv
    have hx : (.gdir nm dsha sub : GEntry) ∈ cs := hmem _ (List.mem_cons_self _ _)
    rcases gwfE_dir nm dsha sub (gwfL_mem cs _ (gwfB_gwfL cs hwf) hx) with
      ⟨hnmne, hnosl, hwsub⟩
    have hone : gOneListing (.gdir nm dsha sub :: todo') =
        (⟨some nm, some "tree", some dsha, none⟩ : GhEntry) :: gOneListing todo' := rfl
    have hsplit : strSplitSlash (pathJoin "" nm) = [nm] := by
      rw [pathJoin_empty, strSplitSlash_noSlash nm hnosl]
    rw [hone, List.foldl_cons]
    by_cases hw : GitHubStream.walkFound acc.1 [nm] = true
    · -- skipped: the raw walk found the key
      rw [step2F_found (oneRoundApi cs esT rootSha) (fuel + 1) "" acc _ nm rfl hnmne rfl
        (by rw [hsplit]; exact hw)]
      -- the raw key nm is an escaped name, and equals escSeg nm
      have hKey : acc.1.keyAt [nm] := (walkFound_iff_keyAt acc.1 [nm]).mp hw
      have hch := hKa [nm] (by simp) hKey
      rcases chainF_head cs [nm] hch with ⟨nm0, hnm0, hh0⟩
      have hnmesc : nm = escSeg nm0 := by
        injection hh0
      have hesc : escSeg nm = nm := by
        rw [hnmesc, escSeg_idem]
      have hKeyE : acc.1.keyAt [escSeg nm] := by
        rw [hesc]
        exact hKey
      have IH := step2_fold cs esT rootSha hwf hshas hroot fuel todo' acc
        (fun x hx' => hmem x (List.mem_cons_of_mem _ hx')) ⟨hKa, hEb, hCsk⟩
      refine ⟨IH.1, IH.2.1, ?_⟩
      intro nm' dsha' sub' hm'
      rcases List.mem_cons.mp hm' with heq | hm''
      · injection heq with e1 e2 e3
        subst e1
        exact Or.inr (IH.2.1 _ hKeyE)
      · exact IH.2.2 nm' dsha' sub' hm''
    · -- re-fetched: the raw walk missed, the subtree is re-folded in full
      have hne : dsha ≠ rootSha := fun hc => hroot (hc ▸ topDirShas_mem cs nm dsha sub hx)
      have hresp : (oneRoundApi cs esT rootSha).recTree dsha = ⟨gListing sub "", false⟩ := by
        simp [oneRoundApi, hne, topDirSub_of_mem cs nm dsha sub hshas hx]
      have hfetch : GitHubStream.ghFetch (oneRoundApi cs esT rootSha) (fuel + 1) false dsha
          acc.1 (pathJoin "" nm) =
          (GitHubStream.tree2Tree (gListing sub "") acc.1 nm, [dsha]) := by
        rw [pathJoin_empty]
        exact ghFetch_false_notrunc _ fuel dsha acc.1 nm _ hresp
      rw [step2F_fetch (oneRoundApi cs esT rootSha) (fuel + 1) "" acc _ nm dsha rfl hnmne
        rfl (by rw [hsplit]; exact hw) rfl, hfetch]
      have FS := fold_sem nm [nm]
        (fun p _ => by rw [splitsTo_join, splitsTo, if_neg hnmne,
          strSplitSlash_noSlash nm hnosl])
        (gListing sub "") (gListing_hb1 sub [nm] hwsub) (gListing_hb4 sub [nm] hwsub)
        (gListing_hty sub hwsub) acc.1
      obtain ⟨FK, FE1, FE2, FE3⟩ := FS
      have hU0 : ∀ q, acc.1.keyAt q → ¬ underBlobL [nm] (gListing sub "") q := by
        intro q hKq hU
        rcases (underBlobL_gListing sub [nm] q hwsub).mp hU with ⟨r, i, hbl, hext⟩
        obtain ⟨extra, hq, hexne⟩ := hext
        have hqform : q = escSeg nm :: (r ++ extra) := by
          rw [hq, List.append_assoc]
          rfl
        have hch := hKa q (by rw [hqform]; simp) hKq
        rw [hqform, chainF_dir_iff cs nm dsha sub _ hwf hx] at hch
        rcases hch with hch | hch
        · rcases List.append_eq_nil.mp hch with ⟨-, h2⟩
          exact hexne h2
        · exact hexne (blobF_no_ext sub r extra i hwsub hbl hch)
      have hMono1 : ∀ q, acc.1.keyAt q →
          (GitHubStream.tree2Tree (gListing sub "") acc.1 nm).keyAt q :=
        fun q hKq => (FK q).mpr (Or.inr ⟨hKq, hU0 q hKq⟩)
      have hKa' : KaP cs (GitHubStream.tree2Tree (gListing sub "") acc.1 nm) := by
        intro q hq hK'
        rcases (FK q).mp hK' with hIn | ⟨hKq, -⟩
        · rcases (inKeysL_gListing sub [nm] q hwsub).mp hIn with ⟨r, hch, hin⟩
          rcases initOf_append_split ([nm].map escSeg) q r hin with hin1 | ⟨r', hr'ne, hqe, hin2⟩
          · rcases (initOf_singleton (escSeg nm) q).mp hin1 with rfl | rfl
            · exact absurd rfl hq
            · rw [chainF_dir_iff cs nm dsha sub [] hwf hx]
              exact Or.inl rfl
          · have hch' := chainF_initRun sub r r' hch hin2 hr'ne
            have hqform : q = escSeg nm :: r' := by rw [hqe]; rfl
            rw [hqform, chainF_dir_iff cs nm dsha sub r' hwf hx]
            exact Or.inr hch'
        · exact hKa q hq hKq
      have hEb' : EbP cs (GitHubStream.tree2Tree (gListing sub "") acc.1 nm) := by
        intro q i hE'
        cases hB : blobAtL [nm] (gListing sub "") q with
        | some j =>
          have hEj := FE1 q j hB
          rw [hEj] at hE'
          injection hE' with hij
          rcases (blobAtL_gListing sub [nm] q j hwsub).mp hB with ⟨r, hq, hbl⟩
          have hrne : r ≠ [] := by
            intro hc
            subst hc
            rw [blobF_nil sub] at hbl
            cases hbl
          have hqform : q = escSeg nm :: r := by rw [hq]; rfl
          rw [hqform, blobF_dir cs nm dsha sub r hwf hx, if_neg hrne, hbl, hij]
        | none =>
          by_cases hU : underBlobL [nm] (gListing sub "") q
          · rw [FE2 q hB hU] at hE'
            cases hE'
          · rw [FE3 q hB hU] at hE'
            exact hEb q i hE'
      have hCsk' : CskP cs (GitHubStream.tree2Tree (gListing sub "") acc.1 nm) := by
        intro nm'' dsha'' sub'' hdm'' hK''
        by_cases hsame : escSeg nm'' = escSeg nm
        · have hxx := esc_name_inj cs hwf _ _ hdm'' hx hsame
          injection hxx with e1 e2 e3
          rw [e1, e3]
          constructor
          · intro rest hch
            apply (FK (escSeg nm :: rest)).mpr
            apply Or.inl
            apply (inKeysL_gListing sub [nm] _ hwsub).mpr
            exact ⟨rest, hch, initOf_refl _⟩
          · intro rest i hbl
            apply FE1
            apply (blobAtL_gListing sub [nm] _ i hwsub).mpr
            exact ⟨rest, rfl, hbl⟩
        · rcases (FK [escSeg nm'']).mp hK'' with hIn | ⟨hKq, -⟩
          · rcases (inKeysL_gListing sub [nm] _ hwsub).mp hIn with ⟨r, hch, hin⟩
            have : escSeg nm'' = escSeg nm := by
              rcases (initOf_cons_iff (escSeg nm'') (escSeg nm) [] r).mp hin with ⟨h1, -⟩
              exact h1
            exact absurd this hsame
          · obtain ⟨UK, UE⟩ := hCsk nm'' dsha'' sub'' hdm'' hKq
            constructor
            · exact fun rest hch => hMono1 _ (UK rest hch)
            · intro rest i hbl
              have hEacc := UE rest i hbl
              cases hB : blobAtL [nm] (gListing sub "") (escSeg nm'' :: rest) with
              | some j =>
                rcases (blobAtL_gListing sub [nm] _ j hwsub).mp hB with ⟨r, hq, -⟩
                have : escSeg nm'' = escSeg nm := by
                  injection hq
                exact absurd this hsame
              | none =>
                have hU : ¬ underBlobL [nm] (gListing sub "") (escSeg nm'' :: rest) := by
                  intro hU
                  rcases (underBlobL_gListing sub [nm] _ hwsub).mp hU with ⟨r, j, -, hext⟩
                  obtain ⟨extra, hq, -⟩ := hext
                  have hqf : escSeg nm'' :: rest = escSeg nm :: (r ++ extra) := by
                    rw [hq, List.append_assoc]
                    rfl
                  have : escSeg nm'' = escSeg nm := by
                    injection hqf
                  exact absurd this hsame
                rw [FE3 _ hB hU]
                exact hEacc
      have hSelf : sub ≠ [] →
          (GitHubStream.tree2Tree (gListing sub "") acc.1 nm).keyAt [escSeg nm] := by
        intro hsne
        rcases chainF_exists_of_ne sub hsne with ⟨r, hch⟩
        apply (FK [escSeg nm]).mpr
        apply Or.inl
        apply (inKeysL_gListing sub [nm] _ hwsub).mpr
        exact ⟨r, hch, ⟨r, rfl⟩⟩
      have IH := step2_fold cs esT rootSha hwf hshas hroot fuel todo'
        (GitHubStream.tree2Tree (gListing sub "") acc.1 nm, acc.2 ++ [dsha])
        (fun x hx' => hmem x (List.mem_cons_of_mem _ hx')) ⟨hKa', hEb', hCsk'⟩
      refine ⟨IH.1, ?_, ?_⟩
      · exact fun q hKq => IH.2.1 q (hMono1 q hKq)
      · intro nm' dsha' sub' hm'
        rcases List.mem_cons.mp hm' with heq | hm''
        · injection heq with e1 e2 e3
          subst e1
          subst e3
          by_cases hsne : sub' = []
          · exact Or.inl hsne
          · exact Or.inr (IH.2.1 _ (hSelf hsne))
        · exact IH.2.2 nm' dsha' sub' hm''

/-- A chain through a member child is a chain of the level. -/
theorem chainF_of_memE : ∀ (cs : List GEntry) (x : GEntry) (r : List String),
    x ∈ cs → chainFE x r = true → chainF cs r = true
  | [], _, _, hm, _ => by cases hm
  | y :: cs, x, r, hm, hch => by
    rw [chainF, Bool.or_eq_true]
    rcases List.mem_cons.mp hm with heq | hm'
    · subst heq
      exact Or.inl hch
    · exact Or.inr (chainF_of_memE cs x r hm' hch)

/-- Every child chains to itself. -/
theorem chainFE_self : ∀ (x : GEntry), chainFE x [escSeg x.nameOf] = true
  | .gfile nm _ _ => by simp [chainFE, GEntry.nameOf]
  | .gdir nm _ _ => by simp [chainFE, GEntry.nameOf]

/-- The reference tree `gFold`: its node paths are exactly the chains of the
fixture, and its file fields are exactly the fixture's files. -/
theorem gFold_obs (cs : List GEntry) (hwf : gwfB cs = true) :
    (∀ q, (gFold cs).keyAt q ↔ (q = [] ∨ chainF cs q = true)) ∧
    (∀ q, (gFold cs).entryAt q = blobF cs q) := by
  have FS := fold_sem "" [] (fun p _ => by rw [pathJoin_empty]; rfl) (gListing cs "")
    (gListing_hb1 cs [] hwf) (gListing_hb4 cs [] hwf) (gListing_hty cs hwf) Tree.empty
  obtain ⟨FK, FE1, FE2, FE3⟩ := FS
  have hBnone : ∀ q, blobF cs q = none → blobAtL [] (gListing cs "") q = none := by
    intro q hbf
    cases hB : blobAtL [] (gListing cs "") q with
    | none => rfl
    | some j =>
      rcases (blobAtL_gListing cs [] q j hwf).mp hB with ⟨r, hq, hbl⟩
      have : q = r := by rw [hq]; rfl
      rw [this, hbl] at hbf
      cases hbf
  constructor
  · intro q
    rw [show gFold cs = GitHubStream.tree2Tree (gListing cs "") Tree.empty "" from rfl,
      FK q]
    constructor
    · rintro (hIn | ⟨hEmp, -⟩)
      · rcases (inKeysL_gListing cs [] q hwf).mp hIn with ⟨r, hch, hin⟩
        cases hq : q with
        | nil => exact Or.inl rfl
        | cons s q' =>
          subst hq
          exact Or.inr (chainF_initRun cs r _ hch hin (by simp))
      · cases q with
        | nil => exact Or.inl rfl
        | cons s q' => exact absurd hEmp (keyAt_empty s q')
    · rintro (rfl | hch)
      · refine Or.inr ⟨trivial, fun hU => ?_⟩
        obtain ⟨e, -, -, S, -, hext⟩ := hU
        exact extendsBy_nil_right S hext
      · exact Or.inl ((inKeysL_gListing cs [] q hwf).mpr ⟨q, hch, initOf_refl q⟩)
  · intro q
    rw [show gFold cs = GitHubStream.tree2Tree (gListing cs "") Tree.empty "" from rfl]
    cases hbf : blobF cs q with
    | some i =>
      exact FE1 q i ((blobAtL_gListing cs [] q i hwf).mpr ⟨q, rfl, hbf⟩)
    | none =>
      by_cases hU : underBlobL [] (gListing cs "") q
      · exact FE2 q (hBnone q hbf) hU
      · rw [FE3 q (hBnone q hbf) hU, entryAt_empty q]

/-- The tree built by one truncation-resolution round (truncated root fold,
step-2 loop, final re-fold of the non-recursive root listing): its node paths
are exactly the chains of the fixture and its file fields are exactly the
fixture's files. -/
theorem round_obs (cs : List GEntry) (esT : List GhEntry) (rootSha : String) (fuel : Nat)
    (hwf : gwfB cs = true) (hshas : distinctKeysB (topDirShas cs) = true)
    (hroot : ¬ (rootSha ∈ topDirShas cs))
    (hsub : subListB esT (gListing cs "") = true)
    (hclosed : closedForB cs esT = true) :
    (∀ q, (GitHubStream.tree2Tree (gOneListing cs)
        ((gOneListing cs).foldl
          (GitHubStream.step2F (oneRoundApi cs esT rootSha) (fuel + 1) "")
          (GitHubStream.tree2Tree esT Tree.empty "", [])).1 "").keyAt q ↔
      (q = [] ∨ chainF cs q = true)) ∧
    (∀ q, (GitHubStream.tree2Tree (gOneListing cs)
        ((gOneListing cs).foldl
          (GitHubStream.step2F (oneRoundApi cs esT rootSha) (fuel + 1) "")
          (GitHubStream.tree2Tree esT Tree.empty "", [])).1 "").entryAt q = blobF cs q) := by
  have hT0 := InvP_T0 cs esT hwf hsub hclosed
  have hstep := step2_fold cs esT rootSha hwf hshas hroot fuel cs
    (GitHubStream.tree2Tree esT Tree.empty "", []) (fun x hx => hx) hT0
  set T2 := ((gOneListing cs).foldl
    (GitHubStream.step2F (oneRoundApi cs esT rootSha) (fuel + 1) "")
    (GitHubStream.tree2Tree esT Tree.empty "", [])).1 with hT2def
  obtain ⟨⟨Ka2, Eb2, Csk2⟩, hMono, hDone⟩ := hstep
  have FS := fold_sem "" [] (fun p _ => by rw [pathJoin_empty]; rfl) (gOneListing cs)
    (one_hb1 cs hwf) (one_hb4 cs hwf) (one_hty cs) T2
  obtain ⟨FK, FE1, FE2, FE3⟩ := FS
  have hDirKey : ∀ nm dsha sub rest, (.gdir nm dsha sub) ∈ cs → chainF sub rest = true →
      T2.keyAt (escSeg nm :: rest) := by
    intro nm dsha sub rest hdm hch
    have hsne : sub ≠ [] := by
      intro hc
      subst hc
      cases hch
    rcases hDone nm dsha sub hdm with hemp | hkey
    · exact absurd hemp hsne
    · exact (Csk2 nm dsha sub hdm hkey).1 rest hch
  have hDirEntry : ∀ nm dsha sub rest i, (.gdir nm dsha sub) ∈ cs →
      blobF sub rest = some i → T2.entryAt (escSeg nm :: rest) = some i := by
    intro nm dsha sub rest i hdm hbl
    have hsne : sub ≠ [] := by
      intro hc
      subst hc
      cases hbl
    rcases hDone nm dsha sub hdm with hemp | hkey
    · exact absurd hemp hsne
    · exact (Csk2 nm dsha sub hdm hkey).2 rest i hbl
  constructor
  · intro q
    rw [FK q]
    constructor
    · rintro (hIn | ⟨hK2, -⟩)
      · rcases (inKeysL_one cs q hwf).mp hIn with ⟨x, hx, hin⟩
        rcases (initOf_singleton _ q).mp hin with rfl | rfl
        · exact Or.inl rfl
        · exact Or.inr (chainF_of_memE cs x _ hx (chainFE_self x))
      · cases hq : q with
        | nil => exact Or.inl rfl
        | cons s rest =>
          subst hq
          exact Or.inr (Ka2 _ (by simp) hK2)
    · rintro (rfl | hch)
      · refine Or.inr ⟨trivial, fun hU => ?_⟩
        obtain ⟨e, -, -, S, -, hext⟩ := hU
        exact extendsBy_nil_right S hext
      · cases hq : q with
        | nil =>
          subst hq
          exact absurd rfl (chainF_ne_nil cs [] hch)
        | cons s rest =>
          subst hq
          rcases chainF_head cs _ hch with ⟨nm0, hnm0, hh0⟩
          have hs : s = escSeg nm0 := by injection hh0
          subst hs
          rcases List.mem_map.mp hnm0 with ⟨x, hx, hxn⟩
          cases x with
          | gfile nmf fsha fsz =>
            have hxn' : nmf = nm0 := hxn
            rw [← hxn'] at hch ⊢
            have hrest : rest = [] :=
              (chainF_file_iff cs nmf fsha fsz rest hwf hx).mp hch
            subst hrest
            exact Or.inl ((inKeysL_one cs _ hwf).mpr
              ⟨.gfile nmf fsha fsz, hx, ⟨[], rfl⟩⟩)
          | gdir nmd dsha sub =>
            have hxn' : nmd = nm0 := hxn
            rw [← hxn'] at hch ⊢
            rcases (chainF_dir_iff cs nmd dsha sub rest hwf hx).mp hch with hrest | hchsub
            · subst hrest
              exact Or.inl ((inKeysL_one cs _ hwf).mpr
                ⟨.gdir nmd dsha sub, hx, ⟨[], rfl⟩⟩)
            · refine Or.inr ⟨hDirKey nmd dsha sub rest hx hchsub, fun hU => ?_⟩
              rcases (underBlobL_one cs _ hwf).mp hU with ⟨nmf', fsha', fsz', hxf', hext⟩
              rcases (extendsBy_singleton _ _).mp hext with ⟨rest', hrne', hq'⟩
              have hff : escSeg nmd = escSeg nmf' := by
                injection hq'
              have := esc_name_inj cs hwf _ _ hxf' hx hff.symm
              cases this
  · intro q
    cases hB : blobAtL [] (gOneListing cs) q with
    | some j =>
      rw [FE1 q j hB]
      rcases (blobAtL_one cs q j hwf).mp hB with ⟨nmf, fsha, fsz, hxf, hq, hi⟩
      subst hq
      rw [show ([escSeg nmf] : List String) = escSeg nmf :: [] from rfl,
        blobF_file cs nmf fsha fsz [] hwf hxf, if_pos rfl, hi]
    | none =>
      by_cases hU : underBlobL [] (gOneListing cs) q
      · rw [FE2 q hB hU]
        rcases (underBlobL_one cs q hwf).mp hU with ⟨nmf, fsha, fsz, hxf, hext⟩
        rcases (extendsBy_singleton _ q).mp hext with ⟨rest, hrne, hq⟩
        subst hq
        rw [blobF_file cs nmf fsha fsz rest hwf hxf, if_neg hrne]
      · rw [FE3 q hB hU]
        cases hbf : blobF cs q with
        | some i =>
          cases hq : q with
          | nil =>
            subst hq
            rw [blobF_nil cs] at hbf
            cases hbf
          | cons s rest =>
            subst hq
            rcases blobF_head cs _ i hbf with ⟨nm0, hnm0, hh0⟩
            have hs : s = escSeg nm0 := by injection hh0
            subst hs
            rcases List.mem_map.mp hnm0 with ⟨x, hx, hxn⟩
            cases x with
            | gfile nmf fsha fsz =>
              have hxn' : nmf = nm0 := hxn
              rw [← hxn'] at hbf hB
              rw [blobF_file cs nmf fsha fsz rest hwf hx] at hbf
              by_cases hr : rest = []
              · subst hr
                rw [if_pos rfl] at hbf
                injection hbf with hbf'
                have hsome : blobAtL [] (gOneListing cs) (escSeg nmf :: []) = some i :=
                  (blobAtL_one cs _ i hwf).mpr ⟨nmf, fsha, fsz, hx, rfl, hbf'.symm⟩
                rw [hsome] at hB
                cases hB
              · rw [if_neg hr] at hbf
                cases hbf
            | gdir nmd dsha sub =>
              have hxn' : nmd = nm0 := hxn
              rw [← hxn'] at hbf ⊢
              rw [blobF_dir cs nmd dsha sub rest hwf hx] at hbf
              by_cases hr : rest = []
              · subst hr
                rw [if_pos rfl] at hbf
                cases hbf
              · rw [if_neg hr] at hbf
                exact hDirEntry nmd dsha sub rest i hx hbf
        | none =>
          cases hT2e : T2.entryAt q with
          | none => rfl
          | some i' =>
            have := Eb2 q i' hT2e
            rw [hbf] at this
            cases this

/-- C1: for every well-formed fixture repository (nonempty slash-free names,
distinct escaped sibling names, distinct top-level tree ids not clashing with
the root id) whose recursive root listing comes back truncated to any
subtree-closed selection of its entries — if the truncated listing mentions
anything under a top-level directory it contains that directory's complete
entry set — while the non-recursive root listing and the per-subtree
recursive listings are complete, the Tree returned by the synchronizer's
`getFiles`/`getTree` equals, as a JS object with key order disregarded, the
Tree obtained by folding a single non-truncated recursive listing of the same
fixture: truncation resolution loses nothing and invents nothing, whether a
subtree is found and skipped or re-fetched. -/
theorem getTree_truncation_round_eq_full_fold (cs : List GEntry) (esT : List GhEntry)
    (rootSha : String) (fuel : Nat)
    (hwf : gwfB cs = true)
    (hshas : distinctKeysB (topDirShas cs) = true)
    (hroot : ¬ (rootSha ∈ topDirShas cs))
    (hsub : subListB esT (gListing cs "") = true)
    (hclosed : closedForB cs esT = true) :
    ((oneRoundApi cs esT rootSha).recTree rootSha).truncated = true ∧
    Tree.eqv (GitHubStream.getFiles (oneRoundApi cs esT rootSha) (fuel + 3) rootSha).1
      (gFold cs) = true := by
  have hrootresp : (oneRoundApi cs esT rootSha).recTree rootSha = ⟨esT, true⟩ := by
    simp [oneRoundApi]
  refine ⟨by rw [hrootresp], ?_⟩
  have hrun : (GitHubStream.getFiles (oneRoundApi cs esT rootSha) (fuel + 3) rootSha).1 =
      GitHubStream.tree2Tree (gOneListing cs)
        ((gOneListing cs).foldl
          (GitHubStream.step2F (oneRoundApi cs esT rootSha) (fuel + 1) "")
          (GitHubStream.tree2Tree esT Tree.empty "", [])).1 "" := by
    show (GitHubStream.ghFetch (oneRoundApi cs esT rootSha) (fuel + 3) false rootSha
      Tree.empty "").1 = _
    rw [show fuel + 3 = (fuel + 2) + 1 from rfl,
      ghFetch_false_trunc _ (fuel + 2) rootSha Tree.empty "" esT hrootresp,
      show fuel + 2 = (fuel + 1) + 1 from rfl,
      ghFetch_true_eq (oneRoundApi cs esT rootSha) (fuel + 1) rootSha
        (GitHubStream.tree2Tree esT Tree.empty "") ""]
    rfl
  rw [hrun]
  have hdk1 : Tree.dkB (GitHubStream.tree2Tree (gOneListing cs)
      ((gOneListing cs).foldl
        (GitHubStream.step2F (oneRoundApi cs esT rootSha) (fuel + 1) "")
        (GitHubStream.tree2Tree esT Tree.empty "", [])).1 "") = true := by
    rw [← hrun]
    exact ghFetch_dk (oneRoundApi cs esT rootSha) (fuel + 3) false rootSha Tree.empty "" rfl
  have hdk2 : Tree.dkB (gFold cs) = true := tree2Tree_dk _ Tree.empty "" rfl
  obtain ⟨RK, RE⟩ := round_obs cs esT rootSha fuel hwf hshas hroot hsub hclosed
  obtain ⟨GK, GE⟩ := gFold_obs cs hwf
  have hnorm := norm_ext
    (Tree.sz (GitHubStream.tree2Tree (gOneListing cs)
      ((gOneListing cs).foldl
        (GitHubStream.step2F (oneRoundApi cs esT rootSha) (fuel + 1) "")
        (GitHubStream.tree2Tree esT Tree.empty "", [])).1 ""))
    _ (gFold cs) (Nat.le_refl _) hdk1 hdk2
    (fun q => (RK q).trans (GK q).symm) (fun q => (RE q).trans (GE q).symm)
  rw [Tree.eqv]
  exact decide_eq_true hnorm

/-- Witness for the C1 theorem: the fixture `gOneRound` with the truncated
listing `esTOneRound` (the `$c` subtree withheld) satisfies every hypothesis;
the root response is truncated and the synchronizer's output equals the full
fold. -/
theorem getTree_truncation_round_eq_full_fold_witness :
    (gwfB gOneRound = true ∧ distinctKeysB (topDirShas gOneRound) = true ∧
     ¬ ("shR" ∈ topDirShas gOneRound) ∧
     subListB esTOneRound (gListing gOneRound "") = true ∧
     closedForB gOneRound esTOneRound = true) ∧
    ((oneRoundApi gOneRound esTOneRound "shR").recTree "shR").truncated = true ∧
    Tree.eqv
      (GitHubStream.getFiles (oneRoundApi gOneRound esTOneRound "shR") 3 "shR").1
      (gFold gOneRound) = true :=
  ⟨⟨by decide, by decide, by decide, by decide, by decide⟩,
   getTree_truncation_round_eq_full_fold gOneRound esTOneRound "shR" 0
     (by decide) (by decide) (by decide) (by decide) (by decide)⟩

/-- An escaped segment never starts with `$`. -/
theorem escSeg_not_dollar (p : String) : firstIsDollar (escSeg p) = false := by
  by_cases h : firstIsDollar p = true
  · rw [escSeg, if_pos h]
    have hd : ("\\" ++ p).data = '\\' :: p.data := by simp [String.data_append]
    simp [firstIsDollar, hd]
  · rw [escSeg, if_neg h]
    exact Bool.of_not_eq_true h

/-- Escaping does not change a segment that does not start with `$`. -/
theorem escSeg_eq_self (p : String) (h : firstIsDollar p = false) : escSeg p = p := by
  rw [escSeg, if_neg (by rw [h]; simp)]

/-- Every listing is a selection of itself. -/
theorem subListB_refl (L : List GhEntry) : subListB L L = true := by
  rw [subListB]
  exact List.all_eq_true.mpr fun e he => decide_eq_true he

/-- The full recursive listing is subtree-closed. -/
theorem closedForB_full (cs : List GEntry) : closedForB cs (gListing cs "") = true := by
  rw [closedForB]
  apply List.all_eq_true.mpr
  intro e he
  cases e with
  | gfile nm sha sz => rfl
  | gdir nm dsha sub =>
    rw [Bool.or_eq_true]
    refine Or.inr (List.all_eq_true.mpr ?_)
    intro g hg
    rw [Bool.or_eq_true]
    exact Or.inr (decide_eq_true hg)

/-- Re-folding a top-level directory's full recursive listing keeps the node
paths sound and never removes a node path. -/
theorem refetch_preserves (cs : List GEntry) (nm dsha : String) (sub : List GEntry)
    (acc1 : Tree) (hwf : gwfB cs = true) (hx : (.gdir nm dsha sub) ∈ cs)
    (hKa : KaP cs acc1) :
    KaP cs (GitHubStream.tree2Tree (gListing sub "") acc1 nm) ∧
    (∀ q, acc1.keyAt q →
      (GitHubStream.tree2Tree (gListing sub "") acc1 nm).keyAt q) := by
  rcases gwfE_dir nm dsha sub (gwfL_mem cs _ (gwfB_gwfL cs hwf) hx) with
    ⟨hnmne, hnosl, hwsub⟩
  have FS := fold_sem nm [nm]
    (fun p _ => by rw [splitsTo_join, splitsTo, if_neg hnmne,
      strSplitSlash_noSlash nm hnosl])
    (gListing sub "") (gListing_hb1 sub [nm] hwsub) (gListing_hb4 sub [nm] hwsub)
    (gListing_hty sub hwsub) acc1
  obtain ⟨FK, -, -, -⟩ := FS
  have hU0 : ∀ q, acc1.keyAt q → ¬ underBlobL [nm] (gListing sub "") q := by
    intro q hKq hU
    rcases (underBlobL_gListing sub [nm] q hwsub).mp hU with ⟨r, i, hbl, hext⟩
    obtain ⟨extra, hq, hexne⟩ := hext
    have hqform : q = escSeg nm :: (r ++ extra) := by
      rw [hq, List.append_assoc]
      rfl
    have hch := hKa q (by rw [hqform]; simp) hKq
    rw [hqform, chainF_dir_iff cs nm dsha sub _ hwf hx] at hch
    rcases hch with hch | hch
    · rcases List.append_eq_nil.mp hch with ⟨-, h2⟩
      exact hexne h2
    · exact hexne (blobF_no_ext sub r extra i hwsub hbl hch)
  refine ⟨?_, fun q hKq => (FK q).mpr (Or.inr ⟨hKq, hU0 q hKq⟩)⟩
  intro q hq hK'
  rcases (FK q).mp hK' with hIn | ⟨hKq, -⟩
  · rcases (inKeysL_gListing sub [nm] q hwsub).mp hIn with ⟨r, hch, hin⟩
    rcases initOf_append_split ([nm].map escSeg) q r hin with hin1 | ⟨r', hr'ne, hqe, hin2⟩
    · rcases (initOf_singleton (escSeg nm) q).mp hin1 with rfl | rfl
      · exact absurd rfl hq
      · rw [chainF_dir_iff cs nm dsha sub [] hwf hx]
        exact Or.inl rfl
    · have hch' := chainF_initRun sub r r' hch hin2 hr'ne
      have hqform : q = escSeg nm :: r' := by rw [hqe]; rfl
      rw [hqform, chainF_dir_iff cs nm dsha sub r' hwf hx]
      exact Or.inr hch'
  · exact hKa q hq hKq

/-- The step-2 loop over a remote holding the complete root listing: the raw,
unescaped lookup finds every non-`$`-named top directory (already present)
and skips it, but misses every `$`-named one — whose key was stored escaped —
and re-fetches it; the recursive-fetch log is exactly the `$`-named top
directories' ids, in order. -/
theorem step2_log (cs : List GEntry) (rootSha : String) (fuel : Nat)
    (hwf : gwfB cs = true) (hshas : distinctKeysB (topDirShas cs) = true)
    (hroot : ¬ (rootSha ∈ topDirShas cs)) :
    ∀ (todo : List GEntry) (acc : Tree × List String),
    (∀ x ∈ todo, x ∈ cs) → KaP cs acc.1 →
    (∀ nm dsha sub, (.gdir nm dsha sub) ∈ todo → firstIsDollar nm = false →
      acc.1.keyAt [nm]) →
    ((gOneListing todo).foldl
      (GitHubStream.step2F (oneRoundApi cs (gListing cs "") rootSha) (fuel + 1) "")
      acc).2 =
      acc.2 ++ todo.filterMap (fun x =>
        match x with
        | .gdir nm dsha _ => if firstIsDollar nm then some dsha else none
        | _ => none)
  | [], acc, _, _, _ => by simp [gOneListing]
  | .gfile nm fsha fsz :: todo', acc, hmem, hKa, hkeys => by
    have hx : (.gfile nm fsha fsz : GEntry) ∈ cs := hmem _ (List.mem_cons_self _ _)
    rcases gwfE_file nm fsha fsz (gwfL_mem cs _ (gwfB_gwfL cs hwf) hx) with ⟨hnmne, -⟩
    have hone : gOneListing (.gfile nm fsha fsz :: todo') =
        (⟨some nm, some "blob", some fsha, some fsz⟩ : GhEntry) :: gOneListing todo' := rfl
    rw [hone, List.foldl_cons,
      step2F_nonTree (oneRoundApi cs (gListing cs "") rootSha) (fuel + 1) "" acc _ nm rfl
        hnmne (by simp),
      step2_log cs rootSha fuel hwf hshas hroot todo' acc
        (fun x hx' => hmem x (List.mem_cons_of_mem _ hx')) hKa
        (fun nm' dsha' sub' hm' => hkeys nm' dsha' sub' (List.mem_cons_of_mem _ hm'))]
    rfl
  | .gdir nm dsha sub :: todo', acc, hmem, hKa, hkeys => by
    have hx : (.gdir nm dsha sub : GEntry) ∈ cs := hmem _ (List.mem_cons_self _ _)
    rcases gwfE_dir nm dsha sub (gwfL_mem cs _ (gwfB_gwfL cs hwf) hx) with
      ⟨hnmne, hnosl, hwsub⟩
    have hone : gOneListing (.gdir nm dsha sub :: todo') =
        (⟨some nm, some "tree", some dsha, none⟩ : GhEntry) :: gOneListing todo' := rfl
    have hsplit : strSplitSlash (pathJoin "" nm) = [nm] := by
      rw [pathJoin_empty, strSplitSlash_noSlash nm hnosl]
    rw [hone, List.foldl_cons]
    cases hdol : firstIsDollar nm with
    | false =>
      -- present and found: skipped
      have hw : GitHubStream.walkFound acc.1 [nm] = true :=
        (walkFound_iff_keyAt acc.1 [nm]).mpr
          (hkeys nm dsha sub (List.mem_cons_self _ _) hdol)
      rw [step2F_found (oneRoundApi cs (gListing cs "") rootSha) (fuel + 1) "" acc _ nm
        rfl hnmne rfl (by rw [hsplit]; exact hw),
        step2_log cs rootSha fuel hwf hshas hroot todo' acc
          (fun x hx' => hmem x (List.mem_cons_of_mem _ hx')) hKa
          (fun nm' dsha' sub' hm' => hkeys nm' dsha' sub' (List.mem_cons_of_mem _ hm'))]
      have hfm : (List.filterMap (fun x =>
          match x with
          | GEntry.gdir nm dsha _ => if firstIsDollar nm then some dsha else none
          | x => none) (.gdir nm dsha sub :: todo')) =
          List.filterMap (fun x =>
          match x with
          | GEntry.gdir nm dsha _ => if firstIsDollar nm then some dsha else none
          | x => none) todo' := by
        rw [List.filterMap_cons]
        simp [hdol]
      rw [hfm]
    | true =>
      -- stored escaped, missed by the raw walk: re-fetched
      have hw : ¬ (GitHubStream.walkFound acc.1 [nm] = true) := by
        intro hw
        have hKey := (walkFound_iff_keyAt acc.1 [nm]).mp hw
        have hch := hKa [nm] (by simp) hKey
        rcases chainF_head cs [nm] hch with ⟨nm0, -, hh0⟩
        have hnmesc : nm = escSeg nm0 := by
          injection hh0
        rw [hnmesc, escSeg_not_dollar] at hdol
        cases hdol
      have hne : dsha ≠ rootSha := fun hc => hroot (hc ▸ topDirShas_mem cs nm dsha sub hx)
      have hresp : (oneRoundApi cs (gListing cs "") rootSha).recTree dsha =
          ⟨gListing sub "", false⟩ := by
        simp [oneRoundApi, hne, topDirSub_of_mem cs nm dsha sub hshas hx]
      have hfetch : GitHubStream.ghFetch (oneRoundApi cs (gListing cs "") rootSha)
          (fuel + 1) false dsha acc.1 (pathJoin "" nm) =
          (GitHubStream.tree2Tree (gListing sub "") acc.1 nm, [dsha]) := by
        rw [pathJoin_empty]
        exact ghFetch_false_notrunc _ fuel dsha acc.1 nm _ hresp
      rw [step2F_fetch (oneRoundApi cs (gListing cs "") rootSha) (fuel + 1) "" acc _ nm
        dsha rfl hnmne rfl (by rw [hsplit]; exact hw) rfl, hfetch]
      obtain ⟨hKa', hMono⟩ := refetch_preserves cs nm dsha sub acc.1 hwf hx hKa
      rw [step2_log cs rootSha fuel hwf hshas hroot todo'
        (GitHubStream.tree2Tree (gListing sub "") acc.1 nm, acc.2 ++ [dsha])
        (fun x hx' => hmem x (List.mem_cons_of_mem _ hx')) hKa'
        (fun nm' dsha' sub' hm' hd' =>
          hMono [nm'] (hkeys nm' dsha' sub' (List.mem_cons_of_mem _ hm') hd'))]
      have hfm : (List.filterMap (fun x =>
          match x with
          | GEntry.gdir nm dsha _ => if firstIsDollar nm then some dsha else none
          | x => none) (.gdir nm dsha sub :: todo')) =
          dsha :: List.filterMap (fun x =>
          match x with
          | GEntry.gdir nm dsha _ => if firstIsDollar nm then some dsha else none
          | x => none) todo' := by
        rw [List.filterMap_cons]
        simp [hdol]
      rw [hfm, List.append_assoc]
      rfl

/-- C2: the escaping of `$`-prefixed segments is applied identically on both
folding passes (both are `tree2Tree`), but the step-2 truncation-resolution
lookup walks the raw, unescaped segments.  Universally: for every well-formed
fixture whose truncated root listing is in fact complete — every subtree is
already fully inserted — the step-2 loop still re-fetches exactly the
`$`-named top-level directories (their keys were stored escaped, so the raw
walk misses them) and skips all others; the recursive-fetch log is the root
id followed by the `$`-named top directories' ids in order, and the re-fetch
re-folds the same data with the same escaping, so the resulting Tree still
equals the single non-truncated fold. -/
theorem getTruncatedTree_raw_lookup_vs_escaped_keys (cs : List GEntry)
    (rootSha : String) (fuel : Nat) (hwf : gwfB cs = true)
    (hshas : distinctKeysB (topDirShas cs) = true)
    (hroot : ¬ (rootSha ∈ topDirShas cs)) :
    (GitHubStream.getFiles (oneRoundApi cs (gListing cs "") rootSha)
        (fuel + 3) rootSha).2 =
      rootSha :: cs.filterMap (fun x =>
        match x with
        | .gdir nm dsha _ => if firstIsDollar nm then some dsha else none
        | _ => none) ∧
    Tree.eqv
      (GitHubStream.getFiles (oneRoundApi cs (gListing cs "") rootSha)
        (fuel + 3) rootSha).1
      (gFold cs) = true := by
  have hrootresp : (oneRoundApi cs (gListing cs "") rootSha).recTree rootSha =
      ⟨gListing cs "", true⟩ := by
    simp [oneRoundApi]
  obtain ⟨GK, GE⟩ := gFold_obs cs hwf
  have hKa0 : KaP cs (GitHubStream.tree2Tree (gListing cs "") Tree.empty "") :=
    fun q hq hK => ((GK q).mp hK).resolve_left hq
  have hkeys0 : ∀ nm dsha sub, (.gdir nm dsha sub) ∈ cs → firstIsDollar nm = false →
      (GitHubStream.tree2Tree (gListing cs "") Tree.empty "").keyAt [nm] := by
    intro nm dsha sub hm hdol
    have hesc := escSeg_eq_self nm hdol
    rw [← hesc]
    exact (GK [escSeg nm]).mpr
      (Or.inr ((chainF_dir_iff cs nm dsha sub [] hwf hm).mpr (Or.inl rfl)))
  constructor
  · show (GitHubStream.ghFetch (oneRoundApi cs (gListing cs "") rootSha) (fuel + 3)
      false rootSha Tree.empty "").2 = _
    rw [show fuel + 3 = (fuel + 2) + 1 from rfl,
      ghFetch_false_trunc _ (fuel + 2) rootSha Tree.empty "" _ hrootresp,
      show fuel + 2 = (fuel + 1) + 1 from rfl,
      ghFetch_true_eq (oneRoundApi cs (gListing cs "") rootSha) (fuel + 1) rootSha
        (GitHubStream.tree2Tree (gListing cs "") Tree.empty "") ""]
    show rootSha :: ((gOneListing cs).foldl
      (GitHubStream.step2F (oneRoundApi cs (gListing cs "") rootSha) (fuel + 1) "")
      (GitHubStream.tree2Tree (gListing cs "") Tree.empty "", [])).2 = _
    rw [step2_log cs rootSha fuel hwf hshas hroot cs
      (GitHubStream.tree2Tree (gListing cs "") Tree.empty "", [])
      (fun x hx => hx) hKa0 hkeys0]
    rfl
  · have hrun : (GitHubStream.getFiles (oneRoundApi cs (gListing cs "") rootSha)
        (fuel + 3) rootSha).1 =
        GitHubStream.tree2Tree (gOneListing cs)
          ((gOneListing cs).foldl
            (GitHubStream.step2F (oneRoundApi cs (gListing cs "") rootSha) (fuel + 1) "")
            (GitHubStream.tree2Tree (gListing cs "") Tree.empty "", [])).1 "" := by
      show (GitHubStream.ghFetch (oneRoundApi cs (gListing cs "") rootSha) (fuel + 3)
        false rootSha Tree.empty "").1 = _
      rw [show fuel + 3 = (fuel + 2) + 1 from rfl,
        ghFetch_false_trunc _ (fuel + 2) rootSha Tree.empty "" _ hrootresp,
        show fuel + 2 = (fuel + 1) + 1 from rfl,
        ghFetch_true_eq (oneRoundApi cs (gListing cs "") rootSha) (fuel + 1) rootSha
          (GitHubStream.tree2Tree (gListing cs "") Tree.empty "") ""]
      rfl
    rw [hrun]
    have hdk1 : Tree.dkB (GitHubStream.tree2Tree (gOneListing cs)
        ((gOneListing cs).foldl
          (GitHubStream.step2F (oneRoundApi cs (gListing cs "") rootSha) (fuel + 1) "")
          (GitHubStream.tree2Tree (gListing cs "") Tree.empty "", [])).1 "") = true := by
      rw [← hrun]
      exact ghFetch_dk (oneRoundApi cs (gListing cs "") rootSha) (fuel + 3) false rootSha
        Tree.empty "" rfl
    have hdk2 : Tree.dkB (gFold cs) = true := tree2Tree_dk _ Tree.empty "" rfl
    obtain ⟨RK, RE⟩ := round_obs cs (gListing cs "") rootSha fuel hwf hshas hroot
      (subListB_refl _) (closedForB_full cs)
    have hnorm := norm_ext
      (Tree.sz (GitHubStream.tree2Tree (gOneListing cs)
        ((gOneListing cs).foldl
          (GitHubStream.step2F (oneRoundApi cs (gListing cs "") rootSha) (fuel + 1) "")
          (GitHubStream.tree2Tree (gListing cs "") Tree.empty "", [])).1 ""))
      _ (gFold cs) (Nat.le_refl _) hdk1 hdk2
      (fun q => (RK q).trans (GK q).symm) (fun q => (RE q).trans (GE q).symm)
    rw [Tree.eqv]
    exact decide_eq_true hnorm

/-- Witness for the C2 theorem: on the fixture `gOneRound` (top directories
`a` and `$c`), with the complete root listing handed back as the truncated
one, the run fetches exactly `shR2` and then re-fetches only `shC`. -/
theorem getTruncatedTree_raw_lookup_vs_escaped_keys_witness :
    (gwfB gOneRound = true ∧ distinctKeysB (topDirShas gOneRound) = true ∧
     ¬ ("shR2" ∈ topDirShas gOneRound)) ∧
    ((GitHubStream.getFiles (oneRoundApi gOneRound (gListing gOneRound "") "shR2")
        3 "shR2").2 =
      "shR2" :: gOneRound.filterMap (fun x =>
        match x with
        | .gdir nm dsha _ => if firstIsDollar nm then some dsha else none
        | _ => none) ∧
    Tree.eqv
      (GitHubStream.getFiles (oneRoundApi gOneRound (gListing gOneRound "") "shR2")
        3 "shR2").1
      (gFold gOneRound) = true) :=
  ⟨⟨by decide, by decide, by decide⟩,
   getTruncatedTree_raw_lookup_vs_escaped_keys gOneRound "shR2" 0
     (by decide) (by decide) (by decide)⟩

end Ano
